import Mathlib

/-!
# Tree pruning (`src/tree/updater_prune-inl.hpp`)

A shallow embedding of `TreePruner`: the leaf-merge walker `TryPruneLeaf`, the
per-tree pass `DoPrune`, the batch entry point `Update` and the ensemble
synchroniser `SyncTrees`, together with the part of `RegTree` they act on.

Conventions of the embedding:

* node identifiers are natural numbers, the "no node" sentinel of the parent
  and child links is `none`;
* the C++ `int` values `depth`, `npruned` and `leaf_child_cnt` are unbounded
  integers (a pass over an arena of `n` slots keeps them within `2 * n`);
* floating point values are elements of an arbitrary type `F` carrying the
  operations the code applies to them (`*`, and `/` by the batch size);
* an operation that aborts in the code (an index outside the arena, the
  assertion of `ChangeToLeaf`) yields `Except.error`; a loop that would not
  terminate yields `Fault.outOfFuel`.
-/

namespace xgboost
namespace tree

deriving instance DecidableEq for Except

/-- The ways in which a pruning pass can abort. -/
inductive Fault where
  /-- a node identifier outside the arena was dereferenced -/
  | badIndex
  /-- `ChangeToLeaf` was applied to a node one of whose children is not a leaf -/
  | nonLeafChild
  /-- a walk along parent links did not reach a root -/
  | outOfFuel
  /-- `LoadModel` could not read a tree from the stream -/
  | loadFailed
  deriving DecidableEq, Repr

/-- Modelled from the spec: `RegTree::NodeStat` (declared in the missing
`model.h`), the statistics record of one node: `loss_chg`, `base_weight` and
the transient counter `leaf_child_cnt`. -/
structure NodeStat (F : Type) where
  loss_chg : F
  base_weight : F
  leaf_child_cnt : Int
  deriving DecidableEq, Repr

/-- Modelled from the spec: `RegTree::Node` (declared in the missing
`model.h`): the parent link (`none` is the sentinel of a root), the two child
links (`none` for a leaf), the output value of a leaf, and the statistics
record of the node, kept in the same arena slot. -/
structure Node (F : Type) where
  parent : Option Nat
  cleft : Option Nat
  cright : Option Nat
  leaf_value : F
  stat : NodeStat F
  deriving DecidableEq, Repr

/-- The node is a root: its parent link is the sentinel. -/
def Node.is_root {F : Type} (n : Node F) : Bool := n.parent.isNone

/-- The node is a leaf: it has no left child. -/
def Node.is_leaf {F : Type} (n : Node F) : Bool := n.cleft.isNone

/-- Modelled from the spec: `Node::set_leaf` (missing `model.h`): the node
becomes a leaf with the given output value and loses its child links. -/
def Node.set_leaf {F : Type} (n : Node F) (value : F) : Node F :=
  { n with cleft := none, cright := none, leaf_value := value }

/-- Modelled from the spec: `RegTree` (declared in the missing `model.h`), an
arena of node slots addressed by index. `param.num_nodes` is the length of
the arena; `num_roots` is the root count; `deleted_nodes` records the slots
reclaimed by collapses. -/
structure RegTree (F : Type) where
  nodes : List (Node F)
  num_roots : Nat
  deleted_nodes : List Nat
  deriving DecidableEq, Repr

/-- The value `tree.param.num_nodes`: the number of allocated slots. -/
def RegTree.num_nodes {F : Type} (t : RegTree F) : Nat := t.nodes.length

/-- Overwrite the slot `nid` (no effect outside the arena). -/
def RegTree.setNode {F : Type} (t : RegTree F) (nid : Nat) (n : Node F) : RegTree F :=
  { t with nodes := t.nodes.set nid n }

/-- Modelled from the spec: `RegTree::DeleteNode` (missing `model.h`): the
slot becomes inactive, its parent link is reset to the sentinel, and it is
recorded as reclaimed. -/
def RegTree.DeleteNode {F : Type} (t : RegTree F) (nid : Nat) : RegTree F :=
  match t.nodes[nid]? with
  | none => t
  | some n =>
    { t with nodes := t.nodes.set nid { n with parent := none },
             deleted_nodes := t.deleted_nodes ++ [nid] }

/-- Modelled from the spec: `RegTree::ChangeToLeaf` (missing `model.h`):
collapse `rid` into a leaf of the given value and remove its two children.
Both children must be leaves; otherwise the call aborts. -/
def RegTree.ChangeToLeaf {F : Type} (t : RegTree F) (rid : Nat) (value : F) :
    Except Fault (RegTree F) :=
  match t.nodes[rid]? with
  | none => .error .badIndex
  | some r =>
    match r.cleft, r.cright with
    | some cl, some cr =>
      match t.nodes[cl]?, t.nodes[cr]? with
      | some nl, some nr =>
        if nl.is_leaf && nr.is_leaf then
          let t2 := (t.DeleteNode cl).DeleteNode cr
          match t2.nodes[rid]? with
          | none => .error .badIndex
          | some r2 => .ok (t2.setNode rid (r2.set_leaf value))
        else .error .nonLeafChild
      | _, _ => .error .badIndex
    | _, _ => .error .badIndex

/-- The loop of `RegTree::GetDepth`: follow parent links up to a root,
counting the steps. -/
def RegTree.GetDepthLoop {F : Type} (t : RegTree F) : Nat → Nat → Int → Except Fault Int
  | 0, _, _ => .error .outOfFuel
  | fuel + 1, nid, depth =>
    match t.nodes[nid]? with
    | none => .error .badIndex
    | some n =>
      match n.parent with
      | none => .ok depth
      | some pid => RegTree.GetDepthLoop t fuel pid (depth + 1)

/-- Modelled from the spec: `RegTree::GetDepth` (missing `model.h`): the
distance from the node to its root along the parent chain. A chain through
more slots than the arena holds revisits a slot and never ends. -/
def RegTree.GetDepth {F : Type} (t : RegTree F) (nid : Nat) : Except Fault Int :=
  t.GetDepthLoop (t.num_nodes + 1) nid 0

/-- The slot `c` exists and its parent link is `i`. -/
def RegTree.hasParent {F : Type} (t : RegTree F) (c i : Nat) : Bool :=
  match t.nodes[c]? with
  | none => false
  | some nc => decide (nc.parent = some i)

/-- The child links of slot `i`: either none at all (a leaf), or two distinct
slots whose parent link is `i`. -/
def RegTree.childrenOK {F : Type} (t : RegTree F) (i : Nat) (n : Node F) : Bool :=
  match n.cleft, n.cright with
  | none, none => true
  | some l, some r => decide (l ≠ r) && t.hasParent l i && t.hasParent r i
  | _, _ => false

/-- The parent link of slot `i`: either the sentinel, or an allocated slot
one of whose child links is `i`. -/
def RegTree.parentOK {F : Type} (t : RegTree F) (i : Nat) (n : Node F) : Bool :=
  match n.parent with
  | none => true
  | some p =>
    match t.nodes[p]? with
    | none => false
    | some np => decide (np.cleft = some i) || decide (np.cright = some i)

/-- The parent chain of slot `i` reaches a root. -/
def RegTree.depthOK {F : Type} (t : RegTree F) (i : Nat) : Bool :=
  match t.GetDepth i with
  | .ok _ => true
  | .error _ => false

/-- Well-formedness of the arena, as a decidable check: every internal node has
two distinct children whose parent link points back to it, a leaf has no
child, every parent link refers to an allocated node that lists the slot as a
child, and parent links are acyclic. -/
def RegTree.wellFormed {F : Type} (t : RegTree F) : Bool :=
  (List.range t.nodes.length).all fun i =>
    match t.nodes[i]? with
    | none => false
    | some n => t.childrenOK i n && t.parentOK i n && t.depthOK i

/-- Well-formedness of the arena, as a proposition (the content of
`RegTree.wellFormed`). -/
structure RegTree.WF {F : Type} (t : RegTree F) : Prop where
  children : ∀ (i : Nat) (n : Node F) (l : Nat), t.nodes[i]? = some n → n.cleft = some l →
    ∃ (r : Nat) (nl nr : Node F), n.cright = some r ∧ l ≠ r ∧
      t.nodes[l]? = some nl ∧ nl.parent = some i ∧
      t.nodes[r]? = some nr ∧ nr.parent = some i
  leaf : ∀ (i : Nat) (n : Node F), t.nodes[i]? = some n → n.cleft = none → n.cright = none
  parent : ∀ (i : Nat) (n : Node F) (p : Nat), t.nodes[i]? = some n → n.parent = some p →
    ∃ np : Node F, t.nodes[p]? = some np ∧ (np.cleft = some i ∨ np.cright = some i)
  depth : ∀ (i : Nat) (n : Node F), t.nodes[i]? = some n → ∃ d : Int, t.GetDepth i = .ok d

/-- Modelled from the spec: `TrainParam` (declared in the missing `param.h`):
the learning rate and the pruning policy, a pure predicate of a loss change
and a depth. -/
structure TrainParam (F : Type) where
  learning_rate : F
  need_prune : F → Int → Bool

/-- The node `pn` after `++s.leaf_child_cnt` (line 63): one more leaf child has
arrived. -/
def bump {F : Type} (pn : Node F) : Node F :=
  { pn with stat := { pn.stat with leaf_child_cnt := pn.stat.leaf_child_cnt + 1 } }

/-- The function `TreePruner::TryPruneLeaf` (lines 59-72). The first argument
bounds the length of the tail-recursive chain. The branch `none` of the parent
link is the test `is_root()` of line 60. -/
def TryPruneLeaf {F : Type} [Mul F] (param : TrainParam F) :
    Nat → RegTree F → Nat → Int → Int → Except Fault (RegTree F × Int)
  | 0, _, _, _, _ => .error .outOfFuel
  | fuel + 1, tree, nid, depth, npruned =>
    match tree.nodes[nid]? with
    | none => .error .badIndex
    | some n =>
      match n.parent with
      | none => .ok (tree, npruned)
      | some pid =>
        match tree.nodes[pid]? with
        | none => .error .badIndex
        | some pn =>
          let s : NodeStat F :=
            { pn.stat with leaf_child_cnt := pn.stat.leaf_child_cnt + 1 }
          let tree1 := tree.setNode pid { pn with stat := s }
          if s.leaf_child_cnt ≥ 2 && param.need_prune s.loss_chg (depth - 1) then
            match tree1.ChangeToLeaf pid (param.learning_rate * s.base_weight) with
            | .error e => .error e
            | .ok tree2 => TryPruneLeaf param fuel tree2 pid (depth - 1) (npruned + 2)
          else .ok (tree1, npruned)

/-- The first loop of `DoPrune` (lines 77-79): every `leaf_child_cnt` is set
to zero. -/
def RegTree.resetLeafChildCnt {F : Type} (t : RegTree F) : RegTree F :=
  { t with
    nodes := t.nodes.map (fun n => { n with stat := { n.stat with leaf_child_cnt := 0 } }) }

/-- One iteration of the second loop of `DoPrune` (lines 81-83) at index
`nid`. -/
def PruneStep {F : Type} [Mul F] (param : TrainParam F) (st : RegTree F × Int)
    (nid : Nat) : Except Fault (RegTree F × Int) :=
  match st.1.nodes[nid]? with
  | none => .error .badIndex
  | some n =>
    if n.is_leaf then
      match st.1.GetDepth nid with
      | .error e => .error e
      | .ok d => TryPruneLeaf param (st.1.num_nodes + 1) st.1 nid d st.2
    else .ok st

/-- The second loop of `DoPrune` over a given sequence of indices. -/
def PruneVisit {F : Type} [Mul F] (param : TrainParam F) :
    List Nat → RegTree F × Int → Except Fault (RegTree F × Int)
  | [], st => .ok st
  | nid :: rest, st =>
    match PruneStep param st nid with
    | .error e => .error e
    | .ok st2 => PruneVisit param rest st2

/-- The pass of `DoPrune` with the second loop running over `order` instead
of `0, 1, ..., num_nodes - 1`. -/
def DoPruneOrder {F : Type} [Mul F] (param : TrainParam F) (order : List Nat)
    (tree : RegTree F) : Except Fault (RegTree F × Int) :=
  PruneVisit param order (tree.resetLeafChildCnt, 0)

/-- The function `TreePruner::DoPrune` (lines 74-89), returning the pruned tree
and the final value of `npruned`. The diagnostic line is not modelled. -/
def DoPrune {F : Type} [Mul F] (param : TrainParam F) (tree : RegTree F) :
    Except Fault (RegTree F × Int) :=
  DoPruneOrder param (List.range tree.num_nodes) tree

/-- The loop of `Update` (lines 33-35): every tree of the batch is pruned in
turn with the same parameters. -/
def PruneAll {F : Type} [Mul F] (param : TrainParam F) :
    List (RegTree F) → Except Fault (List (RegTree F))
  | [] => .ok []
  | t :: ts =>
    match DoPrune param t with
    | .error e => .error e
    | .ok r =>
      match PruneAll param ts with
      | .error e => .error e
      | .ok rs => .ok (r.1 :: rs)

/-- Lines 31-36 of `Update`: the learning rate is divided by the batch size,
the trees are pruned, and the learning rate is put back. The result is the
parameter record and the batch as they are just before `SyncTrees`. -/
def UpdatePrune {F : Type} [Mul F] [Div F] [NatCast F] (param : TrainParam F)
    (trees : List (RegTree F)) : Except Fault (TrainParam F × List (RegTree F)) :=
  let lr := param.learning_rate
  let param1 : TrainParam F := { param with learning_rate := lr / (trees.length : F) }
  match PruneAll param1 trees with
  | .error e => .error e
  | .ok trees1 => .ok ({ param1 with learning_rate := lr }, trees1)

/-- Modelled from the spec: the serialisation of `RegTree` (`SaveModel` and
`LoadModel` of the missing `model.h`) on a byte stream: `SaveModel` appends
the bytes of a tree, `LoadModel` consumes a prefix of the stream and yields
the tree it encodes, or fails. -/
structure ModelIO (F : Type) where
  SaveModel : RegTree F → List UInt8
  LoadModel : List UInt8 → Option (RegTree F × List UInt8)

/-- The collective operations a call of `SyncTrees` performs, in order. -/
inductive SyncEvent where
  | save (i : Nat)
  | bcast
  | load (i : Nat)
  deriving DecidableEq, Repr

/-- The loop of lines 47-49: tree `i`, `i+1`, ... are written to the stream. -/
def saveLoop {F : Type} (io : ModelIO F) :
    Nat → List (RegTree F) → List UInt8 → List UInt8 × List SyncEvent
  | _, [], s_model => (s_model, [])
  | i, t :: ts, s_model =>
    let r := saveLoop io (i + 1) ts (s_model ++ io.SaveModel t)
    (r.1, SyncEvent.save i :: r.2)

/-- The loop of lines 53-55: every tree of the batch is overwritten by the next
tree read from the stream. -/
def loadLoop {F : Type} (io : ModelIO F) :
    Nat → List (RegTree F) → List UInt8 → Except Fault (List (RegTree F) × List SyncEvent)
  | _, [], _ => .ok ([], [])
  | i, _ :: ts, fs =>
    match io.LoadModel fs with
    | none => .error .loadFailed
    | some (t, fs2) =>
      match loadLoop io (i + 1) ts fs2 with
      | .error e => .error e
      | .ok r => .ok (t :: r.1, SyncEvent.load i :: r.2)

/-- The function `TreePruner::SyncTrees` (lines 41-57) as run by one worker.
`world_size` and `rank` are the answers of `sync::GetWorldSize` and
`sync::GetRank`; `Bcast` is what `sync::Bcast(&s_model, 0)` leaves in the
buffer it is given. The result is the batch after the call and the collective
operations performed. -/
def SyncTrees {F : Type} (io : ModelIO F) (world_size rank : Nat)
    (Bcast : List UInt8 → List UInt8) (trees : List (RegTree F)) :
    Except Fault (List (RegTree F) × List SyncEvent) :=
  if world_size = 1 then .ok (trees, [])
  else
    if rank = 0 then
      let r := saveLoop io 0 trees []
      let _s_model := Bcast r.1
      .ok (trees, r.2 ++ [SyncEvent.bcast])
    else
      let s_model := Bcast []
      match loadLoop io 0 trees s_model with
      | .error e => .error e
      | .ok r => .ok (r.1, SyncEvent.bcast :: r.2)

/-- The buffer rank 0 hands to `sync::Bcast`: the concatenated models of its
batch (lines 47-49). -/
def rankZeroBuffer {F : Type} (io : ModelIO F) (trees : List (RegTree F)) : List UInt8 :=
  (saveLoop io 0 trees []).1

/-- A group of workers calling `SyncTrees` collectively: worker `rank` holds
`batch`, and `sync::Bcast` delivers the buffer of rank 0, built from
`batch0`, to every worker. -/
def SyncTreesInGroup {F : Type} (io : ModelIO F) (world_size : Nat)
    (batch0 : List (RegTree F)) (rank : Nat) (batch : List (RegTree F)) :
    Except Fault (List (RegTree F) × List SyncEvent) :=
  SyncTrees io world_size rank
    (fun own => if rank = 0 then own else rankZeroBuffer io batch0) batch

/-- The function `TreePruner::Update` (lines 26-38) as run by one worker: the
batch is pruned with the rescaled learning rate, the learning rate is
restored, and the batch is synchronised. The arguments `gpair`, `p_fmat` and
`info` are not used by the code. -/
def Update {F : Type} [Mul F] [Div F] [NatCast F] (io : ModelIO F)
    (world_size rank : Nat) (Bcast : List UInt8 → List UInt8)
    (param : TrainParam F) (trees : List (RegTree F)) :
    Except Fault (TrainParam F × List (RegTree F) × List SyncEvent) :=
  match UpdatePrune param trees with
  | .error e => .error e
  | .ok r =>
    match SyncTrees io world_size rank Bcast r.2 with
    | .error e => .error e
    | .ok q => .ok (r.1, q.1, q.2)

/-- Repeated calls of `Update` by one worker, one per batch, threading the
parameter record from each call to the next. The result is the parameter
record after the last call. -/
def UpdateSeq {F : Type} [Mul F] [Div F] [NatCast F] (io : ModelIO F)
    (world_size rank : Nat) (Bcast : List UInt8 → List UInt8) :
    TrainParam F → List (List (RegTree F)) → Except Fault (TrainParam F)
  | param, [] => .ok param
  | param, trees :: more =>
    match Update io world_size rank Bcast param trees with
    | .error e => .error e
    | .ok r => UpdateSeq io world_size rank Bcast r.1 more

/-- What the pass may turn the slot `n0` into, for learning rate `lr`: the
statistics `loss_chg` and `base_weight` stay, the parent link stays or is
reset to the sentinel (the slot, a leaf, was reclaimed), and either the child
links and the value stay, or the slot was an internal node and is now a leaf
of value `lr * base_weight`. -/
def Node.prunedFrom {F : Type} [Mul F] (lr : F) (n0 n : Node F) : Prop :=
  n.stat.loss_chg = n0.stat.loss_chg ∧ n.stat.base_weight = n0.stat.base_weight ∧
  (n.parent = n0.parent ∨ (n.parent = none ∧ n.cleft = none)) ∧
  ((n.cleft = n0.cleft ∧ n.cright = n0.cright ∧ n.leaf_value = n0.leaf_value) ∨
   (n0.cleft ≠ none ∧ n.cleft = none ∧ n.cright = none ∧
     n.leaf_value = lr * n0.stat.base_weight))

/-- The arena `t` comes from `t0` by a sequence of steps of the pass: same
slots, same root count, every slot related by `Node.prunedFrom`. -/
def RegTree.prunedFrom {F : Type} [Mul F] (lr : F) (t0 t : RegTree F) : Prop :=
  t.nodes.length = t0.nodes.length ∧ t.num_roots = t0.num_roots ∧
  ∀ (i : Nat) (n0 : Node F), t0.nodes[i]? = some n0 →
    ∃ n : Node F, t.nodes[i]? = some n ∧ Node.prunedFrom lr n0 n

/-- The state `(t, k)` comes from the state `(t0, k0)` by steps of the pass:
the slots are related by `RegTree.prunedFrom`, and the slots reclaimed in
between, listed in `deleted_nodes` after the earlier ones, are without
repetition exactly the slots that had a parent and have none any more; the
count has grown by their number; and a slot that was an internal node is
listed after its two children. -/
structure PassRel {F : Type} [Mul F] (lr : F) (t0 : RegTree F) (k0 : Int) (t : RegTree F)
    (k : Int) : Prop where
  frame : RegTree.prunedFrom lr t0 t
  removed : ∃ L : List Nat, t.deleted_nodes = t0.deleted_nodes ++ L ∧
    k = k0 + (L.length : Int) ∧ L.Nodup ∧
    ∀ x : Nat, x ∈ L ↔ ∃ (n0 n : Node F) (p : Nat),
      t0.nodes[x]? = some n0 ∧ t.nodes[x]? = some n ∧ n0.parent = some p ∧ n.parent = none
  order : ∀ (L1 L2 : List Nat) (x : Nat) (n0 : Node F) (c : Nat),
    t.deleted_nodes = t0.deleted_nodes ++ (L1 ++ x :: L2) → t0.nodes[x]? = some n0 →
    (n0.cleft = some c ∨ n0.cright = some c) → c ∈ L1

/-- The tree `t2` is the tree `t` after one collapse of the walker: the counter
of the internal node `pid` (slot content `pn`, children `cl` and `cr`, both
leaves) was bumped, `pid` was turned into a leaf of value `v`, and the two
children were reclaimed. -/
structure CollapseStep {F : Type} (t t2 : RegTree F) (pid cl cr : Nat) (pn nl nr : Node F)
    (v : F) : Prop where
  hpn : t.nodes[pid]? = some pn
  hcl : pn.cleft = some cl
  hcr : pn.cright = some cr
  hnl : t.nodes[cl]? = some nl
  hnr : t.nodes[cr]? = some nr
  leafl : nl.cleft = none
  leafr : nr.cleft = none
  ne1 : pid ≠ cl
  ne2 : pid ≠ cr
  roots : t2.num_roots = t.num_roots
  deleted : t2.deleted_nodes = t.deleted_nodes ++ [cl, cr]
  length : t2.nodes.length = t.nodes.length
  get : ∀ j : Nat, t2.nodes[j]? =
    if j = pid then some ((bump pn).set_leaf v)
    else if j = cl ∨ j = cr then (t.nodes[j]?).map (fun n => { n with parent := none })
    else t.nodes[j]?

/-- The slot `c` is a leaf that the loop has visited (it is in `V`) and whose
arrival at its parent is not the pending one `x`. -/
def RegTree.Arrived {F : Type} (t : RegTree F) (V : List Nat) (x : Option Nat) (c : Nat) :
    Prop :=
  ∃ nc : Node F, t.nodes[c]? = some nc ∧ nc.cleft = none ∧ c ∈ V ∧ x ≠ some c

/-- The invariant of a pass, for the current tree `t`, the slots `V` the loop
has visited and the pending arrival `x`: the tree is well-formed; counters are
not negative; the counter of an internal node is at least the number of its
children that are leaves and have been visited; and an internal node whose
counter has reached 2 is one the policy keeps at its depth. -/
structure PassInv {F : Type} (param : TrainParam F) (t : RegTree F) (V : List Nat)
    (x : Option Nat) : Prop where
  wf : t.WF
  nonneg : ∀ (i : Nat) (n : Node F), t.nodes[i]? = some n → 0 ≤ n.stat.leaf_child_cnt
  low : ∀ (p : Nat) (np : Node F) (l r : Nat), t.nodes[p]? = some np →
    np.cleft = some l → np.cright = some r →
    (t.Arrived V x l → 1 ≤ np.stat.leaf_child_cnt) ∧
    (t.Arrived V x r → 1 ≤ np.stat.leaf_child_cnt) ∧
    (t.Arrived V x l → t.Arrived V x r → 2 ≤ np.stat.leaf_child_cnt)
  gate : ∀ (p : Nat) (np : Node F) (c : Nat) (d : Int), t.nodes[p]? = some np →
    np.cleft = some c → 2 ≤ np.stat.leaf_child_cnt → t.GetDepth p = .ok d →
    param.need_prune np.stat.loss_chg d = false

/-- No split that the policy rejects sits directly above two leaves. -/
def RegTree.Complete {F : Type} (param : TrainParam F) (t : RegTree F) : Prop :=
  ∀ (p : Nat) (np : Node F) (l r : Nat) (nl nr : Node F) (d : Int),
    t.nodes[p]? = some np → np.cleft = some l → np.cright = some r →
    t.nodes[l]? = some nl → nl.cleft = none → t.nodes[r]? = some nr → nr.cleft = none →
    t.GetDepth p = .ok d → param.need_prune np.stat.loss_chg d = false

/-- The invariant of a pass over a tree on which nothing is left to prune: the
tree is well-formed and complete, and the counter of an internal node is at
most the number of its children that are leaves and have been visited. -/
structure QuietInv {F : Type} (param : TrainParam F) (t : RegTree F) (V : List Nat) :
    Prop where
  wf : t.WF
  complete : t.Complete param
  up : ∀ (p : Nat) (np : Node F) (l r : Nat), t.nodes[p]? = some np →
    np.cleft = some l → np.cright = some r →
    (1 ≤ np.stat.leaf_child_cnt → t.Arrived V none l ∨ t.Arrived V none r) ∧
    (2 ≤ np.stat.leaf_child_cnt → t.Arrived V none l ∧ t.Arrived V none r)

/-- The invariant that keeps a pass from aborting on a tree in which every
internal node has a child that was a leaf from the start (a leaf whose counter
is 0): the tree is well-formed, counters are not negative, and when the
counter of an internal node is positive while one of its children is still
internal, the other child has been visited and is not the pending arrival. -/
structure SafeInv {F : Type} (t : RegTree F) (V : List Nat) (x : Option Nat) : Prop where
  wf : t.WF
  nonneg : ∀ (i : Nat) (n : Node F), t.nodes[i]? = some n → 0 ≤ n.stat.leaf_child_cnt
  cat : ∀ (p : Nat) (np : Node F) (l r : Nat) (nl nr : Node F), t.nodes[p]? = some np →
    np.cleft = some l → np.cright = some r → t.nodes[l]? = some nl → t.nodes[r]? = some nr →
    (nl.cleft = none ∧ nl.stat.leaf_child_cnt = 0) ∨
    (nr.cleft = none ∧ nr.stat.leaf_child_cnt = 0)
  one : ∀ (p : Nat) (np : Node F) (l r : Nat) (nl nr : Node F), t.nodes[p]? = some np →
    np.cleft = some l → np.cright = some r → t.nodes[l]? = some nl → t.nodes[r]? = some nr →
    1 ≤ np.stat.leaf_child_cnt →
    (nr.cleft ≠ none → l ∈ V ∧ x ≠ some l) ∧ (nl.cleft ≠ none → r ∈ V ∧ x ≠ some r)

/-- The state `(t, k)` comes from the state `(t0, k0)` by steps of the walker,
on any arena: the slots are related by `RegTree.prunedFrom`; the nodes
collapsed in between, the list `M` without repetition, are exactly the slots
that were internal nodes and are leaves, and the count has grown by 2 for each;
the slots reclaimed in between, the list `L` appended to `deleted_nodes`, are
as many as the count has grown, contain every slot whose parent link changed
and the two children of every collapsed node, and each of them is a leaf
without a parent and was a child of a collapsed node. -/
structure WalkRel {F : Type} [Mul F] (lr : F) (t0 : RegTree F) (k0 : Int) (t : RegTree F)
    (k : Int) : Prop where
  frame : RegTree.prunedFrom lr t0 t
  collapsed : ∃ M : List Nat, M.Nodup ∧ k = k0 + 2 * (M.length : Int) ∧
    ∀ x : Nat, x ∈ M ↔ ∃ (n0 n : Node F),
      t0.nodes[x]? = some n0 ∧ t.nodes[x]? = some n ∧ n0.cleft ≠ none ∧ n.cleft = none
  removed : ∃ L : List Nat, t.deleted_nodes = t0.deleted_nodes ++ L ∧
    (L.length : Int) = k - k0 ∧
    (∀ (x : Nat) (n0 n : Node F), t0.nodes[x]? = some n0 → t.nodes[x]? = some n →
      n.parent ≠ n0.parent → x ∈ L) ∧
    (∀ (x : Nat) (n0 n : Node F), t0.nodes[x]? = some n0 → t.nodes[x]? = some n →
      n0.cleft ≠ none → n.cleft = none →
      ∃ l r : Nat, n0.cleft = some l ∧ n0.cright = some r ∧ l ∈ L ∧ r ∈ L) ∧
    (∀ x ∈ L, (∃ n : Node F, t.nodes[x]? = some n ∧ n.parent = none ∧ n.cleft = none) ∧
      ∃ (p : Nat) (n0p np : Node F), t0.nodes[p]? = some n0p ∧ t.nodes[p]? = some np ∧
        (n0p.cleft = some x ∨ n0p.cright = some x) ∧ n0p.cleft ≠ none ∧ np.cleft = none)

/-- The frame of pruning between the tree `t0` before and the tree `t` after,
for learning rate `lr`. The arena keeps its slots and its root count, and every
slot keeps `loss_chg` and `base_weight`. With `L` the slots appended to
`deleted_nodes` (the removed nodes): a slot outside `L` keeps its parent link
and its root flag; a slot that has not gone from internal node to leaf keeps
its leaf flag, its child links and its leaf value; a slot that has gone from
internal node to leaf (a collapsed node) has no child links, the value
`lr * base_weight`, and its two children are in `L`; and every slot in `L` was
a child of a collapsed node. Nothing is said of `leaf_child_cnt`. -/
structure PruneFrame {F : Type} [Mul F] (lr : F) (t0 t : RegTree F) : Prop where
  length : t.nodes.length = t0.nodes.length
  roots : t.num_roots = t0.num_roots
  stats : ∀ (x : Nat) (n0 : Node F), t0.nodes[x]? = some n0 →
    ∃ n : Node F, t.nodes[x]? = some n ∧ n.stat.loss_chg = n0.stat.loss_chg ∧
      n.stat.base_weight = n0.stat.base_weight
  slots : ∃ L : List Nat, t.deleted_nodes = t0.deleted_nodes ++ L ∧
    (∀ (x : Nat) (n0 n : Node F), t0.nodes[x]? = some n0 → t.nodes[x]? = some n → x ∉ L →
      n.parent = n0.parent ∧ n.is_root = n0.is_root) ∧
    (∀ (x : Nat) (n0 n : Node F), t0.nodes[x]? = some n0 → t.nodes[x]? = some n →
      (n0.is_leaf = true ∨ n.is_leaf = false) →
      n.is_leaf = n0.is_leaf ∧ n.cleft = n0.cleft ∧ n.cright = n0.cright ∧
        n.leaf_value = n0.leaf_value) ∧
    (∀ (x : Nat) (n0 n : Node F), t0.nodes[x]? = some n0 → t.nodes[x]? = some n →
      n0.is_leaf = false → n.is_leaf = true →
      n.cleft = none ∧ n.cright = none ∧ n.leaf_value = lr * n0.stat.base_weight ∧
        ∃ l r : Nat, n0.cleft = some l ∧ n0.cright = some r ∧ l ∈ L ∧ r ∈ L) ∧
    (∀ x ∈ L, ∃ (p : Nat) (n0p np : Node F), t0.nodes[p]? = some n0p ∧
      t.nodes[p]? = some np ∧ (n0p.cleft = some x ∨ n0p.cright = some x) ∧
      n0p.is_leaf = false ∧ np.is_leaf = true)

/-- The nodes collapsed between `t0` and `t`: the slots that are internal
nodes in `t0` and leaves in `t`. -/
def collapsedSlots {F : Type} (t0 t : RegTree F) : List Nat :=
  (List.range t0.nodes.length).filter fun x =>
    match t0.nodes[x]?, t.nodes[x]? with
    | some n0, some n => !n0.is_leaf && n.is_leaf
    | _, _ => false

/-- The node slots removed between `t0` and `t`: the slots that have a parent
in `t0` and the sentinel as parent link in `t`. -/
def removedSlots {F : Type} (t0 t : RegTree F) : List Nat :=
  (List.range t0.nodes.length).filter fun x =>
    match t0.nodes[x]?, t.nodes[x]? with
    | some n0, some n => !n0.is_root && n.is_root
    | _, _ => false

/-- What a pass does that the depth convention speaks of: a call
`TryPruneLeaf(tree, nid, depth, _)`, and an evaluation
`need_prune(loss_chg[pid], depth)` of the policy for the node `pid` of
`tree`. -/
inductive WalkEvent (F : Type) where
  | call (tree : RegTree F) (nid : Nat) (depth : Int)
  | policy (tree : RegTree F) (pid : Nat) (depth : Int)
  deriving DecidableEq, Repr

/-- The function `TryPruneLeaf` (lines 59-72) once more, now also returning the
calls it makes and the evaluations of `need_prune` it performs, in order. The
conjunction of line 64 evaluates `need_prune` only when the counter has
reached 2. -/
def TryPruneLeafTrace {F : Type} [Mul F] (param : TrainParam F) :
    Nat → RegTree F → Nat → Int → Int →
      List (WalkEvent F) × Except Fault (RegTree F × Int)
  | 0, tree, nid, depth, _ => ([.call tree nid depth], .error .outOfFuel)
  | fuel + 1, tree, nid, depth, npruned =>
    match tree.nodes[nid]? with
    | none => ([.call tree nid depth], .error .badIndex)
    | some n =>
      match n.parent with
      | none => ([.call tree nid depth], .ok (tree, npruned))
      | some pid =>
        match tree.nodes[pid]? with
        | none => ([.call tree nid depth], .error .badIndex)
        | some pn =>
          let s : NodeStat F :=
            { pn.stat with leaf_child_cnt := pn.stat.leaf_child_cnt + 1 }
          let tree1 := tree.setNode pid { pn with stat := s }
          if s.leaf_child_cnt ≥ 2 then
            if param.need_prune s.loss_chg (depth - 1) then
              match tree1.ChangeToLeaf pid (param.learning_rate * s.base_weight) with
              | .error e =>
                ([.call tree nid depth, .policy tree1 pid (depth - 1)], .error e)
              | .ok tree2 =>
                let r := TryPruneLeafTrace param fuel tree2 pid (depth - 1) (npruned + 2)
                (.call tree nid depth :: .policy tree1 pid (depth - 1) :: r.1, r.2)
            else ([.call tree nid depth, .policy tree1 pid (depth - 1)], .ok (tree1, npruned))
          else ([.call tree nid depth], .ok (tree1, npruned))

/-- One iteration of the second loop of `DoPrune` (lines 81-83), with the
events of the call it makes. -/
def PruneStepTrace {F : Type} [Mul F] (param : TrainParam F) (st : RegTree F × Int)
    (nid : Nat) : List (WalkEvent F) × Except Fault (RegTree F × Int) :=
  match st.1.nodes[nid]? with
  | none => ([], .error .badIndex)
  | some n =>
    if n.is_leaf then
      match st.1.GetDepth nid with
      | .error e => ([], .error e)
      | .ok d => TryPruneLeafTrace param (st.1.num_nodes + 1) st.1 nid d st.2
    else ([], .ok st)

/-- The second loop of `DoPrune` over a given sequence of indices, with the
events of all its iterations. -/
def PruneVisitTrace {F : Type} [Mul F] (param : TrainParam F) :
    List Nat → RegTree F × Int → List (WalkEvent F) × Except Fault (RegTree F × Int)
  | [], st => ([], .ok st)
  | nid :: rest, st =>
    match PruneStepTrace param st nid with
    | (ev, .error e) => (ev, .error e)
    | (ev, .ok st2) =>
      let r := PruneVisitTrace param rest st2
      (ev ++ r.1, r.2)

/-- The function `DoPrune` (lines 74-89) with the events of the pass: every
call of `TryPruneLeaf`, initial or recursive, and every evaluation of
`need_prune`. -/
def DoPruneTrace {F : Type} [Mul F] (param : TrainParam F) (tree : RegTree F) :
    List (WalkEvent F) × Except Fault (RegTree F × Int) :=
  PruneVisitTrace param (List.range tree.num_nodes) (tree.resetLeafChildCnt, 0)

/-- Reference: a binary tree as a value, for the recursive bottom-up pruning
that `DoPrune` is compared with. A leaf carries its slot and its output
value; an internal node carries its slot, its `loss_chg`, its `base_weight`
and its two subtrees. -/
inductive RefTree (F : Type) where
  | leaf (id : Nat) (value : F)
  | node (id : Nat) (loss_chg base_weight : F) (left right : RefTree F)
  deriving DecidableEq, Repr

/-- Reference: the tree is a leaf. -/
def RefTree.isLeaf {F : Type} : RefTree F → Bool
  | .leaf _ _ => true
  | .node _ _ _ _ _ => false

/-- Reference: the recursive bottom-up pruning of the subtree `n` standing at
depth `d`, for the policy `P` and the learning rate `r`: a leaf stays; an
internal node whose pruned subtrees are both leaves and whose split the policy
prunes at depth `d` becomes a leaf of value `r * base_weight`; any other
internal node stays, above its pruned subtrees. -/
def RefTree.prune {F : Type} [Mul F] (P : F → Int → Bool) (r : F) : RefTree F → Int → RefTree F
  | .leaf id v, _ => .leaf id v
  | .node id lc bw l rt, d =>
    let l2 := RefTree.prune P r l (d + 1)
    let r2 := RefTree.prune P r rt (d + 1)
    if l2.isLeaf && r2.isLeaf && P lc d then .leaf id (r * bw) else .node id lc bw l2 r2

/-- Reference: the number of internal nodes that `RefTree.prune` turns into
leaves. -/
def RefTree.collapses {F : Type} [Mul F] (P : F → Int → Bool) (r : F) : RefTree F → Int → Nat
  | .leaf _ _, _ => 0
  | .node _ lc _ l rt, d =>
    RefTree.collapses P r l (d + 1) + RefTree.collapses P r rt (d + 1) +
      (if (RefTree.prune P r l (d + 1)).isLeaf && (RefTree.prune P r rt (d + 1)).isLeaf && P lc d
        then 1 else 0)

/-- The subtree of the arena below the slot `nid`, as a value; `none` when a
link leaves the arena, a node has one child only, or the links do not end
within `fuel` steps. -/
def RegTree.toRef {F : Type} (t : RegTree F) : Nat → Nat → Option (RefTree F)
  | 0, _ => none
  | fuel + 1, nid =>
    match t.nodes[nid]? with
    | none => none
    | some n =>
      match n.cleft, n.cright with
      | none, _ => some (.leaf nid n.leaf_value)
      | some _, none => none
      | some l, some r =>
        match RegTree.toRef t fuel l, RegTree.toRef t fuel r with
        | some tl, some tr => some (.node nid n.stat.loss_chg n.stat.base_weight tl tr)
        | _, _ => none

/-- Reference: the outcome of pruning the arena `t` by `RefTree.prune` applied
at the root `root`: the pruned tree and twice the number of collapses. -/
def referencePrune {F : Type} [Mul F] (param : TrainParam F) (t : RegTree F) (root : Nat) :
    Option (RefTree F × Int) :=
  (t.toRef (t.num_nodes + 1) root).map fun s =>
    (s.prune param.need_prune param.learning_rate 0,
      2 * (s.collapses param.need_prune param.learning_rate 0 : Int))

/-- Every node collapsed between `t0` and `t` (an internal node of `t0` that
is a leaf of `t`) has a split the policy prunes at the depth of the node, and
its two children are leaves of `t`. -/
def RegTree.CollapsedSound {F : Type} (param : TrainParam F) (t0 t : RegTree F) : Prop :=
  ∀ (x : Nat) (n0 n : Node F), t0.nodes[x]? = some n0 → t.nodes[x]? = some n →
    n0.cleft ≠ none → n.cleft = none →
    (∃ d : Int, t0.GetDepth x = .ok d ∧ param.need_prune n0.stat.loss_chg d = true) ∧
    ∀ c : Nat, (n0.cleft = some c ∨ n0.cright = some c) →
      ∃ nc : Node F, t.nodes[c]? = some nc ∧ nc.cleft = none

/-- Reference: the number of nodes that `RefTree.prune` collapses in the
subtree below the slot `x`, standing at its depth. -/
def subtreeCollapses {F : Type} [Mul F] (param : TrainParam F) (t : RegTree F) (x : Nat) : Nat :=
  match t.GetDepth x, t.toRef (t.num_nodes + 1) x with
  | .ok d, some s => s.collapses param.need_prune param.learning_rate d
  | _, _ => 0

/-- Reference: the number of nodes that `RefTree.prune`, applied at every root
of the arena `t`, collapses. -/
def referenceCollapses {F : Type} [Mul F] (param : TrainParam F) (t : RegTree F) : Nat :=
  ((List.range t.num_nodes).map fun x =>
    match t.nodes[x]? with
    | some n =>
      if n.is_root then
        match t.toRef (t.num_nodes + 1) x with
        | some s => s.collapses param.need_prune param.learning_rate 0
        | none => 0
      else 0
    | none => 0).sum

/-! ## Concrete inputs -/

/-- A policy in the style of a minimum-gain threshold: a split is pruned when
its loss change is below 1. The learning rate is 3. -/
def belowOne : TrainParam Int :=
  { learning_rate := 3, need_prune := fun loss_chg _ => decide (loss_chg < 1) }

/-- The policy that always answers "prune". The learning rate is 3. -/
def alwaysPrune : TrainParam Int :=
  { learning_rate := 3, need_prune := fun _ _ => true }

/-- The single-node tree: the root is the only leaf. -/
def singleLeaf : RegTree Int :=
  { nodes := [⟨none, none, none, 5, ⟨0, 5, 0⟩⟩], num_roots := 1, deleted_nodes := [] }

/-- A leaf slot with parent `p`. -/
def leafAt (p : Nat) : Node Int := ⟨some p, none, none, 1, ⟨0, 1, 0⟩⟩

/-- The chain `A = 0`, `B = 1`, `E = 2`, `C = 3`, `D = 4`: the root has the
children `B` and the leaf `E`, and `B` has the leaf children `C` and `D`. Both
splits have loss change 0; the base weight of the root is 7. -/
def chainTree : RegTree Int :=
  { nodes := [⟨none, some 1, some 2, 0, ⟨0, 7, 0⟩⟩, ⟨some 0, some 3, some 4, 0, ⟨0, 2, 0⟩⟩,
              leafAt 0, leafAt 1, leafAt 1],
    num_roots := 1, deleted_nodes := [] }

/-- The tree `chainTree` after both splits were collapsed with the learning
rate `3 / 2 = 1` of a batch of two. -/
def chainTreeScaled : RegTree Int :=
  { nodes := [⟨none, none, none, 7, ⟨0, 7, 2⟩⟩, ⟨none, none, none, 2, ⟨0, 2, 2⟩⟩,
              ⟨none, none, none, 1, ⟨0, 1, 0⟩⟩, ⟨none, none, none, 1, ⟨0, 1, 0⟩⟩,
              ⟨none, none, none, 1, ⟨0, 1, 0⟩⟩],
    num_roots := 1, deleted_nodes := [3, 4, 1, 2] }

/-- The tree `chainTree` after both splits were collapsed with the learning
rate 3. -/
def chainTreePruned : RegTree Int :=
  { nodes := [⟨none, none, none, 21, ⟨0, 7, 2⟩⟩, ⟨none, none, none, 6, ⟨0, 2, 2⟩⟩,
              ⟨none, none, none, 1, ⟨0, 1, 0⟩⟩, ⟨none, none, none, 1, ⟨0, 1, 0⟩⟩,
              ⟨none, none, none, 1, ⟨0, 1, 0⟩⟩],
    num_roots := 1, deleted_nodes := [3, 4, 1, 2] }

/-- A tree that carries counters left behind by an earlier pass: `chainTree`
with other `leaf_child_cnt` values. -/
def chainTreeStale : RegTree Int :=
  { nodes := [⟨none, some 1, some 2, 0, ⟨0, 7, 5⟩⟩, ⟨some 0, some 3, some 4, 0, ⟨0, 2, 2⟩⟩,
              ⟨some 0, none, none, 1, ⟨0, 1, 9⟩⟩, leafAt 1, ⟨some 1, none, none, 1, ⟨0, 1, -3⟩⟩],
    num_roots := 1, deleted_nodes := [] }

/-- A well-formed tree of seven slots in which the internal node 6 is stored
after its children 4 and 5: the root 0 has the children 1 and 6, node 1 has
the leaf children 2 and 3, node 6 has the leaf children 4 and 5. The splits at
0 and 6 have loss change 0 (to be pruned), the split at 1 has loss change 1
(to be kept). -/
def revisitTree : RegTree Int :=
  { nodes := [⟨none, some 1, some 6, 0, ⟨0, 7, 0⟩⟩, ⟨some 0, some 2, some 3, 0, ⟨1, 2, 0⟩⟩,
              leafAt 1, leafAt 1, leafAt 6, leafAt 6,
              ⟨some 0, some 4, some 5, 0, ⟨0, 4, 0⟩⟩],
    num_roots := 1, deleted_nodes := [] }

/-- The tree `revisitTree` after the split at 6, and only it, was collapsed:
slot 6 is a leaf of value `3 * 4`, the slots 4 and 5 are reclaimed. -/
def revisitTreePruned : RegTree Int :=
  { nodes := [⟨none, some 1, some 6, 0, ⟨0, 7, 1⟩⟩, ⟨some 0, some 2, some 3, 0, ⟨1, 2, 2⟩⟩,
              leafAt 1, leafAt 1, ⟨none, none, none, 1, ⟨0, 1, 0⟩⟩,
              ⟨none, none, none, 1, ⟨0, 1, 0⟩⟩,
              ⟨some 0, none, none, 12, ⟨0, 4, 2⟩⟩],
    num_roots := 1, deleted_nodes := [4, 5] }

/-- A tree without node slots, told apart by its root count. -/
def stubTree (k : Nat) : RegTree Int := { nodes := [], num_roots := k, deleted_nodes := [] }

/-- A serialisation that writes the root count as one byte and reads a tree
without node slots back. It round-trips on `stubTree k` for `k < 256`. -/
def stubIO : ModelIO Int :=
  { SaveModel := fun t => [UInt8.ofNat t.num_roots],
    LoadModel := fun fs =>
      match fs with
      | [] => none
      | b :: rest => some (stubTree b.toNat, rest) }

/-! ## Access lemmas for the arena operations -/

variable {F : Type}

theorem setNode_getElem? (t : RegTree F) (i j : Nat) (n : Node F) :
    (t.setNode i n).nodes[j]? =
      if i = j then (if i < t.nodes.length then some n else none) else t.nodes[j]? := by
  simp [RegTree.setNode, List.getElem?_set]

theorem setNode_length (t : RegTree F) (i : Nat) (n : Node F) :
    (t.setNode i n).nodes.length = t.nodes.length := by
  simp [RegTree.setNode]

theorem DeleteNode_getElem? (t : RegTree F) (c j : Nat) :
    (t.DeleteNode c).nodes[j]? =
      if c = j then (t.nodes[j]?).map (fun n => { n with parent := none }) else t.nodes[j]? := by
  unfold RegTree.DeleteNode
  cases h : t.nodes[c]? with
  | none =>
    by_cases hcj : c = j
    · subst hcj; simp [h]
    · simp [hcj]
  | some n =>
    have hlt : c < t.nodes.length := by
      rcases List.getElem?_eq_some_iff.1 h with ⟨hlt, _⟩; exact hlt
    by_cases hcj : c = j
    · subst hcj; simp [List.getElem?_set, hlt, h]
    · simp [List.getElem?_set, hcj]

theorem DeleteNode_length (t : RegTree F) (c : Nat) :
    (t.DeleteNode c).nodes.length = t.nodes.length := by
  unfold RegTree.DeleteNode
  cases h : t.nodes[c]? <;> simp

theorem DeleteNode_num_roots (t : RegTree F) (c : Nat) :
    (t.DeleteNode c).num_roots = t.num_roots := by
  unfold RegTree.DeleteNode
  cases h : t.nodes[c]? <;> simp

theorem DeleteNode_deleted_nodes (t : RegTree F) (c : Nat) (n : Node F)
    (h : t.nodes[c]? = some n) :
    (t.DeleteNode c).deleted_nodes = t.deleted_nodes ++ [c] := by
  unfold RegTree.DeleteNode
  simp [h]

theorem lt_of_getElem?_eq_some {α : Type} {l : List α} {i : Nat} {a : α}
    (h : l[i]? = some a) : i < l.length := by
  rcases List.getElem?_eq_some_iff.1 h with ⟨hlt, _⟩; exact hlt

/-- What a successful `ChangeToLeaf` did. -/
theorem ChangeToLeaf_ok {t t2 : RegTree F} {rid : Nat} {v : F}
    (h : t.ChangeToLeaf rid v = .ok t2) :
    ∃ (r : Node F) (cl cr : Nat) (nl nr : Node F),
      t.nodes[rid]? = some r ∧ r.cleft = some cl ∧ r.cright = some cr ∧
      t.nodes[cl]? = some nl ∧ t.nodes[cr]? = some nr ∧
      nl.cleft = none ∧ nr.cleft = none ∧ rid ≠ cl ∧ rid ≠ cr ∧
      t2.num_roots = t.num_roots ∧
      t2.deleted_nodes = t.deleted_nodes ++ [cl, cr] ∧
      t2.nodes.length = t.nodes.length ∧
      (∀ j : Nat, t2.nodes[j]? =
        if j = rid then some (r.set_leaf v)
        else if j = cl ∨ j = cr then (t.nodes[j]?).map (fun n => { n with parent := none })
        else t.nodes[j]?) := by
  unfold RegTree.ChangeToLeaf at h
  cases hr : t.nodes[rid]? with
  | none => simp [hr] at h
  | some r =>
    simp only [hr] at h
    cases hcl : r.cleft with
    | none => simp [hcl] at h
    | some cl =>
      cases hcr : r.cright with
      | none => simp [hcl, hcr] at h
      | some cr =>
        simp only [hcl, hcr] at h
        cases hnl : t.nodes[cl]? with
        | none => simp [hnl] at h
        | some nl =>
          cases hnr : t.nodes[cr]? with
          | none => simp [hnl, hnr] at h
          | some nr =>
            simp only [hnl, hnr] at h
            by_cases hleaf : (nl.is_leaf && nr.is_leaf) = true
            · simp only [hleaf, if_true] at h
              have hl1 : nl.cleft = none := by
                simp [Node.is_leaf] at hleaf; exact hleaf.1
              have hl2 : nr.cleft = none := by
                simp [Node.is_leaf] at hleaf; exact hleaf.2
              have hne1 : rid ≠ cl := by
                intro he; subst he; rw [hr] at hnl; cases hnl; rw [hcl] at hl1; cases hl1
              have hne2 : rid ≠ cr := by
                intro he; subst he; rw [hr] at hnr; cases hnr; rw [hcl] at hl2; cases hl2
              have hrid2 : ((t.DeleteNode cl).DeleteNode cr).nodes[rid]? = some r := by
                rw [DeleteNode_getElem?, DeleteNode_getElem?]
                simp [Ne.symm hne1, Ne.symm hne2, hr]
              simp only [hrid2] at h
              cases h
              refine ⟨r, cl, cr, nl, nr, rfl, hcl, hcr, hnl, hnr, hl1, hl2, hne1, hne2,
                ?_, ?_, ?_, ?_⟩
              · simp [RegTree.setNode, DeleteNode_num_roots]
              · have hcr2 : ∃ m, (t.DeleteNode cl).nodes[cr]? = some m := by
                  rw [DeleteNode_getElem?]
                  by_cases hc : cl = cr
                  · simp [hc, hnr]
                  · simp [hc, hnr]
                rcases hcr2 with ⟨m, hm⟩
                simp [RegTree.setNode, DeleteNode_deleted_nodes _ _ _ hm,
                  DeleteNode_deleted_nodes _ _ _ hnl]
              · simp [setNode_length, DeleteNode_length]
              · intro j
                have hlt : rid < ((t.DeleteNode cl).DeleteNode cr).nodes.length :=
                  lt_of_getElem?_eq_some hrid2
                rw [setNode_getElem?, DeleteNode_getElem?, DeleteNode_getElem?]
                by_cases hj : j = rid
                · subst hj; simp [hlt]
                · have hj2 : ¬ rid = j := fun e => hj e.symm
                  simp only [hj, hj2, if_false]
                  by_cases h1 : cr = j
                  · subst h1
                    by_cases h2 : cl = cr
                    · simp [h2, hnr]
                    · simp [h2]
                  · by_cases h2 : cl = j
                    · subst h2; simp [h1]
                    · have h1b : ¬ j = cr := fun e => h1 e.symm
                      have h2b : ¬ j = cl := fun e => h2 e.symm
                      simp [h1, h2, h1b, h2b]
            · simp [hleaf] at h

/-! ## The depth loop -/

theorem GetDepthLoop_shift (t : RegTree F) (fuel : Nat) (i : Nat) (acc k : Int) :
    t.GetDepthLoop fuel i (acc + k) = (t.GetDepthLoop fuel i acc).map (fun d => d + k) := by
  induction fuel generalizing i acc with
  | zero => simp [RegTree.GetDepthLoop, Except.map]
  | succ f ih =>
    unfold RegTree.GetDepthLoop
    cases hn : t.nodes[i]? with
    | none => simp [Except.map]
    | some n =>
      cases hp : n.parent with
      | none => simp [hp, Except.map]
      | some p =>
        simp only [hp]
        have : acc + k + 1 = acc + 1 + k := by ring
        rw [this, ih]

theorem GetDepthLoop_fuel_succ (t : RegTree F) (fuel : Nat) (i : Nat) (acc d : Int)
    (h : t.GetDepthLoop fuel i acc = .ok d) : t.GetDepthLoop (fuel + 1) i acc = .ok d := by
  induction fuel generalizing i acc with
  | zero => simp [RegTree.GetDepthLoop] at h
  | succ f ih =>
    unfold RegTree.GetDepthLoop at h ⊢
    cases hn : t.nodes[i]? with
    | none => simp [hn] at h
    | some n =>
      simp only [hn] at h ⊢
      cases hp : n.parent with
      | none => simpa [hp] using h
      | some p =>
        simp only [hp] at h ⊢
        exact ih p (acc + 1) h

/-- The depth of a node is one more than the depth of its parent. -/
theorem GetDepth_parent (t : RegTree F) (i p : Nat) (n : Node F) (d : Int)
    (hn : t.nodes[i]? = some n) (hp : n.parent = some p) (hd : t.GetDepth i = .ok d) :
    t.GetDepth p = .ok (d - 1) := by
  unfold RegTree.GetDepth at hd ⊢
  unfold RegTree.GetDepthLoop at hd
  simp only [hn, hp] at hd
  have h1 : t.GetDepthLoop t.num_nodes p (0 + 1) = .ok d := by simpa using hd
  rw [GetDepthLoop_shift] at h1
  cases h0 : t.GetDepthLoop t.num_nodes p 0 with
  | error e => simp [h0, Except.map] at h1
  | ok d0 =>
    simp [h0, Except.map] at h1
    have := GetDepthLoop_fuel_succ t _ p 0 d0 h0
    rw [this]
    congr 1
    omega

/-- Two arenas whose internal nodes carry the same parent links give the
same depth to every node that is internal in the first. -/
theorem GetDepthLoop_agree (t t2 : RegTree F)
    (hagree : ∀ (j : Nat) (nj : Node F) (c : Nat), t.nodes[j]? = some nj → nj.cleft = some c →
      ∃ nj2 : Node F, t2.nodes[j]? = some nj2 ∧ nj2.parent = nj.parent)
    (hpar : ∀ (j : Nat) (nj : Node F) (p : Nat), t.nodes[j]? = some nj → nj.parent = some p →
      ∃ (np : Node F) (c : Nat), t.nodes[p]? = some np ∧ np.cleft = some c)
    (fuel : Nat) (q : Nat) (acc : Int) (nq : Node F) (c : Nat)
    (hq : t.nodes[q]? = some nq) (hc : nq.cleft = some c) :
    t2.GetDepthLoop fuel q acc = t.GetDepthLoop fuel q acc := by
  induction fuel generalizing q acc nq c with
  | zero => simp [RegTree.GetDepthLoop]
  | succ f ih =>
    rcases hagree q nq c hq hc with ⟨nq2, hq2, hpp⟩
    unfold RegTree.GetDepthLoop
    simp only [hq, hq2, hpp]
    cases hp : nq.parent with
    | none => rfl
    | some p =>
      simp only
      rcases hpar q nq p hq hp with ⟨np, c2, hnp, hc2⟩
      exact ih p (acc + 1) np c2 hnp hc2

/-! ## From the decidable check to the proposition -/

theorem hasParent_iff (t : RegTree F) (c i : Nat) :
    t.hasParent c i = true ↔ ∃ nc : Node F, t.nodes[c]? = some nc ∧ nc.parent = some i := by
  unfold RegTree.hasParent
  cases h : t.nodes[c]? with
  | none => simp
  | some nc => simp

theorem WF_of_wellFormed (t : RegTree F) (h : t.wellFormed = true) : t.WF := by
  unfold RegTree.wellFormed at h
  rw [List.all_eq_true] at h
  have key : ∀ (i : Nat) (n : Node F), t.nodes[i]? = some n →
      t.childrenOK i n = true ∧ t.parentOK i n = true ∧ t.depthOK i = true := by
    intro i n hn
    have := h i (List.mem_range.2 (lt_of_getElem?_eq_some hn))
    simp only [hn, Bool.and_eq_true] at this
    exact ⟨this.1.1, this.1.2, this.2⟩
  constructor
  · intro i n l hn hl
    have hc := (key i n hn).1
    unfold RegTree.childrenOK at hc
    cases hr : n.cright with
    | none => simp [hl, hr] at hc
    | some r =>
      simp only [hl, hr, Bool.and_eq_true, decide_eq_true_eq] at hc
      rcases (hasParent_iff t l i).1 hc.1.2 with ⟨nl, hnl, hpl⟩
      rcases (hasParent_iff t r i).1 hc.2 with ⟨nr, hnr, hpr⟩
      exact ⟨r, nl, nr, rfl, hc.1.1, hnl, hpl, hnr, hpr⟩
  · intro i n hn hl
    have hc := (key i n hn).1
    unfold RegTree.childrenOK at hc
    cases hr : n.cright with
    | none => rfl
    | some r => simp [hl, hr] at hc
  · intro i n p hn hp
    have hc := (key i n hn).2.1
    unfold RegTree.parentOK at hc
    simp only [hp] at hc
    cases hnp : t.nodes[p]? with
    | none => simp [hnp] at hc
    | some np =>
      simp only [hnp, Bool.or_eq_true, decide_eq_true_eq] at hc
      exact ⟨np, rfl, hc⟩
  · intro i n hn
    have hc := (key i n hn).2.2
    unfold RegTree.depthOK at hc
    cases hd : t.GetDepth i with
    | error e => simp [hd] at hc
    | ok d => exact ⟨d, rfl⟩

/-- In a well-formed arena the parent of a node is an internal node. -/
theorem RegTree.WF.parent_internal {t : RegTree F} (hw : t.WF) (i : Nat) (n : Node F) (p : Nat)
    (hn : t.nodes[i]? = some n) (hp : n.parent = some p) :
    ∃ (np : Node F) (c : Nat), t.nodes[p]? = some np ∧ np.cleft = some c := by
  rcases hw.parent i n p hn hp with ⟨np, hnp, hc⟩
  cases hl : np.cleft with
  | some c => exact ⟨np, c, hnp, hl⟩
  | none =>
    have := hw.leaf p np hnp hl
    rcases hc with hc | hc
    · rw [hl] at hc; cases hc
    · rw [this] at hc; cases hc

/-! ## Single steps of the leaf-merge walker -/

section walker
variable [Mul F]

theorem TryPruneLeaf_root (param : TrainParam F) (fuel : Nat)
    (tree : RegTree F) (nid : Nat) (n : Node F) (depth npruned : Int)
    (hn : tree.nodes[nid]? = some n) (hp : n.parent = none) :
    TryPruneLeaf param (fuel + 1) tree nid depth npruned = .ok (tree, npruned) := by
  simp [TryPruneLeaf, hn, hp]

theorem TryPruneLeaf_stay (param : TrainParam F) (fuel : Nat)
    (tree : RegTree F) (nid pid : Nat) (n pn : Node F) (depth npruned : Int)
    (hn : tree.nodes[nid]? = some n) (hp : n.parent = some pid)
    (hpn : tree.nodes[pid]? = some pn)
    (hgate : ¬ (pn.stat.leaf_child_cnt + 1 ≥ 2 ∧
      param.need_prune pn.stat.loss_chg (depth - 1) = true)) :
    TryPruneLeaf param (fuel + 1) tree nid depth npruned =
      .ok (tree.setNode pid (bump pn), npruned) := by
  unfold TryPruneLeaf
  simp only [hn, hp, hpn]
  rw [if_neg]
  · rfl
  · simpa using hgate

theorem TryPruneLeaf_collapse (param : TrainParam F) (fuel : Nat)
    (tree : RegTree F) (nid pid : Nat) (n pn : Node F) (depth npruned : Int)
    (hn : tree.nodes[nid]? = some n) (hp : n.parent = some pid)
    (hpn : tree.nodes[pid]? = some pn)
    (hcnt : pn.stat.leaf_child_cnt + 1 ≥ 2)
    (hprune : param.need_prune pn.stat.loss_chg (depth - 1) = true) :
    TryPruneLeaf param (fuel + 1) tree nid depth npruned =
      match (tree.setNode pid (bump pn)).ChangeToLeaf pid
          (param.learning_rate * pn.stat.base_weight) with
      | .error e => .error e
      | .ok tree2 => TryPruneLeaf param fuel tree2 pid (depth - 1) (npruned + 2) := by
  conv_lhs => unfold TryPruneLeaf
  simp only [hn, hp, hpn]
  rw [if_pos]
  · rfl
  · simp [hcnt, hprune]

end walker

/-! ## Roots, first arrivals, and the revisited node -/

theorem GetDepth_root (t : RegTree F) (nid : Nat) (n : Node F)
    (hn : t.nodes[nid]? = some n) (hp : n.parent = none) : t.GetDepth nid = .ok 0 := by
  simp [RegTree.GetDepth, RegTree.GetDepthLoop, hn, hp]

theorem PruneVisit_all_roots [Mul F] (param : TrainParam F) (t : RegTree F)
    (hroot : ∀ (i : Nat) (n : Node F), t.nodes[i]? = some n → n.is_leaf = true → n.parent = none)
    (k : Int) (order : List Nat) (hord : ∀ i ∈ order, i < t.nodes.length) :
    PruneVisit param order (t, k) = .ok (t, k) := by
  induction order with
  | nil => rfl
  | cons i rest ih =>
    have hi : i < t.nodes.length := hord i (by simp)
    have hstep : PruneStep param (t, k) i = .ok (t, k) := by
      unfold PruneStep
      simp only [List.getElem?_eq_getElem hi]
      by_cases hl : (t.nodes[i]).is_leaf = true
      · have hp := hroot i _ (List.getElem?_eq_getElem hi) hl
        simp [hl, GetDepth_root t i _ (List.getElem?_eq_getElem hi) hp,
          TryPruneLeaf_root param _ t i _ 0 k (List.getElem?_eq_getElem hi) hp]
      · simp [hl]
    simp only [PruneVisit, hstep]
    exact ih (fun j hj => hord j (by simp [hj]))

theorem resetLeafChildCnt_getElem? (t : RegTree F) (i : Nat) :
    t.resetLeafChildCnt.nodes[i]? =
      (t.nodes[i]?).map (fun n => { n with stat := { n.stat with leaf_child_cnt := 0 } }) := by
  simp [RegTree.resetLeafChildCnt]

theorem resetLeafChildCnt_length (t : RegTree F) :
    t.resetLeafChildCnt.nodes.length = t.nodes.length := by
  simp [RegTree.resetLeafChildCnt]

/-- C1 (code defect, evaluated): `revisitTree` is well-formed, yet `DoPrune`
aborts on it inside `ChangeToLeaf`: the pass reaches the collapse of the root
0 while its child 1 is still an internal node. Node 6 is collapsed when its
second child, slot 5, is visited; the loop then visits slot 6 itself, finds it
a leaf, and counts it a second time at the root. -/
theorem DoPrune_revisit_collapses_branching :
    revisitTree.wellFormed = true ∧
    PruneVisit belowOne [0, 1, 2, 3, 4, 5] (revisitTree.resetLeafChildCnt, 0)
      = .ok (revisitTreePruned, 2) ∧
    (revisitTreePruned.nodes[1]?).map Node.is_leaf = some false ∧
    PruneStep belowOne (revisitTreePruned, 2) 6 = .error .nonLeafChild ∧
    DoPrune belowOne revisitTree = .error .nonLeafChild := by
  decide

/-- C2 (gate correctness): when the parent `pid` of the non-root node `nid` has
`leaf_child_cnt = 0`, `TryPruneLeaf` returns `npruned` unchanged and the tree
it leaves is the input tree with `leaf_child_cnt` of `pid` set to 1: no node
is collapsed, nothing is reclaimed and every other slot is unchanged, whatever
the policy, the depth, the count and the bound `fuel + 1` on the length of the
chain are. -/
theorem TryPruneLeaf_first_arrival [Mul F] (param : TrainParam F) (fuel : Nat)
    (tree : RegTree F) (nid pid : Nat) (n pn : Node F) (depth npruned : Int)
    (hn : tree.nodes[nid]? = some n) (hp : n.parent = some pid)
    (hpn : tree.nodes[pid]? = some pn) (hc : pn.stat.leaf_child_cnt = 0) :
    TryPruneLeaf param (fuel + 1) tree nid depth npruned =
      .ok (tree.setNode pid { pn with stat := { pn.stat with leaf_child_cnt := 1 } },
        npruned) ∧
    (tree.setNode pid { pn with stat := { pn.stat with leaf_child_cnt := 1 } }).deleted_nodes
      = tree.deleted_nodes ∧
    ∀ j : Nat, j ≠ pid →
      (tree.setNode pid { pn with stat := { pn.stat with leaf_child_cnt := 1 } }).nodes[j]?
        = tree.nodes[j]? := by
  refine ⟨?_, rfl, ?_⟩
  · simp [TryPruneLeaf, hn, hp, hpn, hc]
  · intro j hj
    rw [setNode_getElem?, if_neg (fun e => hj e.symm)]

/-- Witness of C2: in `chainTree` the leaf 3 is the first child to arrive at
node 1, even under a policy that always answers "prune". -/
theorem TryPruneLeaf_first_arrival_witness :
    TryPruneLeaf alwaysPrune 1 chainTree 3 2 0 =
      .ok (chainTree.setNode 1 ⟨some 0, some 3, some 4, 0, ⟨0, 2, 1⟩⟩, 0) :=
  (TryPruneLeaf_first_arrival alwaysPrune 0
    chainTree 3 1 (leafAt 1) ⟨some 0, some 3, some 4, 0, ⟨0, 2, 0⟩⟩ 2 0 rfl rfl rfl rfl).1

/-- C4 (code defect, evaluated): on the well-formed `revisitTree` the pass in
index order aborts, while the pass that visits slot 6 first, a permutation of
the index order, completes with slot 6 collapsed and a count of 2. -/
theorem DoPruneOrder_depends_on_order :
    revisitTree.wellFormed = true ∧
    List.Perm [6, 0, 1, 2, 3, 4, 5] (List.range revisitTree.num_nodes) ∧
    DoPruneOrder belowOne [6, 0, 1, 2, 3, 4, 5] revisitTree = .ok (revisitTreePruned, 2) ∧
    DoPruneOrder belowOne (List.range revisitTree.num_nodes) revisitTree
      = .error .nonLeafChild := by
  decide

/-- C6 (root protection): `TryPruneLeaf` on a root returns the tree and the
count it was given; and on a tree in which every leaf is a root `DoPrune`
collapses nothing: it returns the input tree with the counters reset and a
pruned-node count of 0, whatever the policy is. -/
theorem DoPrune_root_protection [Mul F] (param : TrainParam F) (t : RegTree F)
    (hroot : ∀ (i : Nat) (n : Node F),
      t.nodes[i]? = some n → n.is_leaf = true → n.is_root = true) :
    DoPrune param t = .ok (t.resetLeafChildCnt, 0) ∧
    ∀ (fuel : Nat) (tree : RegTree F) (nid : Nat) (n : Node F) (depth npruned : Int),
      tree.nodes[nid]? = some n → n.is_root = true →
      TryPruneLeaf param (fuel + 1) tree nid depth npruned = .ok (tree, npruned) := by
  constructor
  · unfold DoPrune DoPruneOrder
    apply PruneVisit_all_roots
    · intro i n hn hl
      rw [resetLeafChildCnt_getElem?] at hn
      cases h0 : t.nodes[i]? with
      | none => simp [h0] at hn
      | some n0 =>
        simp only [h0, Option.map_some', Option.some.injEq] at hn
        subst hn
        have := hroot i n0 h0 (by simpa [Node.is_leaf] using hl)
        simpa [Node.is_root] using this
    · intro i hi
      rw [resetLeafChildCnt_length]
      exact List.mem_range.1 hi
  · intro fuel tree nid n depth npruned hn hr
    exact TryPruneLeaf_root param fuel tree nid n depth npruned hn
      (by simpa [Node.is_root] using hr)

/-- Witness of C6: the single-node tree. -/
theorem DoPrune_root_protection_witness :
    DoPrune belowOne singleLeaf = .ok (singleLeaf.resetLeafChildCnt, 0) :=
  (DoPrune_root_protection belowOne singleLeaf (by
    intro i n hn _
    cases i with
    | zero =>
      simp only [singleLeaf, List.getElem?_cons_zero, Option.some.injEq] at hn
      subst hn; rfl
    | succ j => simp [singleLeaf] at hn)).1

/-! ## The batch entry point and the synchroniser -/

theorem UpdatePrune_param [Mul F] [Div F] [NatCast F] (param param2 : TrainParam F)
    (trees trees2 : List (RegTree F)) (h : UpdatePrune param trees = .ok (param2, trees2)) :
    param2 = param ∧
    PruneAll ⟨param.learning_rate / (trees.length : F), param.need_prune⟩ trees
      = .ok trees2 := by
  unfold UpdatePrune at h
  simp only at h
  cases hp : PruneAll (⟨param.learning_rate / (trees.length : F), param.need_prune⟩ : TrainParam F)
      trees with
  | error e => simp [hp] at h
  | ok ts =>
    simp only [hp, Except.ok.injEq, Prod.mk.injEq] at h
    exact ⟨h.1.symm, by rw [h.2]⟩

theorem Update_param [Mul F] [Div F] [NatCast F] (io : ModelIO F) (world_size rank : Nat)
    (Bcast : List UInt8 → List UInt8) (param : TrainParam F) (trees : List (RegTree F))
    (r : TrainParam F × List (RegTree F) × List SyncEvent)
    (h : Update io world_size rank Bcast param trees = .ok r) : r.1 = param := by
  unfold Update at h
  cases hu : UpdatePrune param trees with
  | error e => simp [hu] at h
  | ok q =>
    simp only [hu] at h
    cases hs : SyncTrees io world_size rank Bcast q.2 with
    | error e => simp [hs] at h
    | ok z =>
      simp only [hs, Except.ok.injEq] at h
      subst h
      exact (UpdatePrune_param param q.1 trees q.2 hu).1

theorem UpdateSeq_param [Mul F] [Div F] [NatCast F] (io : ModelIO F) (world_size rank : Nat)
    (Bcast : List UInt8 → List UInt8) (batches : List (List (RegTree F)))
    (param param2 : TrainParam F)
    (h : UpdateSeq io world_size rank Bcast param batches = .ok param2) : param2 = param := by
  induction batches generalizing param with
  | nil => simp [UpdateSeq] at h; exact h.symm
  | cons b bs ih =>
    unfold UpdateSeq at h
    cases hu : Update io world_size rank Bcast param b with
    | error e => simp [hu] at h
    | ok r =>
      simp only [hu] at h
      have h1 := Update_param io world_size rank Bcast param b r hu
      have h2 := ih r.1 h
      rw [h2, h1]

/-- C7 (learning-rate restoration): whenever `Update` returns, the parameter
record it leaves is the one it was given: `learning_rate` has its configured
value again and no other field has changed; the same holds after any sequence
of `Update` calls. -/
theorem Update_restores_learning_rate [Mul F] [Div F] [NatCast F] (io : ModelIO F)
    (world_size rank : Nat) (Bcast : List UInt8 → List UInt8) (param param2 : TrainParam F)
    (trees trees2 : List (RegTree F)) (ev : List SyncEvent)
    (h : Update io world_size rank Bcast param trees = .ok (param2, trees2, ev)) :
    param2.learning_rate = param.learning_rate ∧ param2 = param ∧
    ∀ (batches : List (List (RegTree F))) (param3 : TrainParam F),
      UpdateSeq io world_size rank Bcast param batches = .ok param3 → param3 = param := by
  have h1 := Update_param io world_size rank Bcast param trees _ h
  simp only at h1
  refine ⟨by rw [h1], h1, ?_⟩
  intro batches param3 h3
  exact UpdateSeq_param io world_size rank Bcast batches param param3 h3

/-- Witness of C7: a single worker updating the batch `[chainTree, singleLeaf]`
with learning rate 3. -/
theorem Update_restores_learning_rate_witness :
    (∃ trees2 : List (RegTree Int),
      Update stubIO 1 0 id belowOne [chainTree, singleLeaf] = .ok (belowOne, trees2, [])) ∧
    belowOne.learning_rate = 3 :=
  ⟨⟨_, rfl⟩, (Update_restores_learning_rate stubIO 1 0 id belowOne belowOne
    [chainTree, singleLeaf] _ [] rfl).1⟩

theorem saveLoop_fst (io : ModelIO F) (i j : Nat) (ts : List (RegTree F)) (s : List UInt8) :
    (saveLoop io i ts s).1 = s ++ (saveLoop io j ts []).1 := by
  induction ts generalizing i j s with
  | nil => simp [saveLoop]
  | cons t ts ih =>
    simp only [saveLoop]
    rw [ih (i + 1) (j + 1) (s ++ io.SaveModel t), ih (j + 1) (j + 1) ([] ++ io.SaveModel t)]
    simp

theorem loadLoop_saved (io : ModelIO F) (batch0 : List (RegTree F))
    (hrt : ∀ t ∈ batch0, ∀ rest : List UInt8,
      io.LoadModel (io.SaveModel t ++ rest) = some (t, rest))
    (batch : List (RegTree F)) (hlen : batch.length = batch0.length)
    (i j : Nat) (rest : List UInt8) :
    ∃ ev : List SyncEvent,
      loadLoop io i batch ((saveLoop io j batch0 []).1 ++ rest) = .ok (batch0, ev) := by
  induction batch0 generalizing batch i j rest with
  | nil =>
    cases batch with
    | nil => exact ⟨[], rfl⟩
    | cons b bs => simp at hlen
  | cons t ts ih =>
    cases batch with
    | nil => simp at hlen
    | cons b bs =>
      have hl : bs.length = ts.length := by simpa using hlen
      rcases ih (fun u hu => hrt u (by simp [hu])) bs hl (i + 1) (j + 1) rest with ⟨ev, hev⟩
      refine ⟨SyncEvent.load i :: ev, ?_⟩
      have hbuf : (saveLoop io j (t :: ts) []).1 ++ rest
          = io.SaveModel t ++ ((saveLoop io (j + 1) ts []).1 ++ rest) := by
        simp only [saveLoop]
        rw [saveLoop_fst io (j + 1) (j + 1) ts ([] ++ io.SaveModel t)]
        simp
      unfold loadLoop
      rw [hbuf, hrt t (by simp)]
      simp only [hev]

/-- C9 (distributed convergence): in a group of at least two workers in which
`Bcast` delivers the buffer of rank 0 and `LoadModel` undoes `SaveModel` on
the trees of rank 0, a worker of any rank holding a batch of the same length
as rank 0 ends `SyncTrees` with the pre-sync batch of rank 0 (rank 0 itself
keeps its batch), so its serialised ensemble is the one of rank 0. -/
theorem SyncTrees_convergence (io : ModelIO F) (world_size rank : Nat)
    (batch0 batch : List (RegTree F)) (hws : 2 ≤ world_size)
    (hown : rank = 0 → batch = batch0) (hlen : batch.length = batch0.length)
    (hrt : ∀ t ∈ batch0, ∀ rest : List UInt8,
      io.LoadModel (io.SaveModel t ++ rest) = some (t, rest)) :
    ∃ (result : List (RegTree F)) (ev : List SyncEvent),
      SyncTreesInGroup io world_size batch0 rank batch = .ok (result, ev) ∧
      result = batch0 ∧ rankZeroBuffer io result = rankZeroBuffer io batch0 := by
  unfold SyncTreesInGroup SyncTrees
  have h1 : ¬ world_size = 1 := by omega
  by_cases hr : rank = 0
  · have hb := hown hr
    subst hb
    exact ⟨batch, (saveLoop io 0 batch []).2 ++ [SyncEvent.bcast], by simp [h1, hr], rfl, rfl⟩
  · rcases loadLoop_saved io batch0 hrt batch hlen 0 0 [] with ⟨ev, hev⟩
    refine ⟨batch0, SyncEvent.bcast :: ev, ?_, rfl, rfl⟩
    simp only [h1, hr, if_false, rankZeroBuffer]
    simp only [List.append_nil] at hev
    simp [hev]

/-- Witness of C9: rank 1 of a group of two, holding a batch that differs from
the batch of rank 0. -/
theorem SyncTrees_convergence_witness :
    ∃ (result : List (RegTree Int)) (ev : List SyncEvent),
      SyncTreesInGroup stubIO 2 [stubTree 1, stubTree 2] 1 [stubTree 7, stubTree 9]
        = .ok (result, ev) ∧
      result = [stubTree 1, stubTree 2] ∧
      rankZeroBuffer stubIO result = rankZeroBuffer stubIO [stubTree 1, stubTree 2] :=
  SyncTrees_convergence stubIO 2 1 [stubTree 1, stubTree 2] [stubTree 7, stubTree 9]
    (by decide) (by decide) rfl (by
      intro t ht rest
      simp only [List.mem_cons, List.mem_singleton, List.not_mem_nil, or_false] at ht
      rcases ht with rfl | rfl <;> rfl)

/-- C10 (single-worker synchronisation): with a world size of 1, `SyncTrees`
returns the batch it was given and performs no save, no load and no
broadcast, for every batch, rank and communication substrate. -/
theorem SyncTrees_single_worker (io : ModelIO F) (rank : Nat)
    (Bcast : List UInt8 → List UInt8) (trees : List (RegTree F)) :
    SyncTrees io 1 rank Bcast trees = .ok (trees, []) := by
  simp [SyncTrees]

/-! ## The frame of a pass -/

section frame
variable [Mul F]

theorem Node.prunedFrom_self (lr : F) (n : Node F) : Node.prunedFrom lr n n :=
  ⟨rfl, rfl, Or.inl rfl, Or.inl ⟨rfl, rfl, rfl⟩⟩

theorem Node.prunedFrom_comp (lr : F) (a b c : Node F)
    (h1 : Node.prunedFrom lr a b) (h2 : Node.prunedFrom lr b c) : Node.prunedFrom lr a c := by
  rcases h1 with ⟨l1, w1, p1, s1⟩
  rcases h2 with ⟨l2, w2, p2, s2⟩
  refine ⟨l2.trans l1, w2.trans w1, ?_, ?_⟩
  · rcases p2 with p2 | p2
    · rcases p1 with p1 | ⟨p1, q1⟩
      · exact Or.inl (p2.trans p1)
      · refine Or.inr ⟨p2.trans p1, ?_⟩
        rcases s2 with ⟨a2, _, _⟩ | ⟨_, b2, _, _⟩
        · rw [a2]; exact q1
        · exact b2
    · exact Or.inr p2
  · rcases s2 with ⟨a2, b2, c2⟩ | ⟨a2, b2, c2, d2⟩
    · rcases s1 with ⟨a1, b1, c1⟩ | ⟨a1, b1, c1, d1⟩
      · exact Or.inl ⟨a2.trans a1, b2.trans b1, c2.trans c1⟩
      · exact Or.inr ⟨a1, a2.trans b1, b2.trans c1, c2.trans d1⟩
    · rcases s1 with ⟨a1, b1, c1⟩ | ⟨a1, b1, c1, d1⟩
      · exact Or.inr ⟨by rw [← a1]; exact a2, b2, c2, by rw [d2, w1]⟩
      · exact absurd b1 a2

theorem RegTree.prunedFrom_refl (lr : F) (t : RegTree F) : RegTree.prunedFrom lr t t :=
  ⟨rfl, rfl, fun _ n0 h => ⟨n0, h, Node.prunedFrom_self lr n0⟩⟩

theorem RegTree.prunedFrom_trans (lr : F) (a b c : RegTree F)
    (h1 : RegTree.prunedFrom lr a b) (h2 : RegTree.prunedFrom lr b c) :
    RegTree.prunedFrom lr a c := by
  refine ⟨h2.1.trans h1.1, h2.2.1.trans h1.2.1, ?_⟩
  intro i n0 hn0
  rcases h1.2.2 i n0 hn0 with ⟨n1, hn1, r1⟩
  rcases h2.2.2 i n1 hn1 with ⟨n2, hn2, r2⟩
  exact ⟨n2, hn2, Node.prunedFrom_comp lr n0 n1 n2 r1 r2⟩

theorem prunedFrom_bump (lr : F) (t : RegTree F) (pid : Nat) (pn : Node F)
    (hpn : t.nodes[pid]? = some pn) : RegTree.prunedFrom lr t (t.setNode pid (bump pn)) := by
  refine ⟨setNode_length t pid _, rfl, ?_⟩
  intro i n0 hn0
  rw [setNode_getElem?]
  by_cases hi : pid = i
  · subst hi
    rw [hpn] at hn0; cases hn0
    simp only [if_true, lt_of_getElem?_eq_some hpn]
    exact ⟨_, rfl, rfl, rfl, Or.inl rfl, Or.inl ⟨rfl, rfl, rfl⟩⟩
  · simp only [hi, if_false]
    exact ⟨n0, hn0, Node.prunedFrom_self lr n0⟩

theorem prunedFrom_ChangeToLeaf (lr : F) (t t2 : RegTree F) (rid : Nat) (r : Node F)
    (hr : t.nodes[rid]? = some r)
    (h : t.ChangeToLeaf rid (lr * r.stat.base_weight) = .ok t2) :
    RegTree.prunedFrom lr t t2 := by
  rcases ChangeToLeaf_ok h with
    ⟨r', cl, cr, nl, nr, hr', hcl, hcr, hnl, hnr, hl1, hl2, hne1, hne2, hroots, _, hlen, hpt⟩
  rw [hr] at hr'; cases hr'
  refine ⟨hlen, hroots, ?_⟩
  intro i n0 hn0
  rw [hpt i]
  by_cases hi : i = rid
  · subst hi
    rw [hr] at hn0; cases hn0
    simp only [if_true]
    refine ⟨_, rfl, rfl, rfl, Or.inl rfl, Or.inr ⟨?_, rfl, rfl, rfl⟩⟩
    rw [hcl]; simp
  · simp only [hi, if_false]
    by_cases hc : i = cl ∨ i = cr
    · simp only [hc, if_true, hn0, Option.map_some']
      have hleaf : n0.cleft = none := by
        rcases hc with e | e
        · subst e; rw [hnl] at hn0; cases hn0; exact hl1
        · subst e; rw [hnr] at hn0; cases hn0; exact hl2
      exact ⟨_, rfl, rfl, rfl, Or.inr ⟨rfl, hleaf⟩, Or.inl ⟨rfl, rfl, rfl⟩⟩
    · simp only [hc, if_false]
      exact ⟨n0, hn0, Node.prunedFrom_self lr n0⟩

theorem TryPruneLeaf_frame (param : TrainParam F) (fuel : Nat) (t t2 : RegTree F)
    (nid : Nat) (depth k k2 : Int)
    (h : TryPruneLeaf param fuel t nid depth k = .ok (t2, k2)) :
    RegTree.prunedFrom param.learning_rate t t2 := by
  induction fuel generalizing t nid depth k with
  | zero => simp [TryPruneLeaf] at h
  | succ f ih =>
    cases hn : t.nodes[nid]? with
    | none => simp [TryPruneLeaf, hn] at h
    | some n =>
      cases hp : n.parent with
      | none =>
        rw [TryPruneLeaf_root param f t nid n depth k hn hp] at h
        cases h
        exact RegTree.prunedFrom_refl _ _
      | some pid =>
        cases hpn : t.nodes[pid]? with
        | none => simp [TryPruneLeaf, hn, hp, hpn] at h
        | some pn =>
          by_cases hgate : pn.stat.leaf_child_cnt + 1 ≥ 2 ∧
              param.need_prune pn.stat.loss_chg (depth - 1) = true
          · rw [TryPruneLeaf_collapse param f t nid pid n pn depth k hn hp hpn
              hgate.1 hgate.2] at h
            cases hc : (t.setNode pid (bump pn)).ChangeToLeaf pid
                (param.learning_rate * pn.stat.base_weight) with
            | error e => simp [hc] at h
            | ok t1 =>
              simp only [hc] at h
              have hb := prunedFrom_bump param.learning_rate t pid pn hpn
              have hget : (t.setNode pid (bump pn)).nodes[pid]? = some (bump pn) := by
                rw [setNode_getElem?]; simp [lt_of_getElem?_eq_some hpn]
              have hc2 := prunedFrom_ChangeToLeaf param.learning_rate _ t1 pid (bump pn)
                hget hc
              exact RegTree.prunedFrom_trans _ _ _ _
                (RegTree.prunedFrom_trans _ _ _ _ hb hc2) (ih t1 pid (depth - 1) (k + 2) h)
          · rw [TryPruneLeaf_stay param f t nid pid n pn depth k hn hp hpn hgate] at h
            cases h
            exact prunedFrom_bump param.learning_rate t pid pn hpn

theorem PruneStep_frame (param : TrainParam F) (st st2 : RegTree F × Int) (nid : Nat)
    (h : PruneStep param st nid = .ok st2) :
    RegTree.prunedFrom param.learning_rate st.1 st2.1 := by
  unfold PruneStep at h
  cases hn : st.1.nodes[nid]? with
  | none => simp [hn] at h
  | some n =>
    simp only [hn] at h
    by_cases hl : n.is_leaf = true
    · simp only [hl, if_true] at h
      cases hd : st.1.GetDepth nid with
      | error e => simp [hd] at h
      | ok d =>
        simp only [hd] at h
        exact TryPruneLeaf_frame param _ st.1 st2.1 nid d st.2 st2.2 h
    · simp only [hl] at h
      cases h
      exact RegTree.prunedFrom_refl _ _

theorem PruneVisit_frame (param : TrainParam F) (order : List Nat) (st st2 : RegTree F × Int)
    (h : PruneVisit param order st = .ok st2) :
    RegTree.prunedFrom param.learning_rate st.1 st2.1 := by
  induction order generalizing st with
  | nil => simp [PruneVisit] at h; subst h; exact RegTree.prunedFrom_refl _ _
  | cons i rest ih =>
    unfold PruneVisit at h
    cases hs : PruneStep param st i with
    | error e => simp [hs] at h
    | ok s1 =>
      simp only [hs] at h
      exact RegTree.prunedFrom_trans _ _ _ _ (PruneStep_frame param st s1 i hs) (ih s1 h)

theorem prunedFrom_reset (lr : F) (t : RegTree F) :
    RegTree.prunedFrom lr t t.resetLeafChildCnt := by
  refine ⟨resetLeafChildCnt_length t, rfl, ?_⟩
  intro i n0 hn0
  rw [resetLeafChildCnt_getElem?, hn0]
  exact ⟨_, rfl, rfl, rfl, Or.inl rfl, Or.inl ⟨rfl, rfl, rfl⟩⟩

theorem DoPruneOrder_frame (param : TrainParam F) (order : List Nat) (t t2 : RegTree F)
    (k : Int) (h : DoPruneOrder param order t = .ok (t2, k)) :
    RegTree.prunedFrom param.learning_rate t t2 :=
  RegTree.prunedFrom_trans _ _ _ _ (prunedFrom_reset _ t)
    (PruneVisit_frame param order _ _ h)

theorem PruneAll_get (param : TrainParam F) (trees result : List (RegTree F))
    (h : PruneAll param trees = .ok result) :
    result.length = trees.length ∧
    ∀ (i : Nat) (t : RegTree F), trees[i]? = some t →
      ∃ (t2 : RegTree F) (k : Int), result[i]? = some t2 ∧ DoPrune param t = .ok (t2, k) := by
  induction trees generalizing result with
  | nil =>
    simp [PruneAll] at h
    subst h
    exact ⟨rfl, by intro i t ht; simp at ht⟩
  | cons a rest ih =>
    unfold PruneAll at h
    cases ha : DoPrune param a with
    | error e => simp [ha] at h
    | ok r =>
      simp only [ha] at h
      cases hr : PruneAll param rest with
      | error e => simp [hr] at h
      | ok rs =>
        simp only [hr, Except.ok.injEq] at h
        subst h
        rcases ih rs hr with ⟨hl, hget⟩
        refine ⟨by simp [hl], ?_⟩
        intro i t ht
        cases i with
        | zero =>
          simp only [List.getElem?_cons_zero, Option.some.injEq] at ht
          subst ht
          exact ⟨r.1, r.2, by simp, ha⟩
        | succ j =>
          simp only [List.getElem?_cons_succ] at ht ⊢
          exact hget j t ht

end frame

/-- C8 (batch scaling): when `Update` gets through its pruning loop, the tree
it leaves at position `i`, before synchronisation, is the result of `DoPrune`
on tree `i` alone with the learning rate `r / k`, `k` the batch size; every
node that the pass turned from an internal node into a leaf carries the value
`(r / k) * base_weight`; and the result at position `i` is the same for any
other batch of the same size with the same tree at position `i`. -/
theorem UpdatePrune_batch_scaling [Mul F] [Div F] [NatCast F] (param param2 : TrainParam F)
    (trees trees2 : List (RegTree F)) (h : UpdatePrune param trees = .ok (param2, trees2))
    (i : Nat) (t : RegTree F) (hi : trees[i]? = some t) :
    ∃ (t2 : RegTree F) (k : Int),
      trees2[i]? = some t2 ∧
      DoPrune ⟨param.learning_rate / (trees.length : F), param.need_prune⟩ t
        = .ok (t2, k) ∧
      (∀ (pid : Nat) (n n2 : Node F), t.nodes[pid]? = some n → t2.nodes[pid]? = some n2 →
        n.is_leaf = false → n2.is_leaf = true →
        n2.leaf_value = (param.learning_rate / (trees.length : F)) * n.stat.base_weight) ∧
      (∀ (others others2 : List (RegTree F)) (param3 : TrainParam F),
        others.length = trees.length → others[i]? = some t →
        UpdatePrune param others = .ok (param3, others2) → others2[i]? = some t2) := by
  have hp := (UpdatePrune_param param param2 trees trees2 h).2
  rcases (PruneAll_get _ trees trees2 hp).2 i t hi with ⟨t2, k, hget, hdo⟩
  refine ⟨t2, k, hget, hdo, ?_, ?_⟩
  · intro pid n n2 hn hn2 hl hl2
    have hf := DoPruneOrder_frame _ _ t t2 k hdo
    rcases hf.2.2 pid n hn with ⟨m, hm, _, _, _, hs⟩
    rw [hn2] at hm; cases hm
    rcases hs with ⟨a, _, _⟩ | ⟨_, _, _, d⟩
    · unfold Node.is_leaf at hl hl2
      rw [a, hl] at hl2
      cases hl2
    · exact d
  · intro others others2 param3 hlen hoi ho
    have hp3 := (UpdatePrune_param param param3 others others2 ho).2
    rw [hlen] at hp3
    rcases (PruneAll_get _ others others2 hp3).2 i t hoi with ⟨t3, k3, hget3, hdo3⟩
    rw [hdo] at hdo3
    cases hdo3
    exact hget3

/-- Witness of C8: the batch `[chainTree, singleLeaf]` with learning rate 3; the
chain is pruned with the rate `3 / 2`. -/
theorem UpdatePrune_batch_scaling_witness :
    ∃ (t2 : RegTree Int) (k : Int),
      DoPrune ⟨belowOne.learning_rate / ((2 : Nat) : Int), belowOne.need_prune⟩ chainTree
        = .ok (t2, k) := by
  have hall : PruneAll ⟨belowOne.learning_rate / (([chainTree, singleLeaf].length : Nat) : Int),
      belowOne.need_prune⟩ [chainTree, singleLeaf]
      = .ok [chainTreeScaled, singleLeaf.resetLeafChildCnt] := by decide
  have hup : UpdatePrune belowOne [chainTree, singleLeaf]
      = .ok (belowOne, [chainTreeScaled, singleLeaf.resetLeafChildCnt]) := by
    unfold UpdatePrune
    simp only [hall]
  rcases UpdatePrune_batch_scaling belowOne belowOne [chainTree, singleLeaf]
    [chainTreeScaled, singleLeaf.resetLeafChildCnt] hup 0 chainTree rfl with
    ⟨t2, k, _, hdo, _, _⟩
  exact ⟨t2, k, hdo⟩

/-! ## One collapse, seen from the tree before the counter was bumped -/

/-- The effect of line 63 followed by a successful `ChangeToLeaf` (line 66) on
the parent `pid`. -/
theorem bump_ChangeToLeaf_ok {t t2 : RegTree F} {pid : Nat} {pn : Node F} {v : F}
    (hpn : t.nodes[pid]? = some pn)
    (h : (t.setNode pid (bump pn)).ChangeToLeaf pid v = .ok t2) :
    ∃ (cl cr : Nat) (nl nr : Node F),
      pn.cleft = some cl ∧ pn.cright = some cr ∧
      t.nodes[cl]? = some nl ∧ t.nodes[cr]? = some nr ∧
      nl.cleft = none ∧ nr.cleft = none ∧ pid ≠ cl ∧ pid ≠ cr ∧
      t2.num_roots = t.num_roots ∧
      t2.deleted_nodes = t.deleted_nodes ++ [cl, cr] ∧
      t2.nodes.length = t.nodes.length ∧
      (∀ j : Nat, t2.nodes[j]? =
        if j = pid then some ((bump pn).set_leaf v)
        else if j = cl ∨ j = cr then (t.nodes[j]?).map (fun n => { n with parent := none })
        else t.nodes[j]?) := by
  have hlt := lt_of_getElem?_eq_some hpn
  rcases ChangeToLeaf_ok h with
    ⟨r, cl, cr, nl, nr, hr, hcl, hcr, hnl, hnr, hl1, hl2, hne1, hne2, hroots, hdel, hlen, hpt⟩
  have hr' : r = bump pn := by
    rw [setNode_getElem?] at hr
    simp only [if_true, hlt, Option.some.injEq] at hr
    exact hr.symm
  subst hr'
  have hnl' : t.nodes[cl]? = some nl := by
    rw [setNode_getElem?, if_neg hne1] at hnl; exact hnl
  have hnr' : t.nodes[cr]? = some nr := by
    rw [setNode_getElem?, if_neg hne2] at hnr; exact hnr
  refine ⟨cl, cr, nl, nr, hcl, hcr, hnl', hnr', hl1, hl2, hne1, hne2, hroots, hdel, ?_, ?_⟩
  · rw [hlen, setNode_length]
  · intro j
    rw [hpt j]
    by_cases hj : j = pid
    · simp [hj]
    · have hj' : ¬ pid = j := fun e => hj e.symm
      simp only [hj, if_false, setNode_getElem?, hj']

/-- The depth loop reads nothing but the parent links. -/
theorem GetDepthLoop_congr (t t2 : RegTree F)
    (hsame : ∀ j : Nat, (t2.nodes[j]?).map Node.parent = (t.nodes[j]?).map Node.parent)
    (fuel : Nat) (q : Nat) (acc : Int) :
    t2.GetDepthLoop fuel q acc = t.GetDepthLoop fuel q acc := by
  induction fuel generalizing q acc with
  | zero => simp [RegTree.GetDepthLoop]
  | succ f ih =>
    have hq := hsame q
    unfold RegTree.GetDepthLoop
    cases h1 : t.nodes[q]? with
    | none =>
      cases h2 : t2.nodes[q]? with
      | none => rfl
      | some n2 => simp [h1, h2] at hq
    | some n1 =>
      cases h2 : t2.nodes[q]? with
      | none => simp [h1, h2] at hq
      | some n2 =>
        simp only [h1, h2, Option.map_some', Option.some.injEq] at hq
        simp only [hq]
        cases hp : n1.parent with
        | none => rfl
        | some p => exact ih p (acc + 1)

theorem GetDepth_bump (t : RegTree F) (pid : Nat) (pn : Node F)
    (hpn : t.nodes[pid]? = some pn) (q : Nat) :
    (t.setNode pid (bump pn)).GetDepth q = t.GetDepth q := by
  unfold RegTree.GetDepth RegTree.num_nodes
  rw [setNode_length]
  apply GetDepthLoop_congr
  intro j
  rw [setNode_getElem?]
  by_cases hj : pid = j
  · subst hj
    simp [lt_of_getElem?_eq_some hpn, hpn, bump]
  · simp [hj]

/-! ## Well-formedness is kept by the steps of the pass -/

/-- Well-formedness reads nothing but the three links of every slot. -/
theorem WF_congr (t t2 : RegTree F) (hw : t.WF)
    (hlen : t2.nodes.length = t.nodes.length)
    (hsame : ∀ (j : Nat) (n2 : Node F), t2.nodes[j]? = some n2 →
      ∃ n : Node F, t.nodes[j]? = some n ∧ n2.parent = n.parent ∧ n2.cleft = n.cleft ∧
        n2.cright = n.cright) : t2.WF := by
  have hback : ∀ (j : Nat) (n : Node F), t.nodes[j]? = some n →
      ∃ n2 : Node F, t2.nodes[j]? = some n2 ∧ n2.parent = n.parent ∧ n2.cleft = n.cleft ∧
        n2.cright = n.cright := by
    intro j n hn
    have hlt : j < t2.nodes.length := by rw [hlen]; exact lt_of_getElem?_eq_some hn
    rcases hsame j _ (List.getElem?_eq_getElem hlt) with ⟨n', hn', h1, h2, h3⟩
    rw [hn] at hn'; cases hn'
    exact ⟨_, List.getElem?_eq_getElem hlt, h1, h2, h3⟩
  constructor
  · intro i n2 l hn2 hl
    rcases hsame i n2 hn2 with ⟨n, hn, _, h2, h3⟩
    rcases hw.children i n l hn (by rw [← h2]; exact hl) with
      ⟨r, nl, nr, hr, hne, hnl, hpl, hnr, hpr⟩
    rcases hback l nl hnl with ⟨nl2, hnl2, hp1, _, _⟩
    rcases hback r nr hnr with ⟨nr2, hnr2, hp2, _, _⟩
    exact ⟨r, nl2, nr2, by rw [h3]; exact hr, hne, hnl2, by rw [hp1]; exact hpl, hnr2,
      by rw [hp2]; exact hpr⟩
  · intro i n2 hn2 hl
    rcases hsame i n2 hn2 with ⟨n, hn, _, h2, h3⟩
    rw [h3]
    exact hw.leaf i n hn (by rw [← h2]; exact hl)
  · intro i n2 p hn2 hp
    rcases hsame i n2 hn2 with ⟨n, hn, h1, _, _⟩
    rcases hw.parent i n p hn (by rw [← h1]; exact hp) with ⟨np, hnp, hc⟩
    rcases hback p np hnp with ⟨np2, hnp2, _, c1, c2⟩
    exact ⟨np2, hnp2, by rw [c1, c2]; exact hc⟩
  · intro i n2 hn2
    rcases hsame i n2 hn2 with ⟨n, hn, _, _, _⟩
    rcases hw.depth i n hn with ⟨d, hd⟩
    refine ⟨d, ?_⟩
    rw [← hd]
    unfold RegTree.GetDepth RegTree.num_nodes
    rw [hlen]
    apply GetDepthLoop_congr
    intro j
    cases h2 : t2.nodes[j]? with
    | none =>
      have : t.nodes[j]? = none := by
        rw [List.getElem?_eq_none_iff] at h2 ⊢
        omega
      simp [this]
    | some m2 =>
      rcases hsame j m2 h2 with ⟨m, hm, hp, _, _⟩
      simp [hm, hp]

theorem WF_bump (t : RegTree F) (hw : t.WF) (pid : Nat) (pn : Node F)
    (hpn : t.nodes[pid]? = some pn) : (t.setNode pid (bump pn)).WF := by
  apply WF_congr t _ hw (setNode_length t pid _)
  intro j n2 hn2
  rw [setNode_getElem?] at hn2
  by_cases hj : pid = j
  · subst hj
    simp only [if_true, lt_of_getElem?_eq_some hpn, Option.some.injEq] at hn2
    subst hn2
    exact ⟨pn, hpn, rfl, rfl, rfl⟩
  · simp only [hj, if_false] at hn2
    exact ⟨n2, hn2, rfl, rfl, rfl⟩

theorem WF_reset (t : RegTree F) (hw : t.WF) : t.resetLeafChildCnt.WF := by
  apply WF_congr t _ hw (resetLeafChildCnt_length t)
  intro j n2 hn2
  rw [resetLeafChildCnt_getElem?] at hn2
  cases h : t.nodes[j]? with
  | none => simp [h] at hn2
  | some n =>
    simp only [h, Option.map_some', Option.some.injEq] at hn2
    subst hn2
    exact ⟨n, rfl, rfl, rfl, rfl⟩

theorem collapseStep_of_ok {t t2 : RegTree F} {pid : Nat} {pn : Node F} {v : F}
    (hpn : t.nodes[pid]? = some pn)
    (h : (t.setNode pid (bump pn)).ChangeToLeaf pid v = .ok t2) :
    ∃ (cl cr : Nat) (nl nr : Node F), CollapseStep t t2 pid cl cr pn nl nr v := by
  rcases bump_ChangeToLeaf_ok hpn h with
    ⟨cl, cr, nl, nr, h1, h2, h3, h4, h5, h6, h7, h8, h9, h10, h11, h12⟩
  exact ⟨cl, cr, nl, nr, ⟨hpn, h1, h2, h3, h4, h5, h6, h7, h8, h9, h10, h11, h12⟩⟩

namespace CollapseStep

variable {t t2 : RegTree F} {pid cl cr : Nat} {pn nl nr : Node F} {v : F}

theorem get_pid (cs : CollapseStep t t2 pid cl cr pn nl nr v) :
    t2.nodes[pid]? = some ((bump pn).set_leaf v) := by
  rw [cs.get pid]; simp

theorem get_cl (cs : CollapseStep t t2 pid cl cr pn nl nr v) :
    t2.nodes[cl]? = some { nl with parent := none } := by
  rw [cs.get cl, if_neg (Ne.symm cs.ne1)]; simp [cs.hnl]

theorem get_cr (cs : CollapseStep t t2 pid cl cr pn nl nr v) :
    t2.nodes[cr]? = some { nr with parent := none } := by
  rw [cs.get cr, if_neg (Ne.symm cs.ne2)]; simp [cs.hnr]

theorem get_other (cs : CollapseStep t t2 pid cl cr pn nl nr v) (j : Nat)
    (h1 : j ≠ pid) (h2 : j ≠ cl) (h3 : j ≠ cr) : t2.nodes[j]? = t.nodes[j]? := by
  rw [cs.get j]; simp [h1, h2, h3]

/-- Every slot of the tree after the collapse is the collapsed node, a
reclaimed child, or an untouched slot. -/
theorem cases (cs : CollapseStep t t2 pid cl cr pn nl nr v) (j : Nat) (n2 : Node F)
    (h : t2.nodes[j]? = some n2) :
    (j = pid ∧ n2 = (bump pn).set_leaf v) ∨
    ((j = cl ∨ j = cr) ∧ ∃ n : Node F, t.nodes[j]? = some n ∧ n.cleft = none ∧
      n2 = { n with parent := none }) ∨
    (j ≠ pid ∧ j ≠ cl ∧ j ≠ cr ∧ t.nodes[j]? = some n2) := by
  by_cases h1 : j = pid
  · left
    subst h1
    rw [cs.get_pid] at h
    exact ⟨rfl, (Option.some.inj h).symm⟩
  · by_cases h2 : j = cl
    · right; left
      subst h2
      rw [cs.get_cl] at h
      exact ⟨Or.inl rfl, nl, cs.hnl, cs.leafl, (Option.some.inj h).symm⟩
    · by_cases h3 : j = cr
      · right; left
        subst h3
        rw [cs.get_cr] at h
        exact ⟨Or.inr rfl, nr, cs.hnr, cs.leafr, (Option.some.inj h).symm⟩
      · right; right
        rw [cs.get_other j h1 h2 h3] at h
        exact ⟨h1, h2, h3, h⟩

/-- An internal node of the tree before the collapse keeps its parent link. -/
theorem internal_parent (cs : CollapseStep t t2 pid cl cr pn nl nr v)
    (j : Nat) (nj : Node F) (c : Nat) (hj : t.nodes[j]? = some nj) (hc : nj.cleft = some c) :
    ∃ nj2 : Node F, t2.nodes[j]? = some nj2 ∧ nj2.parent = nj.parent := by
  by_cases h1 : j = pid
  · subst h1
    rw [cs.hpn] at hj; cases hj
    exact ⟨_, cs.get_pid, rfl⟩
  · have h2 : j ≠ cl := by
      intro e; subst e
      rw [cs.hnl] at hj; cases hj
      rw [cs.leafl] at hc; cases hc
    have h3 : j ≠ cr := by
      intro e; subst e
      rw [cs.hnr] at hj; cases hj
      rw [cs.leafr] at hc; cases hc
    exact ⟨nj, by rw [cs.get_other j h1 h2 h3]; exact hj, rfl⟩

/-- The collapse leaves the depth of every node that was internal unchanged. -/
theorem GetDepth_internal (cs : CollapseStep t t2 pid cl cr pn nl nr v) (hw : t.WF)
    (q : Nat) (nq : Node F) (c : Nat) (hq : t.nodes[q]? = some nq) (hc : nq.cleft = some c) :
    t2.GetDepth q = t.GetDepth q := by
  unfold RegTree.GetDepth RegTree.num_nodes
  rw [cs.length]
  exact GetDepthLoop_agree t t2 (fun j nj c hj hc => cs.internal_parent j nj c hj hc)
    (fun j nj p hj hp => hw.parent_internal j nj p hj hp) _ q 0 nq c hq hc

theorem wf (cs : CollapseStep t t2 pid cl cr pn nl nr v) (hw : t.WF) : t2.WF := by
  rcases hw.children pid pn cl cs.hpn cs.hcl with ⟨cr', nl', nr', hcr', hne, hnl', hpl, hnr', hpr⟩
  rw [cs.hcr] at hcr'; cases hcr'
  rw [cs.hnl] at hnl'; cases hnl'
  rw [cs.hnr] at hnr'; cases hnr'
  have hlr : nl.cright = none := hw.leaf cl nl cs.hnl cs.leafl
  have hrr : nr.cright = none := hw.leaf cr nr cs.hnr cs.leafr
  -- a node whose parent is `pid` is one of the two children
  have hchild : ∀ (i : Nat) (n : Node F), t.nodes[i]? = some n → n.parent = some pid →
      i = cl ∨ i = cr := by
    intro i n hn hp
    rcases hw.parent i n pid hn hp with ⟨np, hnp, hc⟩
    rw [cs.hpn] at hnp; cases hnp
    rcases hc with hc | hc
    · left; rw [cs.hcl] at hc; exact (Option.some.inj hc).symm
    · right; rw [cs.hcr] at hc; exact (Option.some.inj hc).symm
  -- a slot that is another slot's parent is untouched or is `pid`
  have hparent : ∀ (i : Nat) (n : Node F) (p : Nat), t.nodes[i]? = some n →
      n.parent = some p → p ≠ cl ∧ p ≠ cr := by
    intro i n p hn hp
    rcases hw.parent i n p hn hp with ⟨np, hnp, hc⟩
    constructor
    · intro e; subst e
      rw [cs.hnl] at hnp; cases hnp
      rcases hc with hc | hc
      · rw [cs.leafl] at hc; cases hc
      · rw [hlr] at hc; cases hc
    · intro e; subst e
      rw [cs.hnr] at hnp; cases hnp
      rcases hc with hc | hc
      · rw [cs.leafr] at hc; cases hc
      · rw [hrr] at hc; cases hc
  -- an untouched child of an untouched or collapsed parent keeps its slot
  have hkeep : ∀ (c i : Nat) (nc : Node F), i ≠ pid → t.nodes[c]? = some nc →
      nc.parent = some i → ∃ nc2 : Node F, t2.nodes[c]? = some nc2 ∧ nc2.parent = some i := by
    intro c i nc hi hnc hp
    have h2 : c ≠ cl := by
      intro e; subst e
      rw [cs.hnl] at hnc; cases hnc
      rw [hpl] at hp; exact hi (Option.some.inj hp).symm
    have h3 : c ≠ cr := by
      intro e; subst e
      rw [cs.hnr] at hnc; cases hnc
      rw [hpr] at hp; exact hi (Option.some.inj hp).symm
    by_cases h1 : c = pid
    · subst h1
      rw [cs.hpn] at hnc; cases hnc
      exact ⟨_, cs.get_pid, hp⟩
    · exact ⟨nc, by rw [cs.get_other c h1 h2 h3]; exact hnc, hp⟩
  constructor
  · intro i n2 l hn2 hl
    rcases cs.cases i n2 hn2 with ⟨_, rfl⟩ | ⟨_, n, _, hleaf, rfl⟩ | ⟨h1, h2, h3, hn⟩
    · simp [Node.set_leaf] at hl
    · rw [hleaf] at hl; cases hl
    · rcases hw.children i n2 l hn hl with ⟨r, ml, mr, hr, hne', hml, hpml, hmr, hpmr⟩
      rcases hkeep l i ml h1 hml hpml with ⟨ml2, hml2, hpml2⟩
      rcases hkeep r i mr h1 hmr hpmr with ⟨mr2, hmr2, hpmr2⟩
      exact ⟨r, ml2, mr2, hr, hne', hml2, hpml2, hmr2, hpmr2⟩
  · intro i n2 hn2 hl
    rcases cs.cases i n2 hn2 with ⟨_, rfl⟩ | ⟨_, n, hn, hleaf, rfl⟩ | ⟨h1, h2, h3, hn⟩
    · rfl
    · exact hw.leaf i n hn hleaf
    · exact hw.leaf i n2 hn hl
  · intro i n2 p hn2 hp
    have key : ∀ n : Node F, t.nodes[i]? = some n → n.parent = some p → i ≠ cl → i ≠ cr →
        ∃ np : Node F, t2.nodes[p]? = some np ∧ (np.cleft = some i ∨ np.cright = some i) := by
      intro n hn hpn' hi2 hi3
      rcases hw.parent i n p hn hpn' with ⟨np, hnp, hc⟩
      rcases hparent i n p hn hpn' with ⟨hp2, hp3⟩
      have hp1 : p ≠ pid := by
        intro e; subst e
        rcases hchild i n hn hpn' with e | e
        · exact hi2 e
        · exact hi3 e
      exact ⟨np, by rw [cs.get_other p hp1 hp2 hp3]; exact hnp, hc⟩
    rcases cs.cases i n2 hn2 with ⟨rfl, rfl⟩ | ⟨_, n, _, _, rfl⟩ | ⟨h1, h2, h3, hn⟩
    · exact key pn cs.hpn hp cs.ne1 cs.ne2
    · cases hp
    · exact key n2 hn hp h2 h3
  · intro i n2 hn2
    cases hp : n2.parent with
    | none => exact ⟨0, GetDepth_root t2 i n2 hn2 hp⟩
    | some p =>
      have key : ∀ n : Node F, t.nodes[i]? = some n → n.parent = some p →
          ∃ d : Int, t2.GetDepth i = .ok d := by
        intro n hn hpn'
        rcases hw.depth i n hn with ⟨d, hd⟩
        rcases hw.parent_internal i n p hn hpn' with ⟨np, c, hnp, hc⟩
        refine ⟨d, ?_⟩
        rw [← hd]
        unfold RegTree.GetDepth
        unfold RegTree.GetDepthLoop
        simp only [hn2, hp, hn, hpn']
        unfold RegTree.num_nodes
        rw [cs.length]
        exact GetDepthLoop_agree t t2
          (fun j nj c hj hc => cs.internal_parent j nj c hj hc)
          (fun j nj p hj hp => hw.parent_internal j nj p hj hp) _ p _ np c hnp hc
      rcases cs.cases i n2 hn2 with ⟨rfl, rfl⟩ | ⟨_, n, _, _, rfl⟩ | ⟨h1, h2, h3, hn⟩
      · exact key pn cs.hpn hp
      · cases hp
      · exact key n2 hn hp

end CollapseStep

/-! ## The invariant of a pass -/

theorem get_bump (t : RegTree F) (pid : Nat) (pn : Node F) (hpn : t.nodes[pid]? = some pn)
    (j : Nat) :
    (t.setNode pid (bump pn)).nodes[j]? = if j = pid then some (bump pn) else t.nodes[j]? := by
  rw [setNode_getElem?]
  by_cases hj : j = pid
  · subst hj; simp [lt_of_getElem?_eq_some hpn]
  · have : ¬ pid = j := fun e => hj e.symm
    simp [hj, this]

/-- Bumping a counter does not change which slots are leaves. -/
theorem get_bump_leaf (t : RegTree F) (pid : Nat) (pn : Node F)
    (hpn : t.nodes[pid]? = some pn) (j : Nat) :
    (∃ n : Node F, (t.setNode pid (bump pn)).nodes[j]? = some n ∧ n.cleft = none) ↔
    (∃ n : Node F, t.nodes[j]? = some n ∧ n.cleft = none) := by
  rw [get_bump t pid pn hpn j]
  by_cases hj : j = pid
  · subst hj
    simp only [if_true, hpn]
    constructor
    · rintro ⟨n, hn, hl⟩
      cases hn
      exact ⟨pn, rfl, hl⟩
    · rintro ⟨n, hn, hl⟩
      cases hn
      exact ⟨bump pn, rfl, hl⟩
  · simp only [hj, if_false]

theorem Arrived_bump (t : RegTree F) (pid : Nat) (pn : Node F)
    (hpn : t.nodes[pid]? = some pn) (V : List Nat) (x : Option Nat) (c : Nat) :
    (t.setNode pid (bump pn)).Arrived V x c ↔ t.Arrived V x c := by
  unfold RegTree.Arrived
  constructor
  · rintro ⟨n, hn, hl, hv, hx⟩
    rcases (get_bump_leaf t pid pn hpn c).1 ⟨n, hn, hl⟩ with ⟨m, hm, hml⟩
    exact ⟨m, hm, hml, hv, hx⟩
  · rintro ⟨n, hn, hl, hv, hx⟩
    rcases (get_bump_leaf t pid pn hpn c).2 ⟨n, hn, hl⟩ with ⟨m, hm, hml⟩
    exact ⟨m, hm, hml, hv, hx⟩

/-- The pending arrival can be dropped when the pending node is a root. -/
theorem PassInv_root (param : TrainParam F) (t : RegTree F) (V : List Nat) (nid : Nat)
    (n : Node F) (hn : t.nodes[nid]? = some n) (hp : n.parent = none)
    (h : PassInv param t V (some nid)) : PassInv param t V none := by
  refine ⟨h.wf, h.nonneg, ?_, h.gate⟩
  intro p np l r hnp hl hr
  rcases h.wf.children p np l hnp hl with ⟨r', nl, nr, hr', _, hnl, hpl, hnr, hpr⟩
  rw [hr] at hr'; cases hr'
  have hl' : l ≠ nid := by
    intro e; subst e; rw [hn] at hnl; cases hnl; rw [hp] at hpl; cases hpl
  have hr' : r ≠ nid := by
    intro e; subst e; rw [hn] at hnr; cases hnr; rw [hp] at hpr; cases hpr
  have tl : t.Arrived V none l → t.Arrived V (some nid) l := by
    rintro ⟨m, hm, hml, hv, _⟩
    exact ⟨m, hm, hml, hv, fun e => hl' (Option.some.inj e).symm⟩
  have tr : t.Arrived V none r → t.Arrived V (some nid) r := by
    rintro ⟨m, hm, hml, hv, _⟩
    exact ⟨m, hm, hml, hv, fun e => hr' (Option.some.inj e).symm⟩
  rcases h.low p np l r hnp hl hr with ⟨a, b, c⟩
  exact ⟨fun x => a (tl x), fun x => b (tr x), fun x y => c (tl x) (tr y)⟩

/-- The invariant after an arrival that does not collapse the parent. -/
theorem PassInv_stay (param : TrainParam F) (t : RegTree F) (V : List Nat) (nid pid : Nat)
    (n pn : Node F) (depth : Int)
    (hn : t.nodes[nid]? = some n) (hp : n.parent = some pid) (hpn : t.nodes[pid]? = some pn)
    (hd : t.GetDepth nid = .ok depth)
    (hgate : ¬ (pn.stat.leaf_child_cnt + 1 ≥ 2 ∧
      param.need_prune pn.stat.loss_chg (depth - 1) = true))
    (h : PassInv param t V (some nid)) :
    PassInv param (t.setNode pid (bump pn)) V none := by
  have hdp := GetDepth_parent t nid pid n depth hn hp hd
  refine ⟨WF_bump t h.wf pid pn hpn, ?_, ?_, ?_⟩
  · intro i m hm
    rw [get_bump t pid pn hpn i] at hm
    by_cases hi : i = pid
    · simp only [hi, if_true, Option.some.injEq] at hm
      subst hm
      have := h.nonneg pid pn hpn
      simp only [bump]
      omega
    · simp only [hi, if_false] at hm
      exact h.nonneg i m hm
  · intro p np l r hnp hl hr
    rw [get_bump t pid pn hpn p] at hnp
    simp only [Arrived_bump t pid pn hpn]
    by_cases hpp : p = pid
    · simp only [hpp, if_true, Option.some.injEq] at hnp
      subst hnp
      subst hpp
      have hl0 : pn.cleft = some l := hl
      have hr0 : pn.cright = some r := hr
      rcases h.wf.children p pn l hpn hl0 with ⟨r', nl, nr, hr', hne, hnl, hpl, hnr, hpr⟩
      rw [hr0] at hr'; cases hr'
      have hnn := h.nonneg p pn hpn
      rcases h.low p pn l r hpn hl0 hr0 with ⟨a, b, _⟩
      have hside : pn.cleft = some nid ∨ pn.cright = some nid := by
        rcases h.wf.parent nid n p hn hp with ⟨np', hnp', hc⟩
        rw [hpn] at hnp'; cases hnp'
        exact hc
      simp only [bump]
      refine ⟨fun _ => by omega, fun _ => by omega, ?_⟩
      intro al ar
      rcases hside with hs | hs
      · rw [hl0] at hs
        have e : l = nid := Option.some.inj hs
        have : t.Arrived V (some nid) r := by
          rcases ar with ⟨m, hm, hml, hv, _⟩
          exact ⟨m, hm, hml, hv, fun e2 => hne (e.trans (Option.some.inj e2))⟩
        have := b this
        omega
      · rw [hr0] at hs
        have e : r = nid := Option.some.inj hs
        have : t.Arrived V (some nid) l := by
          rcases al with ⟨m, hm, hml, hv, _⟩
          exact ⟨m, hm, hml, hv, fun e2 => hne ((Option.some.inj e2).symm.trans e.symm)⟩
        have := a this
        omega
    · simp only [hpp, if_false] at hnp
      rcases h.wf.children p np l hnp hl with ⟨r', nl, nr, hr', _, hnl, hpl, hnr, hpr⟩
      rw [hr] at hr'; cases hr'
      have hl' : l ≠ nid := by
        intro e; subst e; rw [hn] at hnl; cases hnl; rw [hp] at hpl
        exact hpp (Option.some.inj hpl).symm
      have hr' : r ≠ nid := by
        intro e; subst e; rw [hn] at hnr; cases hnr; rw [hp] at hpr
        exact hpp (Option.some.inj hpr).symm
      have tl : t.Arrived V none l → t.Arrived V (some nid) l := by
        rintro ⟨m, hm, hml, hv, _⟩
        exact ⟨m, hm, hml, hv, fun e => hl' (Option.some.inj e).symm⟩
      have tr : t.Arrived V none r → t.Arrived V (some nid) r := by
        rintro ⟨m, hm, hml, hv, _⟩
        exact ⟨m, hm, hml, hv, fun e => hr' (Option.some.inj e).symm⟩
      rcases h.low p np l r hnp hl hr with ⟨a, b, c⟩
      exact ⟨fun x => a (tl x), fun x => b (tr x), fun x y => c (tl x) (tr y)⟩
  · intro p np c d hnp hc hcnt hdepth
    rw [get_bump t pid pn hpn p] at hnp
    rw [GetDepth_bump t pid pn hpn p] at hdepth
    by_cases hpp : p = pid
    · simp only [hpp, if_true, Option.some.injEq] at hnp
      subst hnp
      subst hpp
      rw [hdp] at hdepth
      cases hdepth
      simp only [bump] at hcnt ⊢
      cases hnp : param.need_prune pn.stat.loss_chg (depth - 1) with
      | false => rfl
      | true => exact absurd ⟨hcnt, hnp⟩ hgate
    · simp only [hpp, if_false] at hnp
      exact h.gate p np c d hnp hc hcnt hdepth

/-- The invariant, with the arrival of the collapsed node pending, after an
arrival that collapses the parent. -/
theorem PassInv_collapse (param : TrainParam F) (t t2 : RegTree F) (V : List Nat)
    (nid pid cl cr : Nat) (n pn nl nr : Node F) (v : F)
    (hn : t.nodes[nid]? = some n) (hp : n.parent = some pid)
    (cs : CollapseStep t t2 pid cl cr pn nl nr v)
    (h : PassInv param t V (some nid)) : PassInv param t2 V (some pid) := by
  have hw := h.wf
  have hnid : nid = cl ∨ nid = cr := by
    rcases hw.parent nid n pid hn hp with ⟨np', hnp', hc⟩
    rw [cs.hpn] at hnp'; cases hnp'
    rcases hc with hc | hc
    · left; rw [cs.hcl] at hc; exact (Option.some.inj hc).symm
    · right; rw [cs.hcr] at hc; exact (Option.some.inj hc).symm
  rcases hw.children pid pn cl cs.hpn cs.hcl with ⟨cr', nl', nr', hcr', _, hnl', hpl, hnr', hpr⟩
  rw [cs.hcr] at hcr'; cases hcr'
  rw [cs.hnl] at hnl'; cases hnl'
  rw [cs.hnr] at hnr'; cases hnr'
  -- an internal node of the new tree is an untouched slot
  have hint : ∀ (p : Nat) (np : Node F) (c : Nat), t2.nodes[p]? = some np → np.cleft = some c →
      p ≠ pid ∧ t.nodes[p]? = some np := by
    intro p np c hnp hc
    rcases cs.cases p np hnp with ⟨_, rfl⟩ | ⟨_, m, _, hleaf, rfl⟩ | ⟨h1, _, _, hm⟩
    · simp [Node.set_leaf] at hc
    · rw [hleaf] at hc; cases hc
    · exact ⟨h1, hm⟩
  refine ⟨cs.wf hw, ?_, ?_, ?_⟩
  · intro i m hm
    rcases cs.cases i m hm with ⟨_, rfl⟩ | ⟨_, m0, hm0, _, rfl⟩ | ⟨_, _, _, hm0⟩
    · have := h.nonneg pid pn cs.hpn
      simp only [Node.set_leaf, bump]
      omega
    · exact h.nonneg i m0 hm0
    · exact h.nonneg i m hm0
  · intro p np l r hnp hl hr
    rcases hint p np l hnp hl with ⟨hpp, hnp0⟩
    rcases hw.children p np l hnp0 hl with ⟨r', ml, mr, hr', _, hml, hpml, hmr, hpmr⟩
    rw [hr] at hr'; cases hr'
    -- a child of `p` that has arrived in the new tree had arrived in the old one
    have tr : ∀ (c : Nat) (mc : Node F), t.nodes[c]? = some mc → mc.parent = some p →
        t2.Arrived V (some pid) c → t.Arrived V (some nid) c := by
      intro c mc hmc hpc ⟨m, hm, hleaf, hv, hx⟩
      have hc1 : c ≠ pid := fun e => hx (by rw [e])
      have hc2 : c ≠ cl := by
        intro e; subst e; rw [cs.hnl] at hmc; cases hmc; rw [hpl] at hpc
        exact hpp (Option.some.inj hpc).symm
      have hc3 : c ≠ cr := by
        intro e; subst e; rw [cs.hnr] at hmc; cases hmc; rw [hpr] at hpc
        exact hpp (Option.some.inj hpc).symm
      rw [cs.get_other c hc1 hc2 hc3] at hm
      refine ⟨m, hm, hleaf, hv, ?_⟩
      intro e
      have e' : nid = c := Option.some.inj e
      rcases hnid with e2 | e2
      · exact hc2 (e'.symm.trans e2)
      · exact hc3 (e'.symm.trans e2)
    rcases h.low p np l r hnp0 hl hr with ⟨a, b, c⟩
    exact ⟨fun x => a (tr l ml hml hpml x), fun x => b (tr r mr hmr hpmr x),
      fun x y => c (tr l ml hml hpml x) (tr r mr hmr hpmr y)⟩
  · intro p np c d hnp hc hcnt hdepth
    rcases hint p np c hnp hc with ⟨_, hnp0⟩
    rw [cs.GetDepth_internal hw p np c hnp0 hc] at hdepth
    exact h.gate p np c d hnp0 hc hcnt hdepth

/-- The walker keeps the invariant: started with its own arrival pending on a
leaf whose depth it was given, it ends with no arrival pending. -/
theorem TryPruneLeaf_inv [Mul F] (param : TrainParam F) (V : List Nat) (fuel : Nat) (t t2 : RegTree F)
    (nid : Nat) (n : Node F) (depth k k2 : Int)
    (hn : t.nodes[nid]? = some n)
    (hd : t.GetDepth nid = .ok depth)
    (h : PassInv param t V (some nid))
    (hrun : TryPruneLeaf param fuel t nid depth k = .ok (t2, k2)) :
    PassInv param t2 V none := by
  induction fuel generalizing t nid n depth k with
  | zero => simp [TryPruneLeaf] at hrun
  | succ f ih =>
    cases hp : n.parent with
    | none =>
      rw [TryPruneLeaf_root param f t nid n depth k hn hp] at hrun
      simp only [Except.ok.injEq, Prod.mk.injEq] at hrun
      rcases hrun with ⟨rfl, rfl⟩
      exact PassInv_root param t V nid n hn hp h
    | some pid =>
      rcases h.wf.parent nid n pid hn hp with ⟨pn, hpn, _⟩
      by_cases hgate : pn.stat.leaf_child_cnt + 1 ≥ 2 ∧
          param.need_prune pn.stat.loss_chg (depth - 1) = true
      · rw [TryPruneLeaf_collapse param f t nid pid n pn depth k hn hp hpn
          hgate.1 hgate.2] at hrun
        cases hc : (t.setNode pid (bump pn)).ChangeToLeaf pid
            (param.learning_rate * pn.stat.base_weight) with
        | error e => simp [hc] at hrun
        | ok t1 =>
          simp only [hc] at hrun
          rcases collapseStep_of_ok hpn hc with ⟨cl, cr, nl, nr, cs⟩
          have hdp := GetDepth_parent t nid pid n depth hn hp hd
          have hd1 : t1.GetDepth pid = .ok (depth - 1) := by
            rw [cs.GetDepth_internal h.wf pid pn cl cs.hpn cs.hcl]; exact hdp
          exact ih t1 pid _ (depth - 1) (k + 2) cs.get_pid hd1
            (PassInv_collapse param t t1 V nid pid cl cr n pn nl nr _ hn hp cs h) hrun
      · rw [TryPruneLeaf_stay param f t nid pid n pn depth k hn hp hpn hgate] at hrun
        simp only [Except.ok.injEq, Prod.mk.injEq] at hrun
        rcases hrun with ⟨rfl, rfl⟩
        exact PassInv_stay param t V nid pid n pn depth hn hp hpn hd hgate h

/-! ## The invariant along the loop, and completeness at its end -/

theorem Arrived_mono (t : RegTree F) (V : List Nat) (i c : Nat) (h : t.Arrived V none c) :
    t.Arrived (i :: V) none c := by
  rcases h with ⟨m, hm, hl, hv, hx⟩
  exact ⟨m, hm, hl, List.mem_cons_of_mem i hv, hx⟩

theorem PassInv_start (param : TrainParam F) (t : RegTree F) (hw : t.WF) :
    PassInv param t.resetLeafChildCnt [] none := by
  have hcnt : ∀ (i : Nat) (n : Node F), t.resetLeafChildCnt.nodes[i]? = some n →
      n.stat.leaf_child_cnt = 0 := by
    intro i n hn
    rw [resetLeafChildCnt_getElem?] at hn
    cases h : t.nodes[i]? with
    | none => simp [h] at hn
    | some m =>
      simp only [h, Option.map_some', Option.some.injEq] at hn
      subst hn
      rfl
  refine ⟨WF_reset t hw, ?_, ?_, ?_⟩
  · intro i n hn
    rw [hcnt i n hn]
  · intro p np l r _ _ _
    have no : ∀ c : Nat, ¬ t.resetLeafChildCnt.Arrived [] none c := by
      rintro c ⟨_, _, _, hv, _⟩
      simp at hv
    exact ⟨fun x => absurd x (no l), fun x => absurd x (no r), fun x => absurd x (no l)⟩
  · intro p np c d hnp _ hcnt2 _
    rw [hcnt p np hnp] at hcnt2
    omega

theorem PruneStep_inv [Mul F] (param : TrainParam F) (V : List Nat) (st st2 : RegTree F × Int)
    (i : Nat) (h : PassInv param st.1 V none) (hrun : PruneStep param st i = .ok st2) :
    PassInv param st2.1 (i :: V) none := by
  unfold PruneStep at hrun
  cases hn : st.1.nodes[i]? with
  | none => simp [hn] at hrun
  | some n =>
    simp only [hn] at hrun
    by_cases hl : n.is_leaf = true
    · simp only [hl, if_true] at hrun
      cases hd : st.1.GetDepth i with
      | error e => simp [hd] at hrun
      | ok d =>
        simp only [hd] at hrun
        have hpre : PassInv param st.1 (i :: V) (some i) := by
          refine ⟨h.wf, h.nonneg, ?_, h.gate⟩
          intro p np l r hnp hcl hcr
          have tr : ∀ c : Nat, st.1.Arrived (i :: V) (some i) c → st.1.Arrived V none c := by
            rintro c ⟨m, hm, hml, hv, hx⟩
            have hci : c ≠ i := fun e => hx (by rw [e])
            rcases List.mem_cons.1 hv with e | e
            · exact absurd e hci
            · exact ⟨m, hm, hml, e, by simp⟩
          rcases h.low p np l r hnp hcl hcr with ⟨a, b, c⟩
          exact ⟨fun x => a (tr l x), fun x => b (tr r x), fun x y => c (tr l x) (tr r y)⟩
        cases st2 with
        | mk t2 k2 => exact TryPruneLeaf_inv param (i :: V) _ st.1 t2 i n d st.2 k2 hn hd hpre hrun
    · simp only [hl] at hrun
      simp only [Bool.false_eq_true, if_false, Except.ok.injEq] at hrun
      subst hrun
      refine ⟨h.wf, h.nonneg, ?_, h.gate⟩
      intro p np l r hnp hcl hcr
      have tr : ∀ c : Nat, st.1.Arrived (i :: V) none c → st.1.Arrived V none c := by
        rintro c ⟨m, hm, hml, hv, hx⟩
        rcases List.mem_cons.1 hv with e | e
        · subst e
          rw [hn] at hm; cases hm
          simp [Node.is_leaf, hml] at hl
        · exact ⟨m, hm, hml, e, hx⟩
      rcases h.low p np l r hnp hcl hcr with ⟨a, b, c⟩
      exact ⟨fun x => a (tr l x), fun x => b (tr r x), fun x y => c (tr l x) (tr r y)⟩

theorem PruneVisit_inv [Mul F] (param : TrainParam F) (order : List Nat) (V : List Nat)
    (st st2 : RegTree F × Int) (h : PassInv param st.1 V none)
    (hrun : PruneVisit param order st = .ok st2) :
    PassInv param st2.1 (order.reverse ++ V) none := by
  induction order generalizing V st with
  | nil =>
    simp only [PruneVisit, Except.ok.injEq] at hrun
    subst hrun
    simpa using h
  | cons i rest ih =>
    unfold PruneVisit at hrun
    cases hs : PruneStep param st i with
    | error e => simp [hs] at hrun
    | ok s1 =>
      simp only [hs] at hrun
      have := ih (i :: V) s1 (PruneStep_inv param V st s1 i h hs) hrun
      simpa using this

theorem Complete_of_inv (param : TrainParam F) (t : RegTree F) (V : List Nat)
    (h : PassInv param t V none) (hall : ∀ i : Nat, i < t.nodes.length → i ∈ V) :
    t.Complete param := by
  intro p np l r nl nr d hnp hl hr hnl hll hnr hlr hd
  have al : t.Arrived V none l :=
    ⟨nl, hnl, hll, hall l (lt_of_getElem?_eq_some hnl), by simp⟩
  have ar : t.Arrived V none r :=
    ⟨nr, hnr, hlr, hall r (lt_of_getElem?_eq_some hnr), by simp⟩
  exact h.gate p np l d hnp hl ((h.low p np l r hnp hl hr).2.2 al ar) hd

/-- A completed pass over all slots of a well-formed tree leaves a well-formed
tree on which nothing is left to prune. -/
theorem DoPruneOrder_complete [Mul F] (param : TrainParam F) (order : List Nat)
    (t t1 : RegTree F) (k : Int) (hw : t.WF)
    (hall : ∀ i : Nat, i < t.nodes.length → i ∈ order)
    (hrun : DoPruneOrder param order t = .ok (t1, k)) :
    t1.WF ∧ t1.Complete param := by
  unfold DoPruneOrder at hrun
  have hinv := PruneVisit_inv param order [] _ _ (PassInv_start param t hw) hrun
  have hlen : t1.nodes.length = t.nodes.length := by
    have := (PruneVisit_frame param order _ _ hrun).1
    simpa [resetLeafChildCnt_length] using this
  refine ⟨hinv.wf, Complete_of_inv param t1 _ hinv ?_⟩
  intro i hi
  simp only [List.append_nil, List.mem_reverse]
  exact hall i (by rw [← hlen]; exact hi)

/-! ## A pass over a tree on which nothing is left to prune -/

/-- Completeness reads nothing but the links and the loss changes. -/
theorem Complete_congr (param : TrainParam F) (t t2 : RegTree F) (hc : t.Complete param)
    (hlen : t2.nodes.length = t.nodes.length)
    (hsame : ∀ (j : Nat) (n2 : Node F), t2.nodes[j]? = some n2 →
      ∃ n : Node F, t.nodes[j]? = some n ∧ n2.parent = n.parent ∧ n2.cleft = n.cleft ∧
        n2.cright = n.cright ∧ n2.stat.loss_chg = n.stat.loss_chg) :
    t2.Complete param := by
  intro p np l r nl nr d hnp hl hr hnl hll hnr hlr hd
  rcases hsame p np hnp with ⟨mp, hmp, _, c1, c2, c3⟩
  rcases hsame l nl hnl with ⟨ml, hml, _, d1, _, _⟩
  rcases hsame r nr hnr with ⟨mr, hmr, _, e1, _, _⟩
  rw [c3]
  refine hc p mp l r ml mr d hmp (by rw [← c1]; exact hl) (by rw [← c2]; exact hr) hml
    (by rw [← d1]; exact hll) hmr (by rw [← e1]; exact hlr) ?_
  rw [← hd]
  unfold RegTree.GetDepth RegTree.num_nodes
  rw [hlen]
  symm
  apply GetDepthLoop_congr
  intro j
  cases h2 : t2.nodes[j]? with
  | none =>
    have : t.nodes[j]? = none := by
      rw [List.getElem?_eq_none_iff] at h2 ⊢
      omega
    simp [this]
  | some m2 =>
    rcases hsame j m2 h2 with ⟨m, hm, hp, _, _⟩
    simp [hm, hp]

theorem Complete_bump (param : TrainParam F) (t : RegTree F) (hc : t.Complete param)
    (pid : Nat) (pn : Node F) (hpn : t.nodes[pid]? = some pn) :
    (t.setNode pid (bump pn)).Complete param := by
  apply Complete_congr param t _ hc (setNode_length t pid _)
  intro j n2 hn2
  rw [get_bump t pid pn hpn j] at hn2
  by_cases hj : j = pid
  · simp only [hj, if_true, Option.some.injEq] at hn2
    subst hn2
    subst hj
    exact ⟨pn, hpn, rfl, rfl, rfl, rfl⟩
  · simp only [hj, if_false] at hn2
    exact ⟨n2, hn2, rfl, rfl, rfl, rfl⟩

theorem Complete_reset (param : TrainParam F) (t : RegTree F) (hc : t.Complete param) :
    t.resetLeafChildCnt.Complete param := by
  apply Complete_congr param t _ hc (resetLeafChildCnt_length t)
  intro j n2 hn2
  rw [resetLeafChildCnt_getElem?] at hn2
  cases h : t.nodes[j]? with
  | none => simp [h] at hn2
  | some n =>
    simp only [h, Option.map_some', Option.some.injEq] at hn2
    subst hn2
    exact ⟨n, rfl, rfl, rfl, rfl, rfl⟩

theorem reset_bump (t : RegTree F) (pid : Nat) (pn : Node F) (hpn : t.nodes[pid]? = some pn) :
    (t.setNode pid (bump pn)).resetLeafChildCnt = t.resetLeafChildCnt := by
  have hnodes : (t.setNode pid (bump pn)).resetLeafChildCnt.nodes
      = t.resetLeafChildCnt.nodes := by
    apply List.ext_getElem?
    intro j
    rw [resetLeafChildCnt_getElem?, resetLeafChildCnt_getElem?, get_bump t pid pn hpn j]
    by_cases hj : j = pid
    · subst hj
      simp [hpn, bump]
    · simp [hj]
  unfold RegTree.resetLeafChildCnt at hnodes ⊢
  simp only [RegTree.setNode] at hnodes ⊢
  simp only [RegTree.mk.injEq, and_true]
  exact hnodes

theorem QuietInv_bump (param : TrainParam F) (t : RegTree F) (V : List Nat) (i pid : Nat)
    (n pn : Node F) (hn : t.nodes[i]? = some n) (hleaf : n.cleft = none)
    (hp : n.parent = some pid) (hpn : t.nodes[pid]? = some pn) (hiV : i ∉ V)
    (h : QuietInv param t V) : QuietInv param (t.setNode pid (bump pn)) (i :: V) := by
  refine ⟨WF_bump t h.wf pid pn hpn, Complete_bump param t h.complete pid pn hpn, ?_⟩
  intro p np l r hnp hl hr
  rw [get_bump t pid pn hpn p] at hnp
  simp only [Arrived_bump t pid pn hpn]
  have ai : t.Arrived (i :: V) none i := ⟨n, hn, hleaf, by simp, by simp⟩
  by_cases hpp : p = pid
  · simp only [hpp, if_true, Option.some.injEq] at hnp
    subst hnp
    subst hpp
    have hl0 : pn.cleft = some l := hl
    have hr0 : pn.cright = some r := hr
    have hside : l = i ∨ r = i := by
      rcases h.wf.parent i n p hn hp with ⟨np', hnp', hc⟩
      rw [hpn] at hnp'; cases hnp'
      rcases hc with hc | hc
      · left; rw [hl0] at hc; exact Option.some.inj hc
      · right; rw [hr0] at hc; exact Option.some.inj hc
    have noti : ¬ t.Arrived V none i := by
      rintro ⟨_, _, _, hv, _⟩
      exact hiV hv
    rcases h.up p pn l r hpn hl0 hr0 with ⟨u1, _⟩
    simp only [bump]
    constructor
    · intro _
      rcases hside with e | e
      · left; rw [e]; exact ai
      · right; rw [e]; exact ai
    · intro h2
      have h1 : 1 ≤ pn.stat.leaf_child_cnt := by omega
      rcases hside with e | e
      · subst e
        rcases u1 h1 with a | a
        · exact absurd a noti
        · exact ⟨ai, Arrived_mono t V l r a⟩
      · subst e
        rcases u1 h1 with a | a
        · exact ⟨Arrived_mono t V r l a, ai⟩
        · exact absurd a noti
  · simp only [hpp, if_false] at hnp
    rcases h.up p np l r hnp hl hr with ⟨u1, u2⟩
    constructor
    · intro h1
      rcases u1 h1 with a | a
      · exact Or.inl (Arrived_mono t V i l a)
      · exact Or.inr (Arrived_mono t V i r a)
    · intro h2
      exact ⟨Arrived_mono t V i l (u2 h2).1, Arrived_mono t V i r (u2 h2).2⟩

theorem QuietInv_skip (param : TrainParam F) (t : RegTree F) (V : List Nat) (i : Nat)
    (h : QuietInv param t V) : QuietInv param t (i :: V) := by
  refine ⟨h.wf, h.complete, ?_⟩
  intro p np l r hnp hl hr
  rcases h.up p np l r hnp hl hr with ⟨u1, u2⟩
  constructor
  · intro h1
    rcases u1 h1 with a | a
    · exact Or.inl (Arrived_mono t V i l a)
    · exact Or.inr (Arrived_mono t V i r a)
  · intro h2
    exact ⟨Arrived_mono t V i l (u2 h2).1, Arrived_mono t V i r (u2 h2).2⟩

/-- One iteration of the loop on a tree with nothing left to prune: it
completes, collapses nothing, and changes counters only. -/
theorem PruneStep_quiet [Mul F] (param : TrainParam F) (t : RegTree F) (V : List Nat) (k : Int)
    (i : Nat) (hi : i < t.nodes.length) (hiV : i ∉ V) (h : QuietInv param t V) :
    ∃ t2 : RegTree F, PruneStep param (t, k) i = .ok (t2, k) ∧
      QuietInv param t2 (i :: V) ∧ t2.resetLeafChildCnt = t.resetLeafChildCnt := by
  have hn : t.nodes[i]? = some t.nodes[i] := List.getElem?_eq_getElem hi
  generalize t.nodes[i] = n at hn
  unfold PruneStep
  simp only [hn]
  by_cases hl : n.is_leaf = true
  · simp only [hl, if_true]
    have hleaf : n.cleft = none := by simpa [Node.is_leaf] using hl
    rcases h.wf.depth i n hn with ⟨d, hd⟩
    simp only [hd]
    cases hp : n.parent with
    | none =>
      refine ⟨t, ?_, QuietInv_skip param t V i h, rfl⟩
      exact TryPruneLeaf_root param _ t i n d k hn hp
    | some pid =>
      rcases h.wf.parent i n pid hn hp with ⟨pn, hpn, hc⟩
      have hgate : ¬ (pn.stat.leaf_child_cnt + 1 ≥ 2 ∧
          param.need_prune pn.stat.loss_chg (d - 1) = true) := by
        rintro ⟨hcnt, hprune⟩
        have hdp := GetDepth_parent t i pid n d hn hp hd
        cases hcl : pn.cleft with
        | none =>
          have := h.wf.leaf pid pn hpn hcl
          rcases hc with hc | hc
          · rw [hcl] at hc; cases hc
          · rw [this] at hc; cases hc
        | some l =>
          rcases h.wf.children pid pn l hpn hcl with ⟨r, nl, nr, hcr, hne, hnl, _, hnr, _⟩
          have h1 : 1 ≤ pn.stat.leaf_child_cnt := by omega
          have noti : ¬ t.Arrived V none i := by
            rintro ⟨_, _, _, hv, _⟩
            exact hiV hv
          have both : nl.cleft = none ∧ nr.cleft = none := by
            rcases hc with hc | hc
            · rw [hcl] at hc
              have e : l = i := Option.some.inj hc
              subst e
              rw [hn] at hnl; cases hnl
              rcases (h.up _ pn _ r hpn hcl hcr).1 h1 with a | a
              · exact absurd a noti
              · rcases a with ⟨m, hm, hml, _, _⟩
                rw [hnr] at hm; cases hm
                exact ⟨hleaf, hml⟩
            · rw [hcr] at hc
              have e : r = i := Option.some.inj hc
              subst e
              rw [hn] at hnr; cases hnr
              rcases (h.up _ pn l _ hpn hcl hcr).1 h1 with a | a
              · rcases a with ⟨m, hm, hml, _, _⟩
                rw [hnl] at hm; cases hm
                exact ⟨hml, hleaf⟩
              · exact absurd a noti
          have := h.complete pid pn l r nl nr (d - 1) hpn hcl hcr hnl both.1 hnr both.2 hdp
          rw [this] at hprune
          cases hprune
      refine ⟨t.setNode pid (bump pn), ?_,
        QuietInv_bump param t V i pid n pn hn hleaf hp hpn hiV h, reset_bump t pid pn hpn⟩
      exact TryPruneLeaf_stay param _ t i pid n pn d k hn hp hpn hgate
  · simp only [hl]
    exact ⟨t, by simp, QuietInv_skip param t V i h, rfl⟩

theorem PruneVisit_quiet [Mul F] (param : TrainParam F) (order : List Nat) (t : RegTree F)
    (V : List Nat) (k : Int) (hnodup : order.Nodup)
    (hord : ∀ i ∈ order, i < t.nodes.length ∧ i ∉ V) (h : QuietInv param t V) :
    ∃ t2 : RegTree F, PruneVisit param order (t, k) = .ok (t2, k) ∧
      t2.resetLeafChildCnt = t.resetLeafChildCnt := by
  induction order generalizing t V with
  | nil => exact ⟨t, rfl, rfl⟩
  | cons i rest ih =>
    rcases List.nodup_cons.1 hnodup with ⟨hnot, hrest⟩
    rcases hord i (by simp) with ⟨hi, hiV⟩
    rcases PruneStep_quiet param t V k i hi hiV h with ⟨t1, hstep, hinv, hreset⟩
    have hlen : t1.nodes.length = t.nodes.length := by
      have := congrArg (fun x => x.nodes.length) hreset
      simpa [resetLeafChildCnt_length] using this
    rcases ih t1 (i :: V) hrest (by
      intro j hj
      rcases hord j (by simp [hj]) with ⟨a, b⟩
      refine ⟨by rw [hlen]; exact a, ?_⟩
      intro hmem
      rcases List.mem_cons.1 hmem with e | e
      · subst e; exact hnot hj
      · exact b e) hinv with ⟨t2, hrun, hreset2⟩
    refine ⟨t2, ?_, hreset2.trans hreset⟩
    unfold PruneVisit
    simp only [hstep]
    exact hrun

theorem reset_reset (t : RegTree F) :
    t.resetLeafChildCnt.resetLeafChildCnt = t.resetLeafChildCnt := by
  unfold RegTree.resetLeafChildCnt
  simp only [List.map_map, RegTree.mk.injEq, and_true]
  apply List.map_congr_left
  intro n _
  rfl

/-- On a well-formed tree with nothing left to prune, `DoPrune` completes with
a count of 0 and changes counters only. -/
theorem DoPrune_quiet [Mul F] (param : TrainParam F) (t : RegTree F) (hw : t.WF)
    (hc : t.Complete param) :
    ∃ t2 : RegTree F, DoPrune param t = .ok (t2, 0) ∧
      t2.resetLeafChildCnt = t.resetLeafChildCnt := by
  have hq : QuietInv param t.resetLeafChildCnt [] := by
    refine ⟨WF_reset t hw, Complete_reset param t hc, ?_⟩
    intro p np l r hnp _ _
    have h0 : np.stat.leaf_child_cnt = 0 := by
      rw [resetLeafChildCnt_getElem?] at hnp
      cases h : t.nodes[p]? with
      | none => simp [h] at hnp
      | some m =>
        simp only [h, Option.map_some', Option.some.injEq] at hnp
        subst hnp
        rfl
    rw [h0]
    exact ⟨fun x => by omega, fun x => by omega⟩
  rcases PruneVisit_quiet param (List.range t.num_nodes) t.resetLeafChildCnt [] 0
    (List.nodup_range _) (by
      intro i hi
      rw [resetLeafChildCnt_length]
      exact ⟨List.mem_range.1 hi, by simp⟩) hq with ⟨t2, hrun, hreset⟩
  exact ⟨t2, hrun, by rw [hreset, reset_reset]⟩

/-- C5 (idempotence of re-pruning): when `DoPrune` has completed on a
well-formed tree, a second `DoPrune` on its result, with the same policy and
learning rate, completes, reports a pruned-node count of 0, and leaves a tree
that differs from the first result in `leaf_child_cnt` values only: no node is
collapsed, and topology, leaf values and reclaimed slots are unchanged. -/
theorem DoPrune_idempotent [Mul F] (param : TrainParam F) (t t1 : RegTree F) (k1 : Int)
    (hwf : t.wellFormed = true) (h1 : DoPrune param t = .ok (t1, k1)) :
    ∃ t2 : RegTree F, DoPrune param t1 = .ok (t2, 0) ∧
      t2.resetLeafChildCnt = t1.resetLeafChildCnt := by
  have hw := WF_of_wellFormed t hwf
  rcases DoPruneOrder_complete param (List.range t.num_nodes) t t1 k1 hw
    (fun i hi => List.mem_range.2 hi) h1 with ⟨hw1, hc1⟩
  exact DoPrune_quiet param t1 hw1 hc1

/-- Witness of C5: `chainTree`, whose two splits are both collapsed by the
first pass. -/
theorem DoPrune_idempotent_witness :
    ∃ t2 : RegTree Int, DoPrune belowOne chainTreePruned = .ok (t2, 0) ∧
      t2.resetLeafChildCnt = chainTreePruned.resetLeafChildCnt :=
  DoPrune_idempotent belowOne chainTree chainTreePruned 4 (by decide) (by decide)

/-! ## Reclaimed slots and the pruned-node count -/

theorem no_new_deleted (D L1 L2 : List Nat) (x : Nat) (h : D = D ++ (L1 ++ x :: L2)) :
    False := by
  have := congrArg List.length h
  simp at this

theorem PassRel_refl [Mul F] (lr : F) (t : RegTree F) (k : Int) : PassRel lr t k t k := by
  refine ⟨RegTree.prunedFrom_refl lr t, ⟨[], by simp, by simp, List.nodup_nil, ?_⟩, ?_⟩
  · intro x
    constructor
    · intro h; simp at h
    · rintro ⟨n0, n, p, h0, h1, hp, hq⟩
      rw [h0] at h1; cases h1
      rw [hp] at hq; cases hq
  · intro L1 L2 x n0 c h _ _
    exact (no_new_deleted _ L1 L2 x h).elim

theorem PassRel_trans [Mul F] (lr : F) (t0 t1 t2 : RegTree F) (k0 k1 k2 : Int)
    (hw0 : t0.WF) (hw1 : t1.WF)
    (h1 : PassRel lr t0 k0 t1 k1) (h2 : PassRel lr t1 k1 t2 k2) : PassRel lr t0 k0 t2 k2 := by
  rcases h1 with ⟨f1, ⟨L1, d1, c1, nd1, m1⟩, o1⟩
  rcases h2 with ⟨f2, ⟨L2, d2, c2, nd2, m2⟩, o2⟩
  refine ⟨RegTree.prunedFrom_trans lr t0 t1 t2 f1 f2, ⟨L1 ++ L2, ?_, ?_, ?_, ?_⟩, ?_⟩
  · rw [d2, d1, List.append_assoc]
  · rw [c2, c1, List.length_append]; push_cast; ring
  · rw [List.nodup_append]
    refine ⟨nd1, nd2, ?_⟩
    intro x hx1 hx2
    rcases (m1 x).1 hx1 with ⟨_, n1, _, _, hn1, _, hq1⟩
    rcases (m2 x).1 hx2 with ⟨n1', _, p, hn1', _, hp1, _⟩
    rw [hn1] at hn1'; cases hn1'
    rw [hq1] at hp1; cases hp1
  · intro x
    rw [List.mem_append]
    constructor
    · rintro (hx | hx)
      · rcases (m1 x).1 hx with ⟨n0, n1, p, h0, hn1, hp, hq⟩
        rcases f2.2.2 x n1 hn1 with ⟨n2, hn2, _, _, hpar, _⟩
        refine ⟨n0, n2, p, h0, hn2, hp, ?_⟩
        rcases hpar with e | ⟨e, _⟩
        · rw [e]; exact hq
        · exact e
      · rcases (m2 x).1 hx with ⟨n1, n2, p, hn1, hn2, hp, hq⟩
        have hlt : x < t0.nodes.length := by
          rw [← f1.1]; exact lt_of_getElem?_eq_some hn1
        rcases f1.2.2 x _ (List.getElem?_eq_getElem hlt) with ⟨n1', hn1', _, _, hpar, _⟩
        rw [hn1] at hn1'; cases hn1'
        refine ⟨_, n2, p, List.getElem?_eq_getElem hlt, hn2, ?_, hq⟩
        rcases hpar with e | ⟨e, _⟩
        · rw [← e]; exact hp
        · rw [e] at hp; cases hp
    · rintro ⟨n0, n2, p, h0, hn2, hp, hq⟩
      rcases f1.2.2 x n0 h0 with ⟨n1, hn1, _, _, _, _⟩
      cases hp1 : n1.parent with
      | none => exact Or.inl ((m1 x).2 ⟨n0, n1, p, h0, hn1, hp, hp1⟩)
      | some q => exact Or.inr ((m2 x).2 ⟨n1, n2, q, hn1, hn2, hp1, hq⟩)
  · intro M1 M2 x n0 c hdel h0 hc
    have hsplit : L1 ++ L2 = M1 ++ x :: M2 := by
      rw [d2, d1, List.append_assoc] at hdel
      exact List.append_cancel_left hdel
    -- `c` is a child of `x` in `t0`
    have hchild : ∃ mc : Node F, t0.nodes[c]? = some mc ∧ mc.parent = some x := by
      cases hl : n0.cleft with
      | none =>
        have := hw0.leaf x n0 h0 hl
        rcases hc with e | e
        · rw [hl] at e; cases e
        · rw [this] at e; cases e
      | some l =>
        rcases hw0.children x n0 l h0 hl with ⟨r, nl, nr, hr, _, hnl, hpl, hnr, hpr⟩
        rcases hc with e | e
        · rw [hl] at e; cases e; exact ⟨nl, hnl, hpl⟩
        · rw [hr] at e; cases e; exact ⟨nr, hnr, hpr⟩
    rcases List.append_eq_append_iff.1 hsplit with ⟨M, e1, e2⟩ | ⟨M, e1, e2⟩
    · -- `x` was reclaimed in the second part
      rw [e1, List.mem_append]
      have hx2 : x ∈ L2 := by rw [e2]; simp
      rcases (m2 x).1 hx2 with ⟨n1, _, q, hn1, _, hq1, _⟩
      rcases f1.2.2 x n0 h0 with ⟨n1', hn1', _, _, _, hs⟩
      rw [hn1] at hn1'; cases hn1'
      rcases hs with ⟨s1, s2, _⟩ | ⟨_, s1, s2, _⟩
      · right
        refine o2 M M2 x n1 c (by rw [d2, e2]) hn1 ?_
        rw [s1, s2]; exact hc
      · left
        rcases hchild with ⟨mc, hmc, hpc⟩
        rcases f1.2.2 c mc hmc with ⟨mc1, hmc1, _, _, hpar, _⟩
        refine (m1 c).2 ⟨mc, mc1, x, hmc, hmc1, hpc, ?_⟩
        rcases hpar with e | ⟨e, _⟩
        · rw [hpc] at e
          rcases hw1.parent c mc1 x hmc1 e with ⟨nx, hnx, hcx⟩
          rw [hn1] at hnx; cases hnx
          rcases hcx with hcx | hcx
          · rw [s1] at hcx; cases hcx
          · rw [s2] at hcx; cases hcx
        · exact e
    · cases M with
      | nil =>
        -- `x` is the first slot reclaimed in the second part
        simp only [List.append_nil, List.nil_append] at e1 e2
        rw [← e1]
        have hx2 : x ∈ L2 := by rw [← e2]; simp
        rcases (m2 x).1 hx2 with ⟨n1, _, q, hn1, _, hq1, _⟩
        rcases f1.2.2 x n0 h0 with ⟨n1', hn1', _, _, _, hs⟩
        rw [hn1] at hn1'; cases hn1'
        rcases hs with ⟨s1, s2, _⟩ | ⟨_, s1, s2, _⟩
        · exfalso
          have := o2 [] _ x n1 c (by rw [d2, ← e2]; rfl) hn1 (by rw [s1, s2]; exact hc)
          simp at this
        · rcases hchild with ⟨mc, hmc, hpc⟩
          rcases f1.2.2 c mc hmc with ⟨mc1, hmc1, _, _, hpar, _⟩
          refine (m1 c).2 ⟨mc, mc1, x, hmc, hmc1, hpc, ?_⟩
          rcases hpar with e | ⟨e, _⟩
          · rw [hpc] at e
            rcases hw1.parent c mc1 x hmc1 e with ⟨nx, hnx, hcx⟩
            rw [hn1] at hnx; cases hnx
            rcases hcx with hcx | hcx
            · rw [s1] at hcx; cases hcx
            · rw [s2] at hcx; cases hcx
          · exact e
      | cons y M' =>
        -- `x` was reclaimed in the first part
        simp only [List.cons_append, List.cons.injEq] at e2
        rcases e2 with ⟨rfl, _⟩
        exact o1 M1 M' x n0 c (by rw [d1, e1]) h0 hc

theorem PassRel_bump [Mul F] (lr : F) (t : RegTree F) (k : Int) (pid : Nat) (pn : Node F)
    (hpn : t.nodes[pid]? = some pn) : PassRel lr t k (t.setNode pid (bump pn)) k := by
  refine ⟨prunedFrom_bump lr t pid pn hpn, ⟨[], by simp [RegTree.setNode], by simp,
    List.nodup_nil, ?_⟩, ?_⟩
  · intro x
    constructor
    · intro h; simp at h
    · rintro ⟨n0, n, p, h0, h1, hp, hq⟩
      rw [get_bump t pid pn hpn x] at h1
      by_cases hx : x = pid
      · subst hx
        rw [hpn] at h0; cases h0
        simp only [if_true, Option.some.injEq] at h1
        subst h1
        simp only [bump] at hq
        rw [hp] at hq; cases hq
      · simp only [hx, if_false] at h1
        rw [h0] at h1; cases h1
        rw [hp] at hq; cases hq
  · intro L1 L2 x n0 c h _ _
    exact (no_new_deleted _ L1 L2 x h).elim

theorem PassRel_collapse [Mul F] (lr : F) (t t2 : RegTree F) (k : Int)
    (pid cl cr : Nat) (pn nl nr : Node F)
    (cs : CollapseStep t t2 pid cl cr pn nl nr (lr * pn.stat.base_weight)) (hw : t.WF) :
    PassRel lr t k t2 (k + 2) := by
  rcases hw.children pid pn cl cs.hpn cs.hcl with ⟨cr', nl', nr', hcr', hne, hnl', hpl, hnr', hpr⟩
  rw [cs.hcr] at hcr'; cases hcr'
  rw [cs.hnl] at hnl'; cases hnl'
  rw [cs.hnr] at hnr'; cases hnr'
  have hframe : RegTree.prunedFrom lr t t2 := by
    refine ⟨cs.length, cs.roots, ?_⟩
    intro i n0 hn0
    by_cases h1 : i = pid
    · subst h1
      rw [cs.hpn] at hn0; cases hn0
      refine ⟨_, cs.get_pid, rfl, rfl, Or.inl rfl, Or.inr ⟨?_, rfl, rfl, rfl⟩⟩
      rw [cs.hcl]; simp
    · by_cases h2 : i = cl
      · subst h2
        rw [cs.hnl] at hn0; cases hn0
        exact ⟨_, cs.get_cl, rfl, rfl, Or.inr ⟨rfl, cs.leafl⟩, Or.inl ⟨rfl, rfl, rfl⟩⟩
      · by_cases h3 : i = cr
        · subst h3
          rw [cs.hnr] at hn0; cases hn0
          exact ⟨_, cs.get_cr, rfl, rfl, Or.inr ⟨rfl, cs.leafr⟩, Or.inl ⟨rfl, rfl, rfl⟩⟩
        · exact ⟨n0, by rw [cs.get_other i h1 h2 h3]; exact hn0, Node.prunedFrom_self lr n0⟩
  refine ⟨hframe, ⟨[cl, cr], cs.deleted, by simp, by simp [hne], ?_⟩, ?_⟩
  · intro x
    constructor
    · intro hx
      simp only [List.mem_cons, List.mem_singleton, List.not_mem_nil, or_false] at hx
      rcases hx with e | e
      · subst e; exact ⟨nl, _, pid, cs.hnl, cs.get_cl, hpl, rfl⟩
      · subst e; exact ⟨nr, _, pid, cs.hnr, cs.get_cr, hpr, rfl⟩
    · rintro ⟨n0, n, p, h0, h1, hp, hq⟩
      rcases cs.cases x n h1 with ⟨rfl, rfl⟩ | ⟨hx, _⟩ | ⟨_, _, _, h1'⟩
      · rw [cs.hpn] at h0; cases h0
        simp only [Node.set_leaf, bump] at hq
        rw [hp] at hq; cases hq
      · simpa using hx
      · rw [h0] at h1'; cases h1'
        rw [hp] at hq; cases hq
  · intro L1 L2 x n0 c hdel h0 hc
    exfalso
    have hsplit : [cl, cr] = L1 ++ x :: L2 := by
      rw [cs.deleted] at hdel
      exact List.append_cancel_left hdel
    have hx : x ∈ [cl, cr] := by rw [hsplit]; simp
    simp only [List.mem_cons, List.mem_singleton, List.not_mem_nil, or_false] at hx
    rcases hx with e | e
    · subst e
      rw [cs.hnl] at h0; cases h0
      have := hw.leaf x nl cs.hnl cs.leafl
      rcases hc with hc | hc
      · rw [cs.leafl] at hc; cases hc
      · rw [this] at hc; cases hc
    · subst e
      rw [cs.hnr] at h0; cases h0
      have := hw.leaf x nr cs.hnr cs.leafr
      rcases hc with hc | hc
      · rw [cs.leafr] at hc; cases hc
      · rw [this] at hc; cases hc

/-- The walker keeps well-formedness, and its count grows by the number of
slots it reclaims. -/
theorem TryPruneLeaf_rel [Mul F] (param : TrainParam F) (fuel : Nat) (t t2 : RegTree F)
    (nid : Nat) (depth k k2 : Int) (hw : t.WF)
    (hrun : TryPruneLeaf param fuel t nid depth k = .ok (t2, k2)) :
    t2.WF ∧ PassRel param.learning_rate t k t2 k2 := by
  induction fuel generalizing t nid depth k with
  | zero => simp [TryPruneLeaf] at hrun
  | succ f ih =>
    cases hn : t.nodes[nid]? with
    | none => simp [TryPruneLeaf, hn] at hrun
    | some n =>
      cases hp : n.parent with
      | none =>
        rw [TryPruneLeaf_root param f t nid n depth k hn hp] at hrun
        simp only [Except.ok.injEq, Prod.mk.injEq] at hrun
        rcases hrun with ⟨rfl, rfl⟩
        exact ⟨hw, PassRel_refl _ _ _⟩
      | some pid =>
        rcases hw.parent nid n pid hn hp with ⟨pn, hpn, _⟩
        by_cases hgate : pn.stat.leaf_child_cnt + 1 ≥ 2 ∧
            param.need_prune pn.stat.loss_chg (depth - 1) = true
        · rw [TryPruneLeaf_collapse param f t nid pid n pn depth k hn hp hpn
            hgate.1 hgate.2] at hrun
          cases hc : (t.setNode pid (bump pn)).ChangeToLeaf pid
              (param.learning_rate * pn.stat.base_weight) with
          | error e => simp [hc] at hrun
          | ok t1 =>
            simp only [hc] at hrun
            rcases collapseStep_of_ok hpn hc with ⟨cl, cr, nl, nr, cs⟩
            rcases ih t1 pid (depth - 1) (k + 2) (cs.wf hw) hrun with ⟨hw2, hrel⟩
            exact ⟨hw2, PassRel_trans _ _ _ _ _ _ _ hw (cs.wf hw)
              (PassRel_collapse _ t t1 k pid cl cr pn nl nr cs hw) hrel⟩
        · rw [TryPruneLeaf_stay param f t nid pid n pn depth k hn hp hpn hgate] at hrun
          simp only [Except.ok.injEq, Prod.mk.injEq] at hrun
          rcases hrun with ⟨rfl, rfl⟩
          exact ⟨WF_bump t hw pid pn hpn, PassRel_bump _ t k pid pn hpn⟩

theorem PruneStep_rel [Mul F] (param : TrainParam F) (st st2 : RegTree F × Int) (i : Nat)
    (hw : st.1.WF) (hrun : PruneStep param st i = .ok st2) :
    st2.1.WF ∧ PassRel param.learning_rate st.1 st.2 st2.1 st2.2 := by
  unfold PruneStep at hrun
  cases hn : st.1.nodes[i]? with
  | none => simp [hn] at hrun
  | some n =>
    simp only [hn] at hrun
    by_cases hl : n.is_leaf = true
    · simp only [hl, if_true] at hrun
      cases hd : st.1.GetDepth i with
      | error e => simp [hd] at hrun
      | ok d =>
        simp only [hd] at hrun
        exact TryPruneLeaf_rel param _ st.1 st2.1 i d st.2 st2.2 hw hrun
    · simp only [hl, Bool.false_eq_true, if_false, Except.ok.injEq] at hrun
      subst hrun
      exact ⟨hw, PassRel_refl _ _ _⟩

theorem PruneVisit_rel [Mul F] (param : TrainParam F) (order : List Nat)
    (st st2 : RegTree F × Int) (hw : st.1.WF) (hrun : PruneVisit param order st = .ok st2) :
    st2.1.WF ∧ PassRel param.learning_rate st.1 st.2 st2.1 st2.2 := by
  induction order generalizing st with
  | nil =>
    simp only [PruneVisit, Except.ok.injEq] at hrun
    subst hrun
    exact ⟨hw, PassRel_refl _ _ _⟩
  | cons i rest ih =>
    unfold PruneVisit at hrun
    cases hs : PruneStep param st i with
    | error e => simp [hs] at hrun
    | ok s1 =>
      simp only [hs] at hrun
      rcases PruneStep_rel param st s1 i hw hs with ⟨hw1, r1⟩
      rcases ih s1 hw1 hrun with ⟨hw2, r2⟩
      exact ⟨hw2, PassRel_trans _ _ _ _ _ _ _ hw hw1 r1 r2⟩

theorem PassRel_reset [Mul F] (lr : F) (t : RegTree F) (k : Int) :
    PassRel lr t k t.resetLeafChildCnt k := by
  refine ⟨prunedFrom_reset lr t, ⟨[], by simp [RegTree.resetLeafChildCnt], by simp,
    List.nodup_nil, ?_⟩, ?_⟩
  · intro x
    constructor
    · intro h; simp at h
    · rintro ⟨n0, n, p, h0, h1, hp, hq⟩
      rw [resetLeafChildCnt_getElem?, h0] at h1
      simp only [Option.map_some', Option.some.injEq] at h1
      subst h1
      rw [hp] at hq; cases hq
  · intro L1 L2 x n0 c h _ _
    exact (no_new_deleted _ L1 L2 x h).elim

/-- A completed pass over a well-formed tree: the result is well-formed, and
related to the input by the frame and the count of reclaimed slots. -/
theorem DoPruneOrder_rel [Mul F] (param : TrainParam F) (order : List Nat)
    (t t2 : RegTree F) (k : Int) (hw : t.WF)
    (hrun : DoPruneOrder param order t = .ok (t2, k)) :
    t2.WF ∧ PassRel param.learning_rate t 0 t2 k := by
  unfold DoPruneOrder at hrun
  rcases PruneVisit_rel param order _ _ (WF_reset t hw) hrun with ⟨hw2, r⟩
  exact ⟨hw2, PassRel_trans _ _ _ _ _ _ _ hw (WF_reset t hw) (PassRel_reset _ t 0) r⟩

/-! ## Passes that cannot abort -/

theorem GetDepthLoop_bounds (t : RegTree F) (fuel : Nat) (i : Nat) (acc d : Int)
    (h : t.GetDepthLoop fuel i acc = .ok d) : acc ≤ d ∧ d < acc + fuel := by
  induction fuel generalizing i acc with
  | zero => simp [RegTree.GetDepthLoop] at h
  | succ f ih =>
    unfold RegTree.GetDepthLoop at h
    cases hn : t.nodes[i]? with
    | none => simp [hn] at h
    | some n =>
      simp only [hn] at h
      cases hp : n.parent with
      | none =>
        simp only [hp, Except.ok.injEq] at h
        subst h
        constructor
        · exact le_refl _
        · push_cast; omega
      | some p =>
        simp only [hp] at h
        have := ih p (acc + 1) h
        constructor
        · omega
        · push_cast; omega

theorem GetDepth_bounds (t : RegTree F) (i : Nat) (d : Int) (h : t.GetDepth i = .ok d) :
    0 ≤ d ∧ d < (t.nodes.length : Int) + 1 := by
  have := GetDepthLoop_bounds t _ i 0 d h
  unfold RegTree.num_nodes at this
  constructor
  · exact this.1
  · have h2 := this.2
    push_cast at h2
    omega

theorem ChangeToLeaf_succeeds (t : RegTree F) (rid cl cr : Nat) (r nl nr : Node F) (v : F)
    (hr : t.nodes[rid]? = some r) (hcl : r.cleft = some cl) (hcr : r.cright = some cr)
    (hnl : t.nodes[cl]? = some nl) (hnr : t.nodes[cr]? = some nr)
    (hl : nl.cleft = none) (hrl : nr.cleft = none) :
    ∃ t2 : RegTree F, t.ChangeToLeaf rid v = .ok t2 := by
  unfold RegTree.ChangeToLeaf
  simp only [hr, hcl, hcr, hnl, hnr]
  have hleaf : (nl.is_leaf && nr.is_leaf) = true := by
    simp [Node.is_leaf, hl, hrl]
  simp only [hleaf, if_true]
  have hlt : rid < ((t.DeleteNode cl).DeleteNode cr).nodes.length := by
    rw [DeleteNode_length, DeleteNode_length]
    exact lt_of_getElem?_eq_some hr
  rw [List.getElem?_eq_getElem hlt]
  exact ⟨_, rfl⟩

theorem bump_ChangeToLeaf_succeeds (t : RegTree F) (pid cl cr : Nat) (pn nl nr : Node F)
    (v : F) (hpn : t.nodes[pid]? = some pn) (hcl : pn.cleft = some cl)
    (hcr : pn.cright = some cr) (hnl : t.nodes[cl]? = some nl) (hnr : t.nodes[cr]? = some nr)
    (hl : nl.cleft = none) (hrl : nr.cleft = none) :
    ∃ t2 : RegTree F, (t.setNode pid (bump pn)).ChangeToLeaf pid v = .ok t2 := by
  have h1 : cl ≠ pid := by
    intro e; subst e; rw [hpn] at hnl; cases hnl; rw [hcl] at hl; cases hl
  have h2 : cr ≠ pid := by
    intro e; subst e; rw [hpn] at hnr; cases hnr; rw [hcl] at hrl; cases hrl
  apply ChangeToLeaf_succeeds (t.setNode pid (bump pn)) pid cl cr (bump pn) nl nr v
  · rw [get_bump t pid pn hpn pid]; simp
  · exact hcl
  · exact hcr
  · rw [get_bump t pid pn hpn cl]; simp [h1, hnl]
  · rw [get_bump t pid pn hpn cr]; simp [h2, hnr]
  · exact hl
  · exact hrl

theorem SafeInv_start (t : RegTree F) (hw : t.WF)
    (hcat : ∀ (p : Nat) (np : Node F) (l r : Nat) (nl nr : Node F), t.nodes[p]? = some np →
      np.cleft = some l → np.cright = some r → t.nodes[l]? = some nl → t.nodes[r]? = some nr →
      nl.cleft = none ∨ nr.cleft = none) :
    SafeInv t.resetLeafChildCnt [] none := by
  have hget : ∀ (i : Nat) (n : Node F), t.resetLeafChildCnt.nodes[i]? = some n →
      n.stat.leaf_child_cnt = 0 ∧ ∃ m : Node F, t.nodes[i]? = some m ∧
        n.cleft = m.cleft ∧ n.cright = m.cright := by
    intro i n hn
    rw [resetLeafChildCnt_getElem?] at hn
    cases h : t.nodes[i]? with
    | none => simp [h] at hn
    | some m =>
      simp only [h, Option.map_some', Option.some.injEq] at hn
      subst hn
      exact ⟨rfl, m, rfl, rfl, rfl⟩
  refine ⟨WF_reset t hw, ?_, ?_, ?_⟩
  · intro i n hn
    rw [(hget i n hn).1]
  · intro p np l r nl nr hnp hl hr hnl hnr
    rcases hget p np hnp with ⟨_, mp, hmp, c1, c2⟩
    rcases hget l nl hnl with ⟨z1, ml, hml, d1, _⟩
    rcases hget r nr hnr with ⟨z2, mr, hmr, e1, _⟩
    rcases hcat p mp l r ml mr hmp (by rw [← c1]; exact hl) (by rw [← c2]; exact hr) hml hmr
      with a | a
    · exact Or.inl ⟨by rw [d1]; exact a, z1⟩
    · exact Or.inr ⟨by rw [e1]; exact a, z2⟩
  · intro p np l r nl nr hnp _ _ _ _ hcnt
    rw [(hget p np hnp).1] at hcnt
    omega

theorem SafeInv_root (t : RegTree F) (V : List Nat) (nid : Nat)
    (h : SafeInv t V (some nid)) : SafeInv t V none := by
  refine ⟨h.wf, h.nonneg, h.cat, ?_⟩
  intro p np l r nl nr hnp hl hr hnl hnr hcnt
  rcases h.one p np l r nl nr hnp hl hr hnl hnr hcnt with ⟨a, b⟩
  exact ⟨fun x => ⟨(a x).1, by simp⟩, fun x => ⟨(b x).1, by simp⟩⟩

theorem SafeInv_stay (t : RegTree F) (V : List Nat) (nid pid : Nat) (n pn : Node F)
    (hn : t.nodes[nid]? = some n) (hleaf : n.cleft = none) (hp : n.parent = some pid)
    (hpn : t.nodes[pid]? = some pn) (hV : n.stat.leaf_child_cnt = 0 → nid ∈ V)
    (h : SafeInv t V (some nid)) : SafeInv (t.setNode pid (bump pn)) V none := by
  have hw := h.wf
  have hpint : pn.cleft ≠ none := by
    rcases hw.parent_internal nid n pid hn hp with ⟨pn', c, hpn', hc⟩
    rw [hpn] at hpn'; cases hpn'
    rw [hc]; simp
  -- a slot of the new tree and the slot of the old tree it comes from
  have hback : ∀ (j : Nat) (m : Node F), (t.setNode pid (bump pn)).nodes[j]? = some m →
      ∃ m0 : Node F, t.nodes[j]? = some m0 ∧ m.cleft = m0.cleft ∧ m.cright = m0.cright ∧
        (j ≠ pid → m = m0) ∧ (j = pid → m = bump pn ∧ m0 = pn) := by
    intro j m hm
    rw [get_bump t pid pn hpn j] at hm
    by_cases hj : j = pid
    · simp only [hj, if_true, Option.some.injEq] at hm
      subst hm
      exact ⟨pn, by rw [hj]; exact hpn, rfl, rfl, fun e => absurd hj e, fun _ => ⟨rfl, rfl⟩⟩
    · simp only [hj, if_false] at hm
      exact ⟨m, hm, rfl, rfl, fun _ => rfl, fun e => absurd e hj⟩
  refine ⟨WF_bump t hw pid pn hpn, ?_, ?_, ?_⟩
  · intro i m hm
    rcases hback i m hm with ⟨m0, hm0, _, _, hne, heq⟩
    by_cases hi : i = pid
    · rcases heq hi with ⟨e1, e2⟩
      subst e1
      have := h.nonneg pid pn hpn
      simp only [bump]
      omega
    · rw [hne hi]
      exact h.nonneg i m0 hm0
  · intro p np l r nl nr hnp hl hr hnl hnr
    rcases hback p np hnp with ⟨mp, hmp, c1, c2, _, _⟩
    rcases hback l nl hnl with ⟨ml, hml, d1, _, dne, deq⟩
    rcases hback r nr hnr with ⟨mr, hmr, e1, _, ene, eeq⟩
    rcases h.cat p mp l r ml mr hmp (by rw [← c1]; exact hl) (by rw [← c2]; exact hr) hml hmr
      with ⟨a1, a2⟩ | ⟨a1, a2⟩
    · left
      have hlp : l ≠ pid := by
        intro e
        rcases deq e with ⟨_, e2⟩
        rw [e2] at a1
        exact hpint a1
      rw [dne hlp]
      exact ⟨a1, a2⟩
    · right
      have hrp : r ≠ pid := by
        intro e
        rcases eeq e with ⟨_, e2⟩
        rw [e2] at a1
        exact hpint a1
      rw [ene hrp]
      exact ⟨a1, a2⟩
  · intro p np l r nl nr hnp hl hr hnl hnr hcnt
    rcases hback p np hnp with ⟨mp, hmp, c1, c2, pne, peq⟩
    rcases hback l nl hnl with ⟨ml, hml, d1, _, _, _⟩
    rcases hback r nr hnr with ⟨mr, hmr, e1, _, _, _⟩
    have hl0 : mp.cleft = some l := by rw [← c1]; exact hl
    have hr0 : mp.cright = some r := by rw [← c2]; exact hr
    by_cases hpp : p = pid
    · subst hpp
      rw [hpn] at hmp; cases hmp
      have hside : l = nid ∨ r = nid := by
        rcases hw.parent nid n p hn hp with ⟨np', hnp', hc⟩
        rw [hpn] at hnp'; cases hnp'
        rcases hc with hc | hc
        · left; rw [hl0] at hc; exact Option.some.inj hc
        · right; rw [hr0] at hc; exact Option.some.inj hc
      rcases h.cat p pn l r ml mr hpn hl0 hr0 hml hmr with ⟨a1, a2⟩ | ⟨a1, a2⟩
      · constructor
        · intro hrint
          rw [e1] at hrint
          rcases hside with e | e
          · subst e
            rw [hn] at hml; cases hml
            exact ⟨hV a2, by simp⟩
          · subst e
            rw [hn] at hmr; cases hmr
            exact absurd hleaf hrint
        · intro hlint
          rw [d1] at hlint
          exact absurd a1 hlint
      · constructor
        · intro hrint
          rw [e1] at hrint
          exact absurd a1 hrint
        · intro hlint
          rw [d1] at hlint
          rcases hside with e | e
          · subst e
            rw [hn] at hml; cases hml
            exact absurd hleaf hlint
          · subst e
            rw [hn] at hmr; cases hmr
            exact ⟨hV a2, by simp⟩
    · rw [pne hpp] at hcnt
      rcases h.one p mp l r ml mr hmp hl0 hr0 hml hmr hcnt with ⟨a, b⟩
      exact ⟨fun x => ⟨(a (by rw [← e1]; exact x)).1, by simp⟩,
        fun x => ⟨(b (by rw [← d1]; exact x)).1, by simp⟩⟩

theorem SafeInv_collapse (t t2 : RegTree F) (V : List Nat) (nid pid cl cr : Nat)
    (pn nl nr : Node F) (v : F)
    (cs : CollapseStep t t2 pid cl cr pn nl nr v)
    (h : SafeInv t V (some nid)) : SafeInv t2 V (some pid) := by
  have hw := h.wf
  rcases hw.children pid pn cl cs.hpn cs.hcl with ⟨cr', nl', nr', hcr', _, hnl', hpl, hnr', hpr⟩
  rw [cs.hcr] at hcr'; cases hcr'
  rw [cs.hnl] at hnl'; cases hnl'
  rw [cs.hnr] at hnr'; cases hnr'
  -- an internal node of the new tree is an untouched slot
  have hint : ∀ (p : Nat) (np : Node F) (c : Nat), t2.nodes[p]? = some np → np.cleft = some c →
      p ≠ pid ∧ t.nodes[p]? = some np := by
    intro p np c hnp hc
    rcases cs.cases p np hnp with ⟨_, rfl⟩ | ⟨_, m, _, hleaf, rfl⟩ | ⟨h1, _, _, hm⟩
    · simp [Node.set_leaf] at hc
    · rw [hleaf] at hc; cases hc
    · exact ⟨h1, hm⟩
  -- a child of an untouched internal node is untouched or is `pid`
  have hchild : ∀ (c p : Nat) (mc : Node F), p ≠ pid → t.nodes[c]? = some mc →
      mc.parent = some p → c ≠ cl ∧ c ≠ cr := by
    intro c p mc hpp hmc hpc
    constructor
    · intro e; subst e; rw [cs.hnl] at hmc; cases hmc; rw [hpl] at hpc
      exact hpp (Option.some.inj hpc).symm
    · intro e; subst e; rw [cs.hnr] at hmc; cases hmc; rw [hpr] at hpc
      exact hpp (Option.some.inj hpc).symm
  refine ⟨cs.wf hw, ?_, ?_, ?_⟩
  · intro i m hm
    rcases cs.cases i m hm with ⟨_, rfl⟩ | ⟨_, m0, hm0, _, rfl⟩ | ⟨_, _, _, hm0⟩
    · have := h.nonneg pid pn cs.hpn
      simp only [Node.set_leaf, bump]
      omega
    · exact h.nonneg i m0 hm0
    · exact h.nonneg i m hm0
  · intro p np l r nl2 nr2 hnp hl hr hnl2 hnr2
    rcases hint p np l hnp hl with ⟨hpp, hnp0⟩
    rcases hw.children p np l hnp0 hl with ⟨r', ml, mr, hr', _, hml, hpml, hmr, hpmr⟩
    rw [hr] at hr'; cases hr'
    rcases hchild l p ml hpp hml hpml with ⟨l2, l3⟩
    rcases hchild r p mr hpp hmr hpmr with ⟨r2, r3⟩
    rcases h.cat p np l r ml mr hnp0 hl hr hml hmr with ⟨a1, a2⟩ | ⟨a1, a2⟩
    · left
      have l1 : l ≠ pid := by
        intro e; subst e; rw [cs.hpn] at hml; cases hml; rw [cs.hcl] at a1; cases a1
      rw [cs.get_other l l1 l2 l3, hml] at hnl2
      cases hnl2
      exact ⟨a1, a2⟩
    · right
      have r1 : r ≠ pid := by
        intro e; subst e; rw [cs.hpn] at hmr; cases hmr; rw [cs.hcl] at a1; cases a1
      rw [cs.get_other r r1 r2 r3, hmr] at hnr2
      cases hnr2
      exact ⟨a1, a2⟩
  · intro p np l r nl2 nr2 hnp hl hr hnl2 hnr2 hcnt
    rcases hint p np l hnp hl with ⟨hpp, hnp0⟩
    rcases hw.children p np l hnp0 hl with ⟨r', ml, mr, hr', _, hml, hpml, hmr, hpmr⟩
    rw [hr] at hr'; cases hr'
    rcases hchild l p ml hpp hml hpml with ⟨l2, l3⟩
    rcases hchild r p mr hpp hmr hpmr with ⟨r2, r3⟩
    rcases h.one p np l r ml mr hnp0 hl hr hml hmr hcnt with ⟨a, b⟩
    constructor
    · intro hrint
      -- `r` is internal in the new tree, hence untouched
      cases hrc : nr2.cleft with
      | none => exact absurd hrc hrint
      | some c =>
        rcases hint r nr2 c hnr2 hrc with ⟨_, hnr0⟩
        rw [hmr] at hnr0; cases hnr0
        have hlV := (a hrint).1
        refine ⟨hlV, ?_⟩
        intro e
        have e' : pid = l := Option.some.inj e
        subst e'
        rw [cs.hpn] at hml; cases hml
        rcases h.cat p np pid r pn nr2 hnp0 hl hr cs.hpn hmr with ⟨a1, _⟩ | ⟨a1, _⟩
        · rw [cs.hcl] at a1; cases a1
        · exact hrint a1
    · intro hlint
      cases hlc : nl2.cleft with
      | none => exact absurd hlc hlint
      | some c =>
        rcases hint l nl2 c hnl2 hlc with ⟨_, hnl0⟩
        rw [hml] at hnl0; cases hnl0
        have hrV := (b hlint).1
        refine ⟨hrV, ?_⟩
        intro e
        have e' : pid = r := Option.some.inj e
        subst e'
        rw [cs.hpn] at hmr; cases hmr
        rcases h.cat p np l pid nl2 pn hnp0 hl hr hml cs.hpn with ⟨a1, _⟩ | ⟨a1, _⟩
        · exact hlint a1
        · rw [cs.hcl] at a1; cases a1

/-- Under the invariant the walker returns: it never meets an internal child
at a collapse, and a chain of collapses is no longer than the depth. -/
theorem TryPruneLeaf_safe [Mul F] (param : TrainParam F) (V : List Nat) (fuel : Nat)
    (t : RegTree F) (nid : Nat) (n : Node F) (depth k : Int)
    (hn : t.nodes[nid]? = some n) (hleaf : n.cleft = none)
    (hd : t.GetDepth nid = .ok depth) (hfuel : depth < fuel)
    (hV : n.stat.leaf_child_cnt = 0 → nid ∈ V)
    (h : SafeInv t V (some nid)) :
    ∃ (t2 : RegTree F) (k2 : Int),
      TryPruneLeaf param fuel t nid depth k = .ok (t2, k2) ∧ SafeInv t2 V none := by
  induction fuel generalizing t nid n depth k with
  | zero =>
    have := (GetDepth_bounds t nid depth hd).1
    simp at hfuel
    omega
  | succ f ih =>
    cases hp : n.parent with
    | none =>
      exact ⟨t, k, TryPruneLeaf_root param f t nid n depth k hn hp, SafeInv_root t V nid h⟩
    | some pid =>
      rcases h.wf.parent nid n pid hn hp with ⟨pn, hpn, hside⟩
      by_cases hgate : pn.stat.leaf_child_cnt + 1 ≥ 2 ∧
          param.need_prune pn.stat.loss_chg (depth - 1) = true
      · rw [TryPruneLeaf_collapse param f t nid pid n pn depth k hn hp hpn hgate.1 hgate.2]
        -- both children of `pid` are leaves
        rcases h.wf.parent_internal nid n pid hn hp with ⟨pn', cl, hpn', hcl⟩
        rw [hpn] at hpn'; cases hpn'
        rcases h.wf.children pid pn cl hpn hcl with ⟨cr, nl, nr, hcr, _, hnl, _, hnr, _⟩
        have hcnt : 1 ≤ pn.stat.leaf_child_cnt := by omega
        rcases h.one pid pn cl cr nl nr hpn hcl hcr hnl hnr hcnt with ⟨a, b⟩
        have hnid : cl = nid ∨ cr = nid := by
          rcases hside with hc | hc
          · left; rw [hcl] at hc; exact Option.some.inj hc
          · right; rw [hcr] at hc; exact Option.some.inj hc
        have hll : nl.cleft = none := by
          by_contra hne
          rcases hnid with e | e
          · subst e; rw [hn] at hnl; cases hnl; exact hne hleaf
          · subst e; exact (b hne).2 rfl
        have hrl : nr.cleft = none := by
          by_contra hne
          rcases hnid with e | e
          · subst e; exact (a hne).2 rfl
          · subst e; rw [hn] at hnr; cases hnr; exact hne hleaf
        rcases bump_ChangeToLeaf_succeeds t pid cl cr pn nl nr
          (param.learning_rate * pn.stat.base_weight) hpn hcl hcr hnl hnr hll hrl with ⟨t1, hc⟩
        simp only [hc]
        rcases collapseStep_of_ok hpn hc with ⟨cl', cr', nl', nr', cs⟩
        have hdp := GetDepth_parent t nid pid n depth hn hp hd
        have hd1 : t1.GetDepth pid = .ok (depth - 1) := by
          rw [cs.GetDepth_internal h.wf pid pn cl cs.hpn hcl]; exact hdp
        have hnn := h.nonneg pid pn hpn
        exact ih t1 pid _ (depth - 1) (k + 2) cs.get_pid rfl hd1
          (by push_cast at hfuel; omega)
          (by
            intro h0
            simp only [Node.set_leaf, bump] at h0
            omega)
          (SafeInv_collapse t t1 V nid pid cl' cr' pn nl' nr' _ cs h)
      · exact ⟨_, k, TryPruneLeaf_stay param f t nid pid n pn depth k hn hp hpn hgate,
          SafeInv_stay t V nid pid n pn hn hleaf hp hpn hV h⟩

theorem PruneStep_safe [Mul F] (param : TrainParam F) (t : RegTree F) (V : List Nat) (k : Int)
    (i : Nat) (hi : i < t.nodes.length) (hiV : i ∉ V) (h : SafeInv t V none) :
    ∃ (t2 : RegTree F) (k2 : Int), PruneStep param (t, k) i = .ok (t2, k2) ∧
      SafeInv t2 (i :: V) none := by
  have hn : t.nodes[i]? = some t.nodes[i] := List.getElem?_eq_getElem hi
  generalize t.nodes[i] = n at hn
  have hmono : ∀ x : Option Nat, (∀ l : Nat, l ∈ V → x ≠ some l) → SafeInv t (i :: V) x := by
    intro x hx
    refine ⟨h.wf, h.nonneg, h.cat, ?_⟩
    intro p np l r nl nr hnp hl hr hnl hnr hcnt
    rcases h.one p np l r nl nr hnp hl hr hnl hnr hcnt with ⟨a, b⟩
    exact ⟨fun y => ⟨List.mem_cons_of_mem i (a y).1, hx l (a y).1⟩,
      fun y => ⟨List.mem_cons_of_mem i (b y).1, hx r (b y).1⟩⟩
  unfold PruneStep
  simp only [hn]
  by_cases hl : n.is_leaf = true
  · simp only [hl, if_true]
    have hleaf : n.cleft = none := by simpa [Node.is_leaf] using hl
    rcases h.wf.depth i n hn with ⟨d, hd⟩
    simp only [hd]
    have hb := (GetDepth_bounds t i d hd).2
    exact TryPruneLeaf_safe param (i :: V) _ t i n d k hn hleaf hd
      (by unfold RegTree.num_nodes; push_cast; omega) (fun _ => by simp)
      (hmono (some i) (fun l hlV e => hiV (by rw [Option.some.inj e]; exact hlV)))
  · simp only [hl]
    exact ⟨t, k, by simp, hmono none (fun l _ => by simp)⟩

theorem PruneVisit_safe [Mul F] (param : TrainParam F) (order : List Nat) (t : RegTree F)
    (V : List Nat) (k : Int) (hnodup : order.Nodup)
    (hord : ∀ i ∈ order, i < t.nodes.length ∧ i ∉ V) (h : SafeInv t V none) :
    ∃ st2 : RegTree F × Int, PruneVisit param order (t, k) = .ok st2 := by
  induction order generalizing t V k with
  | nil => exact ⟨(t, k), rfl⟩
  | cons i rest ih =>
    rcases List.nodup_cons.1 hnodup with ⟨hnot, hrest⟩
    rcases hord i (by simp) with ⟨hi, hiV⟩
    rcases PruneStep_safe param t V k i hi hiV h with ⟨t1, k1, hstep, hinv⟩
    have hlen : t1.nodes.length = t.nodes.length :=
      (PruneStep_frame param (t, k) (t1, k1) i hstep).1
    rcases ih t1 (i :: V) k1 hrest (by
      intro j hj
      rcases hord j (by simp [hj]) with ⟨a, b⟩
      refine ⟨by rw [hlen]; exact a, ?_⟩
      intro hmem
      rcases List.mem_cons.1 hmem with e | e
      · subst e; exact hnot hj
      · exact b e) hinv with ⟨st2, hrun⟩
    refine ⟨st2, ?_⟩
    unfold PruneVisit
    simp only [hstep]
    exact hrun

/-- On a well-formed tree in which every internal node has a leaf child, the
pass completes, in every order that visits no slot twice. -/
theorem DoPruneOrder_safe [Mul F] (param : TrainParam F) (order : List Nat) (t : RegTree F)
    (hw : t.WF) (hnodup : order.Nodup) (hord : ∀ i ∈ order, i < t.nodes.length)
    (hcat : ∀ (p : Nat) (np : Node F) (l r : Nat) (nl nr : Node F), t.nodes[p]? = some np →
      np.cleft = some l → np.cright = some r → t.nodes[l]? = some nl → t.nodes[r]? = some nr →
      nl.cleft = none ∨ nr.cleft = none) :
    ∃ st2 : RegTree F × Int, DoPruneOrder param order t = .ok st2 := by
  unfold DoPruneOrder
  exact PruneVisit_safe param order _ [] 0 hnodup
    (fun i hi => ⟨by rw [resetLeafChildCnt_length]; exact hord i hi, by simp⟩)
    (SafeInv_start t hw hcat)

/-! ## The chain of two splits -/

theorem GetDepthLoop_fuel_pred (t : RegTree F) (fuel : Nat) (i : Nat) (acc d : Int)
    (h : t.GetDepthLoop (fuel + 1) i acc = .ok d) (hd : d < acc + fuel) :
    t.GetDepthLoop fuel i acc = .ok d := by
  induction fuel generalizing i acc with
  | zero =>
    have := (GetDepthLoop_bounds t _ i acc d h).1
    simp at hd
    omega
  | succ f ih =>
    unfold RegTree.GetDepthLoop at h ⊢
    cases hn : t.nodes[i]? with
    | none => simp [hn] at h
    | some n =>
      simp only [hn] at h ⊢
      cases hp : n.parent with
      | none => simpa [hp] using h
      | some p =>
        simp only [hp] at h ⊢
        exact ih p (acc + 1) h (by push_cast at hd ⊢; omega)

/-- The depth of a node from the depth of its parent. -/
theorem GetDepth_child (t : RegTree F) (i p : Nat) (n : Node F) (d : Int)
    (hn : t.nodes[i]? = some n) (hp : n.parent = some p) (hd : t.GetDepth p = .ok d)
    (hroom : d + 1 < (t.nodes.length : Int) + 1) : t.GetDepth i = .ok (d + 1) := by
  unfold RegTree.GetDepth at hd ⊢
  have h0 := GetDepthLoop_fuel_pred t t.num_nodes p 0 d hd
    (by unfold RegTree.num_nodes; omega)
  unfold RegTree.GetDepthLoop
  simp only [hn, hp]
  rw [GetDepthLoop_shift t t.num_nodes p 0 1, h0]
  rfl

/-- C3 (chain propagation): in a tree of five slots whose root `a` has the
children `b` and the leaf `e`, and whose node `b` has the leaf children `c`
and `d`, stored at any five distinct indices, with a policy that prunes the
split at `b` at depth 1 and the split at `a` at depth 0, one pass of `DoPrune`
completes with a pruned-node count of 4; it leaves `a` as a root leaf of value
`learning_rate * base_weight[a]`, the slot of `b` as a collapsed leaf of value
`learning_rate * base_weight[b]`, and the four slots `b`, `c`, `d`, `e`
reclaimed: they are leaves without a parent, and the slots added to
`deleted_nodes` are exactly these four, `c` and `d` before `b`: the split at
`b` was collapsed first, then the split at `a`. -/
theorem DoPrune_chain_propagation [Mul F] (param : TrainParam F) (t : RegTree F)
    (a b c d e : Nat) (na nb nc nd ne : Node F)
    (hlen : t.nodes.length = 5)
    (ha : t.nodes[a]? = some na) (hb : t.nodes[b]? = some nb) (hc : t.nodes[c]? = some nc)
    (hd : t.nodes[d]? = some nd) (he : t.nodes[e]? = some ne)
    (hdist : [a, b, c, d, e].Nodup)
    (hA : na.parent = none ∧ ((na.cleft = some b ∧ na.cright = some e) ∨
      (na.cleft = some e ∧ na.cright = some b)))
    (hB : nb.parent = some a ∧ nb.cleft = some c ∧ nb.cright = some d)
    (hC : nc.parent = some b ∧ nc.cleft = none ∧ nc.cright = none)
    (hD : nd.parent = some b ∧ nd.cleft = none ∧ nd.cright = none)
    (hE : ne.parent = some a ∧ ne.cleft = none ∧ ne.cright = none)
    (hpB : param.need_prune nb.stat.loss_chg 1 = true)
    (hpA : param.need_prune na.stat.loss_chg 0 = true) :
    ∃ t2 : RegTree F, DoPrune param t = .ok (t2, 4) ∧
      (∃ na2 : Node F, t2.nodes[a]? = some na2 ∧ na2.parent = none ∧ na2.cleft = none ∧
        na2.cright = none ∧ na2.leaf_value = param.learning_rate * na.stat.base_weight) ∧
      (∃ nb2 : Node F, t2.nodes[b]? = some nb2 ∧ nb2.cleft = none ∧
        nb2.leaf_value = param.learning_rate * nb.stat.base_weight) ∧
      (∀ x ∈ [b, c, d, e], ∃ n2 : Node F, t2.nodes[x]? = some n2 ∧ n2.parent = none ∧
        n2.cleft = none ∧ n2.cright = none) ∧
      (∃ L : List Nat, t2.deleted_nodes = t.deleted_nodes ++ L ∧ L.Perm [b, c, d, e] ∧
        ∃ L1 L2 : List Nat, L = L1 ++ b :: L2 ∧ c ∈ L1 ∧ d ∈ L1) := by
  have hd5 := hdist
  simp only [List.nodup_cons, List.mem_cons, List.mem_singleton, List.not_mem_nil, or_false,
    not_or, List.nodup_nil, and_true] at hd5
  have la := lt_of_getElem?_eq_some ha
  have lb := lt_of_getElem?_eq_some hb
  have lc := lt_of_getElem?_eq_some hc
  have ld := lt_of_getElem?_eq_some hd
  have le := lt_of_getElem?_eq_some he
  rw [hlen] at la lb lc ld le
  -- every slot is one of the five
  have hslot : ∀ (i : Nat) (n : Node F), t.nodes[i]? = some n →
      (i = a ∧ n = na) ∨ (i = b ∧ n = nb) ∨ (i = c ∧ n = nc) ∨ (i = d ∧ n = nd) ∨
        (i = e ∧ n = ne) := by
    intro i n hn
    have li := lt_of_getElem?_eq_some hn
    rw [hlen] at li
    have : i = a ∨ i = b ∨ i = c ∨ i = d ∨ i = e := by omega
    rcases this with h | h | h | h | h
    · subst h; rw [ha] at hn; exact Or.inl ⟨rfl, (Option.some.inj hn).symm⟩
    · subst h; rw [hb] at hn; exact Or.inr (Or.inl ⟨rfl, (Option.some.inj hn).symm⟩)
    · subst h; rw [hc] at hn; exact Or.inr (Or.inr (Or.inl ⟨rfl, (Option.some.inj hn).symm⟩))
    · subst h; rw [hd] at hn
      exact Or.inr (Or.inr (Or.inr (Or.inl ⟨rfl, (Option.some.inj hn).symm⟩)))
    · subst h; rw [he] at hn
      exact Or.inr (Or.inr (Or.inr (Or.inr ⟨rfl, (Option.some.inj hn).symm⟩)))
  -- depths
  have dA : t.GetDepth a = .ok 0 := GetDepth_root t a na ha hA.1
  have dB : t.GetDepth b = .ok (0 + 1) := GetDepth_child t b a nb 0 hb hB.1 dA (by rw [hlen]; norm_num)
  have dE : t.GetDepth e = .ok (0 + 1) := GetDepth_child t e a ne 0 he hE.1 dA (by rw [hlen]; norm_num)
  have dC : t.GetDepth c = .ok (0 + 1 + 1) :=
    GetDepth_child t c b nc _ hc hC.1 dB (by rw [hlen]; norm_num)
  have dD : t.GetDepth d = .ok (0 + 1 + 1) :=
    GetDepth_child t d b nd _ hd hD.1 dB (by rw [hlen]; norm_num)
  -- well-formedness
  have hw : t.WF := by
    constructor
    · intro i n l hn hl
      rcases hslot i n hn with ⟨rfl, rfl⟩ | ⟨rfl, rfl⟩ | ⟨rfl, rfl⟩ | ⟨rfl, rfl⟩ | ⟨rfl, rfl⟩
      · rcases hA.2 with ⟨h1, h2⟩ | ⟨h1, h2⟩
        · rw [h1] at hl; cases hl
          exact ⟨e, nb, ne, h2, by omega, hb, hB.1, he, hE.1⟩
        · rw [h1] at hl; cases hl
          exact ⟨b, ne, nb, h2, by omega, he, hE.1, hb, hB.1⟩
      · rw [hB.2.1] at hl; cases hl
        exact ⟨d, nc, nd, hB.2.2, by omega, hc, hC.1, hd, hD.1⟩
      · rw [hC.2.1] at hl; cases hl
      · rw [hD.2.1] at hl; cases hl
      · rw [hE.2.1] at hl; cases hl
    · intro i n hn hl
      rcases hslot i n hn with ⟨rfl, rfl⟩ | ⟨rfl, rfl⟩ | ⟨rfl, rfl⟩ | ⟨rfl, rfl⟩ | ⟨rfl, rfl⟩
      · rcases hA.2 with ⟨h1, _⟩ | ⟨h1, _⟩ <;> (rw [h1] at hl; cases hl)
      · rw [hB.2.1] at hl; cases hl
      · exact hC.2.2
      · exact hD.2.2
      · exact hE.2.2
    · intro i n p hn hp
      rcases hslot i n hn with ⟨rfl, rfl⟩ | ⟨rfl, rfl⟩ | ⟨rfl, rfl⟩ | ⟨rfl, rfl⟩ | ⟨rfl, rfl⟩
      · rw [hA.1] at hp; cases hp
      · rw [hB.1] at hp; cases hp
        rcases hA.2 with ⟨h1, h2⟩ | ⟨h1, h2⟩
        · exact ⟨na, ha, Or.inl h1⟩
        · exact ⟨na, ha, Or.inr h2⟩
      · rw [hC.1] at hp; cases hp
        exact ⟨nb, hb, Or.inl hB.2.1⟩
      · rw [hD.1] at hp; cases hp
        exact ⟨nb, hb, Or.inr hB.2.2⟩
      · rw [hE.1] at hp; cases hp
        rcases hA.2 with ⟨h1, h2⟩ | ⟨h1, h2⟩
        · exact ⟨na, ha, Or.inr h2⟩
        · exact ⟨na, ha, Or.inl h1⟩
    · intro i n hn
      rcases hslot i n hn with ⟨rfl, rfl⟩ | ⟨rfl, rfl⟩ | ⟨rfl, rfl⟩ | ⟨rfl, rfl⟩ | ⟨rfl, rfl⟩
      · exact ⟨_, dA⟩
      · exact ⟨_, dB⟩
      · exact ⟨_, dC⟩
      · exact ⟨_, dD⟩
      · exact ⟨_, dE⟩
  -- every internal node has a leaf child
  have hcat : ∀ (p : Nat) (np : Node F) (l r : Nat) (nl nr : Node F), t.nodes[p]? = some np →
      np.cleft = some l → np.cright = some r → t.nodes[l]? = some nl → t.nodes[r]? = some nr →
      nl.cleft = none ∨ nr.cleft = none := by
    intro p np l r nl nr hnp hl hr hnl hnr
    rcases hslot p np hnp with ⟨rfl, rfl⟩ | ⟨rfl, rfl⟩ | ⟨rfl, rfl⟩ | ⟨rfl, rfl⟩ | ⟨rfl, rfl⟩
    · rcases hA.2 with ⟨h1, h2⟩ | ⟨h1, h2⟩
      · rw [h2] at hr; cases hr
        rw [he] at hnr; cases hnr
        exact Or.inr hE.2.1
      · rw [h1] at hl; cases hl
        rw [he] at hnl; cases hnl
        exact Or.inl hE.2.1
    · rw [hB.2.1] at hl; cases hl
      rw [hc] at hnl; cases hnl
      exact Or.inl hC.2.1
    · rw [hC.2.1] at hl; cases hl
    · rw [hD.2.1] at hl; cases hl
    · rw [hE.2.1] at hl; cases hl
  -- the pass completes
  rcases DoPruneOrder_safe param (List.range t.num_nodes) t hw (List.nodup_range _)
    (fun i hi => List.mem_range.1 hi) hcat with ⟨⟨t2, k⟩, hrun⟩
  rcases DoPruneOrder_rel param _ t t2 k hw hrun with ⟨hw2, hrel⟩
  rcases DoPruneOrder_complete param _ t t2 k hw (fun i hi => List.mem_range.2 hi) hrun with
    ⟨_, hcomp⟩
  rcases hrel with ⟨hframe, ⟨L, hdel, hk, hnd, hmem⟩, hord⟩
  have hlen2 : t2.nodes.length = 5 := by rw [hframe.1, hlen]
  rcases hframe.2.2 a na ha with ⟨na2, ha2, fa⟩
  rcases hframe.2.2 b nb hb with ⟨nb2, hb2, fb⟩
  rcases hframe.2.2 c nc hc with ⟨nc2, hc2, fc⟩
  rcases hframe.2.2 d nd hd with ⟨nd2, hd2, fd⟩
  rcases hframe.2.2 e ne he with ⟨ne2, he2, fe⟩
  -- a leaf of the input is a leaf of the result
  have keep : ∀ (n0 n : Node F), Node.prunedFrom param.learning_rate n0 n → n0.cleft = none →
      n0.cright = none → n.cleft = none ∧ n.cright = none := by
    intro n0 n f h1 h2
    rcases f.2.2.2 with ⟨e1, e2, _⟩ | ⟨e1, _, _, _⟩
    · exact ⟨by rw [e1]; exact h1, by rw [e2]; exact h2⟩
    · exact absurd h1 e1
  have lC := keep nc nc2 fc hC.2.1 hC.2.2
  have lD := keep nd nd2 fd hD.2.1 hD.2.2
  have lE := keep ne ne2 fe hE.2.1 hE.2.2
  have pA2 : na2.parent = none := by
    rcases fa.2.2.1 with h | ⟨h, _⟩
    · rw [h]; exact hA.1
    · exact h
  have dA2 : t2.GetDepth a = .ok 0 := GetDepth_root t2 a na2 ha2 pA2
  -- the split at `b` is collapsed
  have lB : nb2.cleft = none := by
    by_contra hne
    have hs : nb2.cleft = some c ∧ nb2.cright = some d := by
      rcases fb.2.2.2 with ⟨e1, e2, _⟩ | ⟨_, e1, _, _⟩
      · exact ⟨by rw [e1]; exact hB.2.1, by rw [e2]; exact hB.2.2⟩
      · exact absurd e1 hne
    have hp : nb2.parent = some a := by
      rcases fb.2.2.1 with h | ⟨_, h⟩
      · rw [h]; exact hB.1
      · exact absurd h hne
    have dB2 : t2.GetDepth b = .ok (0 + 1) :=
      GetDepth_child t2 b a nb2 0 hb2 hp dA2 (by rw [hlen2]; norm_num)
    have := hcomp b nb2 c d nc2 nd2 (0 + 1) hb2 hs.1 hs.2 hc2 lC.1 hd2 lD.1 dB2
    rw [fb.1] at this
    simp only [zero_add] at this
    rw [hpB] at this
    cases this
  have vB : nb2.leaf_value = param.learning_rate * nb.stat.base_weight := by
    rcases fb.2.2.2 with ⟨e1, _, _⟩ | ⟨_, _, _, e⟩
    · rw [e1, hB.2.1] at lB; cases lB
    · exact e
  -- the split at `a` is collapsed
  have lA : na2.cleft = none := by
    by_contra hne
    have hs : na2.cleft = na.cleft ∧ na2.cright = na.cright := by
      rcases fa.2.2.2 with ⟨e1, e2, _⟩ | ⟨_, e1, _, _⟩
      · exact ⟨e1, e2⟩
      · exact absurd e1 hne
    rcases hA.2 with ⟨h1, h2⟩ | ⟨h1, h2⟩
    · have := hcomp a na2 b e nb2 ne2 0 ha2 (by rw [hs.1]; exact h1) (by rw [hs.2]; exact h2)
        hb2 lB he2 lE.1 dA2
      rw [fa.1, hpA] at this
      cases this
    · have := hcomp a na2 e b ne2 nb2 0 ha2 (by rw [hs.1]; exact h1) (by rw [hs.2]; exact h2)
        he2 lE.1 hb2 lB dA2
      rw [fa.1, hpA] at this
      cases this
  have rA : na2.cright = none := hw2.leaf a na2 ha2 lA
  have rB : nb2.cright = none := hw2.leaf b nb2 hb2 lB
  have vA : na2.leaf_value = param.learning_rate * na.stat.base_weight := by
    rcases fa.2.2.2 with ⟨e1, _, _⟩ | ⟨_, _, _, e⟩
    · rw [e1] at lA
      rcases hA.2 with ⟨h1, _⟩ | ⟨h1, _⟩ <;> (rw [h1] at lA; cases lA)
    · exact e
  -- a slot below a leaf has lost its parent
  have orphan : ∀ (x p : Nat) (n0 n np : Node F), Node.prunedFrom param.learning_rate n0 n →
      t2.nodes[x]? = some n → n0.parent = some p → t2.nodes[p]? = some np →
      np.cleft = none → np.cright = none → n.parent = none := by
    intro x p n0 n np f hx h0 hp' h1 h2
    rcases f.2.2.1 with h | ⟨h, _⟩
    · rw [h0] at h
      rcases hw2.parent x n p hx h with ⟨np', hnp', hc'⟩
      rw [hp'] at hnp'; cases hnp'
      rcases hc' with hc' | hc'
      · rw [h1] at hc'; cases hc'
      · rw [h2] at hc'; cases hc'
    · exact h
  have pB2 := orphan b a nb nb2 na2 fb hb2 hB.1 ha2 lA rA
  have pE2 := orphan e a ne ne2 na2 fe he2 hE.1 ha2 lA rA
  have pC2 := orphan c b nc nc2 nb2 fc hc2 hC.1 hb2 lB rB
  have pD2 := orphan d b nd nd2 nb2 fd hd2 hD.1 hb2 lB rB
  -- the reclaimed slots
  have hperm : L.Perm [b, c, d, e] := by
    rw [List.perm_ext_iff_of_nodup hnd (by simp; omega)]
    intro x
    rw [hmem x]
    simp only [List.mem_cons, List.mem_singleton, List.not_mem_nil, or_false]
    constructor
    · rintro ⟨n0, n, p, h0, _, hp0, _⟩
      rcases hslot x n0 h0 with ⟨rfl, rfl⟩ | ⟨rfl, rfl⟩ | ⟨rfl, rfl⟩ | ⟨rfl, rfl⟩ | ⟨rfl, rfl⟩
      · rw [hA.1] at hp0; cases hp0
      · exact Or.inl rfl
      · exact Or.inr (Or.inl rfl)
      · exact Or.inr (Or.inr (Or.inl rfl))
      · exact Or.inr (Or.inr (Or.inr rfl))
    · rintro (rfl | rfl | rfl | rfl)
      · exact ⟨nb, nb2, a, hb, hb2, hB.1, pB2⟩
      · exact ⟨nc, nc2, b, hc, hc2, hC.1, pC2⟩
      · exact ⟨nd, nd2, b, hd, hd2, hD.1, pD2⟩
      · exact ⟨ne, ne2, a, he, he2, hE.1, pE2⟩
  have hk4 : k = 4 := by
    rw [hk, hperm.length_eq]
    rfl
  subst hk4
  -- the children of `b` were reclaimed before `b`
  have hbefore : ∃ L1 L2 : List Nat, L = L1 ++ b :: L2 ∧ c ∈ L1 ∧ d ∈ L1 := by
    have hbL : b ∈ L := hperm.symm.subset (by simp)
    rcases List.append_of_mem hbL with ⟨L1, L2, hL⟩
    exact ⟨L1, L2, hL, hord L1 L2 b nb c (by rw [hdel, hL]) hb (Or.inl hB.2.1),
      hord L1 L2 b nb d (by rw [hdel, hL]) hb (Or.inr hB.2.2)⟩
  refine ⟨t2, hrun, ⟨na2, ha2, pA2, lA, rA, vA⟩, ⟨nb2, hb2, lB, vB⟩, ?_,
    ⟨L, hdel, hperm, hbefore⟩⟩
  intro x hx
  simp only [List.mem_cons, List.mem_singleton, List.not_mem_nil, or_false] at hx
  rcases hx with rfl | rfl | rfl | rfl
  · exact ⟨nb2, hb2, pB2, lB, rB⟩
  · exact ⟨nc2, hc2, pC2, lC.1, lC.2⟩
  · exact ⟨nd2, hd2, pD2, lD.1, lD.2⟩
  · exact ⟨ne2, he2, pE2, lE.1, lE.2⟩

/-- Witness of C3: `chainTree` (`a = 0`, `b = 1`, `e = 2`, `c = 3`, `d = 4`)
under the policy `belowOne`. -/
theorem DoPrune_chain_propagation_witness :
    ∃ t2 : RegTree Int, DoPrune belowOne chainTree = .ok (t2, 4) ∧
      (∃ na2 : Node Int, t2.nodes[0]? = some na2 ∧ na2.parent = none ∧ na2.cleft = none ∧
        na2.cright = none ∧ na2.leaf_value = 3 * 7) := by
  rcases DoPrune_chain_propagation belowOne chainTree 0 1 3 4 2
    ⟨none, some 1, some 2, 0, ⟨0, 7, 0⟩⟩ ⟨some 0, some 3, some 4, 0, ⟨0, 2, 0⟩⟩
    (leafAt 1) (leafAt 1) (leafAt 0) rfl rfl rfl rfl rfl rfl (by decide)
    ⟨rfl, Or.inl ⟨rfl, rfl⟩⟩ ⟨rfl, rfl, rfl⟩ ⟨rfl, rfl, rfl⟩ ⟨rfl, rfl, rfl⟩ ⟨rfl, rfl, rfl⟩
    rfl rfl with ⟨t2, h1, h2, _⟩
  exact ⟨t2, h1, h2⟩

/-! ## Counters left by an earlier pass -/

theorem reset_eq_of_same (t t2 : RegTree F) (hroots : t.num_roots = t2.num_roots)
    (hdel : t.deleted_nodes = t2.deleted_nodes) (hlen : t.nodes.length = t2.nodes.length)
    (hsame : ∀ (i : Nat) (n n2 : Node F), t.nodes[i]? = some n → t2.nodes[i]? = some n2 →
      n.parent = n2.parent ∧ n.cleft = n2.cleft ∧ n.cright = n2.cright ∧
      n.leaf_value = n2.leaf_value ∧ n.stat.loss_chg = n2.stat.loss_chg ∧
      n.stat.base_weight = n2.stat.base_weight) :
    t.resetLeafChildCnt = t2.resetLeafChildCnt := by
  have hnodes : t.resetLeafChildCnt.nodes = t2.resetLeafChildCnt.nodes := by
    apply List.ext_getElem?
    intro i
    rw [resetLeafChildCnt_getElem?, resetLeafChildCnt_getElem?]
    cases h1 : t.nodes[i]? with
    | none =>
      have : t2.nodes[i]? = none := by
        rw [List.getElem?_eq_none_iff] at h1 ⊢
        omega
      simp [this]
    | some n =>
      have hlt : i < t2.nodes.length := by
        rw [← hlen]; exact lt_of_getElem?_eq_some h1
      have h2 : t2.nodes[i]? = some t2.nodes[i] := List.getElem?_eq_getElem hlt
      rcases hsame i n _ h1 h2 with ⟨a, b, c, d, e, f⟩
      rw [h2]
      simp only [Option.map_some', Option.some.injEq]
      cases n with
      | mk p l r v s =>
        cases hn2 : t2.nodes[i] with
        | mk p2 l2 r2 v2 s2 =>
          rw [hn2] at a b c d e f
          cases s with
          | mk lc bw cnt =>
            cases s2 with
            | mk lc2 bw2 cnt2 =>
              simp only at a b c d e f
              simp [a, b, c, d, e, f]
  unfold RegTree.resetLeafChildCnt at hnodes ⊢
  simp only at hnodes
  simp only [RegTree.mk.injEq]
  exact ⟨hnodes, hroots, hdel⟩

/-- C13 (no stale counters): two trees that differ in nothing but the
`leaf_child_cnt` values of their slots are taken by `DoPrune` to the same
outcome: the same resulting tree, final counters included, and the same
pruned-node count (or the same abort). -/
theorem DoPrune_ignores_stale_counters [Mul F] (param : TrainParam F) (t t2 : RegTree F)
    (hroots : t.num_roots = t2.num_roots) (hdel : t.deleted_nodes = t2.deleted_nodes)
    (hlen : t.nodes.length = t2.nodes.length)
    (hsame : ∀ (i : Nat) (n n2 : Node F), t.nodes[i]? = some n → t2.nodes[i]? = some n2 →
      n.parent = n2.parent ∧ n.cleft = n2.cleft ∧ n.cright = n2.cright ∧
      n.leaf_value = n2.leaf_value ∧ n.stat.loss_chg = n2.stat.loss_chg ∧
      n.stat.base_weight = n2.stat.base_weight) :
    DoPrune param t = DoPrune param t2 := by
  unfold DoPrune DoPruneOrder RegTree.num_nodes
  rw [reset_eq_of_same t t2 hroots hdel hlen hsame, hlen]

/-- Witness of C13: `chainTree` with clean and with stale counters. -/
theorem DoPrune_ignores_stale_counters_witness :
    DoPrune belowOne chainTreeStale = DoPrune belowOne chainTree ∧
    DoPrune belowOne chainTree = .ok (chainTreePruned, 4) :=
  ⟨DoPrune_ignores_stale_counters belowOne chainTreeStale chainTree rfl rfl rfl (by
    intro i n n2 h1 h2
    have hi : i < 5 := lt_of_getElem?_eq_some h1
    interval_cases i <;>
      (simp only [chainTreeStale, chainTree, leafAt, List.getElem?_cons_zero,
        List.getElem?_cons_succ, Option.some.injEq] at h1 h2
       subst h1; subst h2
       exact ⟨rfl, rfl, rfl, rfl, rfl, rfl⟩)), by decide⟩

/-! ## The result of a completed pass -/

theorem wellFormed_of_WF (t : RegTree F) (hw : t.WF) : t.wellFormed = true := by
  unfold RegTree.wellFormed
  rw [List.all_eq_true]
  intro i hi
  have hlt : i < t.nodes.length := List.mem_range.1 hi
  have hn : t.nodes[i]? = some t.nodes[i] := List.getElem?_eq_getElem hlt
  generalize t.nodes[i] = n at hn
  simp only [hn, Bool.and_eq_true]
  refine ⟨⟨?_, ?_⟩, ?_⟩
  · unfold RegTree.childrenOK
    cases hl : n.cleft with
    | none =>
      rw [hw.leaf i n hn hl]
    | some l =>
      rcases hw.children i n l hn hl with ⟨r, nl, nr, hr, hne, hnl, hpl, hnr, hpr⟩
      rw [hr]
      simp only [Bool.and_eq_true, decide_eq_true_eq]
      exact ⟨⟨hne, (hasParent_iff t l i).2 ⟨nl, hnl, hpl⟩⟩, (hasParent_iff t r i).2 ⟨nr, hnr, hpr⟩⟩
  · unfold RegTree.parentOK
    cases hp : n.parent with
    | none => rfl
    | some p =>
      rcases hw.parent i n p hn hp with ⟨np, hnp, hc⟩
      simp only [hnp, Bool.or_eq_true, decide_eq_true_eq]
      exact hc
  · unfold RegTree.depthOK
    rcases hw.depth i n hn with ⟨d, hd⟩
    rw [hd]

/-- A node that is internal after the pass has the depth it had before. -/
theorem GetDepth_kept [Mul F] (lr : F) (t t2 : RegTree F) (hw2 : t2.WF)
    (hf : RegTree.prunedFrom lr t t2) (q : Nat) (nq : Node F) (c : Nat)
    (hq : t2.nodes[q]? = some nq) (hc : nq.cleft = some c) :
    t.GetDepth q = t2.GetDepth q := by
  unfold RegTree.GetDepth RegTree.num_nodes
  rw [hf.1]
  refine GetDepthLoop_agree t2 t ?_ (fun j nj p hj hp => hw2.parent_internal j nj p hj hp)
    _ q 0 nq c hq hc
  intro j nj c2 hj hc2
  have hlt : j < t.nodes.length := by rw [← hf.1]; exact lt_of_getElem?_eq_some hj
  rcases hf.2.2 j _ (List.getElem?_eq_getElem hlt) with ⟨n2, hn2, _, _, hpar, _⟩
  rw [hj] at hn2; cases hn2
  refine ⟨_, List.getElem?_eq_getElem hlt, ?_⟩
  rcases hpar with e | ⟨_, e⟩
  · exact e.symm
  · rw [hc2] at e; cases e

/-- C18 (pruning is complete): when `DoPrune` has completed on a well-formed
tree, no internal node of the result has two leaf children and a split that
the policy prunes at the node's depth; said with the input tree: a node whose
split the policy prunes at its depth and that is still internal after the
pass has a child that is still internal. -/
theorem DoPrune_complete [Mul F] (param : TrainParam F) (t t2 : RegTree F) (k : Int)
    (hwf : t.wellFormed = true) (h : DoPrune param t = .ok (t2, k)) :
    (∀ (p : Nat) (np : Node F) (l r : Nat) (nl nr : Node F) (d : Int),
      t2.nodes[p]? = some np → np.cleft = some l → np.cright = some r →
      t2.nodes[l]? = some nl → nl.is_leaf = true → t2.nodes[r]? = some nr →
      nr.is_leaf = true → t2.GetDepth p = .ok d →
      param.need_prune np.stat.loss_chg d = false) ∧
    (∀ (p : Nat) (n0 np : Node F) (l r : Nat) (nl nr : Node F) (d : Int),
      t.nodes[p]? = some n0 → t.GetDepth p = .ok d →
      param.need_prune n0.stat.loss_chg d = true →
      t2.nodes[p]? = some np → np.cleft = some l → np.cright = some r →
      t2.nodes[l]? = some nl → t2.nodes[r]? = some nr →
      nl.is_leaf = false ∨ nr.is_leaf = false) := by
  have hw := WF_of_wellFormed t hwf
  rcases DoPruneOrder_complete param (List.range t.num_nodes) t t2 k hw
    (fun i hi => List.mem_range.2 hi) h with ⟨hw2, hc2⟩
  have hf := DoPruneOrder_frame param _ t t2 k h
  constructor
  · intro p np l r nl nr d hnp hl hr hnl hll hnr hlr hd
    exact hc2 p np l r nl nr d hnp hl hr hnl (by simpa [Node.is_leaf] using hll) hnr
      (by simpa [Node.is_leaf] using hlr) hd
  · intro p n0 np l r nl nr d hn0 hd hprune hnp hl hr hnl hnr
    by_contra hcon
    have hll : nl.cleft = none := by
      cases h1 : nl.cleft with
      | none => rfl
      | some c => exact absurd (Or.inl (by simp [Node.is_leaf, h1])) hcon
    have hlr : nr.cleft = none := by
      cases h1 : nr.cleft with
      | none => rfl
      | some c => exact absurd (Or.inr (by simp [Node.is_leaf, h1])) hcon
    have hd2 : t2.GetDepth p = .ok d := by
      rw [← GetDepth_kept param.learning_rate t t2 hw2 hf p np l hnp hl]; exact hd
    have := hc2 p np l r nl nr d hnp hl hr hnl hll hnr hlr hd2
    rcases hf.2.2 p n0 hn0 with ⟨np', hnp', hloss, _⟩
    rw [hnp] at hnp'; cases hnp'
    rw [hloss, hprune] at this
    cases this

/-- Witness of C18: `chainTree`, on which the pass completes. -/
theorem DoPrune_complete_witness :
    chainTree.wellFormed = true ∧ DoPrune belowOne chainTree = .ok (chainTreePruned, 4) ∧
    ∀ (p : Nat) (np : Node Int) (l r : Nat) (nl nr : Node Int) (d : Int),
      chainTreePruned.nodes[p]? = some np → np.cleft = some l → np.cright = some r →
      chainTreePruned.nodes[l]? = some nl → nl.is_leaf = true →
      chainTreePruned.nodes[r]? = some nr → nr.is_leaf = true →
      chainTreePruned.GetDepth p = .ok d →
      belowOne.need_prune np.stat.loss_chg d = false :=
  ⟨by decide, by decide,
   (DoPrune_complete belowOne chainTree chainTreePruned 4 (by decide) (by decide)).1⟩

/-- C16 (well-formedness is preserved): on a well-formed tree, after any
number of completed iterations of the loop of `DoPrune`, also those of a pass
that aborts later, the tree is well-formed and has the root count and the
slots it had; and when `DoPrune` has completed, the result is well-formed;
`num_roots` and the number of slots are unchanged; the slots reclaimed by the
pass were not roots, and are now leaves without a parent; every other slot has
the parent link, hence the root flag, it had; and no parent link refers to a
reclaimed slot. -/
theorem DoPrune_preserves_wellFormed [Mul F] (param : TrainParam F) (t : RegTree F)
    (hwf : t.wellFormed = true) :
    (∀ (m : Nat) (st : RegTree F × Int),
      PruneVisit param (List.range m) (t.resetLeafChildCnt, 0) = .ok st →
      st.1.wellFormed = true ∧ st.1.num_roots = t.num_roots ∧
      st.1.nodes.length = t.nodes.length) ∧
    ∀ (t2 : RegTree F) (k : Int), DoPrune param t = .ok (t2, k) →
      t2.wellFormed = true ∧ t2.num_roots = t.num_roots ∧
      t2.nodes.length = t.nodes.length ∧
      ∃ L : List Nat, t2.deleted_nodes = t.deleted_nodes ++ L ∧
        (∀ x ∈ L, ∃ (n0 n2 : Node F) (p : Nat), t.nodes[x]? = some n0 ∧
          n0.is_root = false ∧ n0.parent = some p ∧ t2.nodes[x]? = some n2 ∧
          n2.parent = none ∧ n2.is_leaf = true) ∧
        (∀ (x : Nat) (n0 n2 : Node F), x ∉ L → t.nodes[x]? = some n0 →
          t2.nodes[x]? = some n2 → n2.parent = n0.parent ∧ n2.is_root = n0.is_root) ∧
        (∀ (x : Nat) (n2 : Node F) (p : Nat), t2.nodes[x]? = some n2 →
          n2.parent = some p → p ∉ L) := by
  have hw := WF_of_wellFormed t hwf
  constructor
  · intro m st hrun
    rcases DoPruneOrder_rel param (List.range m) t st.1 st.2 hw hrun with ⟨hw2, hf, _, _⟩
    exact ⟨wellFormed_of_WF st.1 hw2, hf.2.1, hf.1⟩
  intro t2 k h
  rcases DoPruneOrder_rel param _ t t2 k hw h with ⟨hw2, hf, ⟨L, hdel, _, _, hmem⟩, _⟩
  -- a reclaimed slot is a leaf without a parent
  have hrec : ∀ x ∈ L, ∃ (n0 n2 : Node F) (p : Nat), t.nodes[x]? = some n0 ∧
      n0.parent = some p ∧ t2.nodes[x]? = some n2 ∧ n2.parent = none ∧ n2.cleft = none := by
    intro x hx
    rcases (hmem x).1 hx with ⟨n0, n2, p, h0, h2, hp0, hp2⟩
    rcases hf.2.2 x n0 h0 with ⟨n2', h2', _, _, hpar, _⟩
    rw [h2] at h2'; cases h2'
    refine ⟨n0, n2, p, h0, hp0, h2, hp2, ?_⟩
    rcases hpar with e | ⟨_, e⟩
    · rw [hp0, hp2] at e; cases e
    · exact e
  refine ⟨wellFormed_of_WF t2 hw2, hf.2.1, hf.1, L, hdel, ?_, ?_, ?_⟩
  · intro x hx
    rcases hrec x hx with ⟨n0, n2, p, h0, hp0, h2, hp2, hl2⟩
    exact ⟨n0, n2, p, h0, by simp [Node.is_root, hp0], hp0, h2, hp2,
      by simp [Node.is_leaf, hl2]⟩
  · intro x n0 n2 hx h0 h2
    have hp : n2.parent = n0.parent := by
      rcases hf.2.2 x n0 h0 with ⟨n2', h2', _, _, hpar, _⟩
      rw [h2] at h2'; cases h2'
      rcases hpar with e | ⟨e, _⟩
      · exact e
      · cases hp0 : n0.parent with
        | none => exact e
        | some p => exact absurd ((hmem x).2 ⟨n0, n2, p, h0, h2, hp0, e⟩) hx
    exact ⟨hp, by simp [Node.is_root, hp]⟩
  · intro x n2 p h2 hp hpL
    rcases hrec p hpL with ⟨_, np2, _, _, _, hnp2, _, hleaf⟩
    rcases hw2.parent x n2 p h2 hp with ⟨np, hnp, hc⟩
    rw [hnp2] at hnp; cases hnp
    have := hw2.leaf p np2 hnp2 hleaf
    rcases hc with hc | hc
    · rw [hleaf] at hc; cases hc
    · rw [this] at hc; cases hc

/-- Witness of C16: `chainTree`, on which the pass completes, and
`revisitTree`, on which it aborts after six iterations. -/
theorem DoPrune_preserves_wellFormed_witness :
    chainTreePruned.wellFormed = true ∧ chainTreePruned.num_roots = chainTree.num_roots ∧
    revisitTreePruned.wellFormed = true :=
  ⟨((DoPrune_preserves_wellFormed belowOne chainTree (by decide)).2 chainTreePruned 4
    (by decide)).1,
   ((DoPrune_preserves_wellFormed belowOne chainTree (by decide)).2 chainTreePruned 4
    (by decide)).2.1,
   ((DoPrune_preserves_wellFormed belowOne revisitTree (by decide)).1 6
    (revisitTreePruned, 2) (by decide)).1⟩

/-! ## The walker on an arbitrary arena: frame and count -/

theorem prunedFrom_get [Mul F] (lr : F) (a b : RegTree F) (h : RegTree.prunedFrom lr a b)
    (x : Nat) (nb : Node F) (hb : b.nodes[x]? = some nb) :
    ∃ na : Node F, a.nodes[x]? = some na ∧ Node.prunedFrom lr na nb := by
  have hlt : x < a.nodes.length := by rw [← h.1]; exact lt_of_getElem?_eq_some hb
  rcases h.2.2 x _ (List.getElem?_eq_getElem hlt) with ⟨nb2, hnb2, hrel⟩
  rw [hb] at hnb2; cases hnb2
  exact ⟨_, List.getElem?_eq_getElem hlt, hrel⟩

theorem Node.prunedFrom_leaf [Mul F] (lr : F) (na nb : Node F) (h : Node.prunedFrom lr na nb)
    (hl : na.cleft = none) : nb.cleft = none := by
  rcases h.2.2.2 with ⟨e, _, _⟩ | ⟨_, e, _, _⟩
  · rw [e]; exact hl
  · exact e

theorem Node.prunedFrom_internal [Mul F] (lr : F) (na nb : Node F)
    (h : Node.prunedFrom lr na nb) (hl : nb.cleft ≠ none) :
    nb.cleft = na.cleft ∧ nb.cright = na.cright := by
  rcases h.2.2.2 with ⟨e1, e2, _⟩ | ⟨_, e, _, _⟩
  · exact ⟨e1, e2⟩
  · exact absurd e hl

theorem Node.prunedFrom_child [Mul F] (lr : F) (na nb : Node F)
    (h : Node.prunedFrom lr na nb) (x : Nat) (hl : nb.cleft = some x ∨ nb.cright = some x) :
    nb.cleft = na.cleft ∧ nb.cright = na.cright := by
  rcases h.2.2.2 with ⟨e1, e2, _⟩ | ⟨_, e, e2, _⟩
  · exact ⟨e1, e2⟩
  · rcases hl with hl | hl
    · rw [e] at hl; cases hl
    · rw [e2] at hl; cases hl

theorem WalkRel_same [Mul F] (lr : F) (t0 t : RegTree F) (k : Int)
    (hlen : t.nodes.length = t0.nodes.length) (hroots : t.num_roots = t0.num_roots)
    (hdel : t.deleted_nodes = t0.deleted_nodes)
    (hsame : ∀ (i : Nat) (n0 : Node F), t0.nodes[i]? = some n0 →
      ∃ n : Node F, t.nodes[i]? = some n ∧ n.parent = n0.parent ∧ n.cleft = n0.cleft ∧
        n.cright = n0.cright ∧ n.leaf_value = n0.leaf_value ∧
        n.stat.loss_chg = n0.stat.loss_chg ∧ n.stat.base_weight = n0.stat.base_weight) :
    WalkRel lr t0 k t k := by
  refine ⟨⟨hlen, hroots, ?_⟩, ⟨[], List.nodup_nil, by simp, ?_⟩, ⟨[], by simp [hdel], by simp,
    ?_, ?_, ?_⟩⟩
  · intro i n0 h0
    rcases hsame i n0 h0 with ⟨n, hn, hp, hl, hr, hv, hc, hb⟩
    exact ⟨n, hn, hc, hb, Or.inl hp, Or.inl ⟨hl, hr, hv⟩⟩
  · intro x
    constructor
    · intro hx; cases hx
    · rintro ⟨n0, n, h0, hn, hi, hl⟩
      rcases hsame x n0 h0 with ⟨n', hn', _, hl', _⟩
      rw [hn] at hn'; cases hn'
      rw [hl'] at hl
      exact absurd hl hi
  · intro x n0 n h0 hn hne
    rcases hsame x n0 h0 with ⟨n', hn', hp, _⟩
    rw [hn] at hn'; cases hn'
    exact absurd hp hne
  · intro x n0 n h0 hn hi hl
    rcases hsame x n0 h0 with ⟨n', hn', _, hl', _⟩
    rw [hn] at hn'; cases hn'
    rw [hl'] at hl
    exact absurd hl hi
  · intro x hx; cases hx

theorem WalkRel_refl [Mul F] (lr : F) (t : RegTree F) (k : Int) : WalkRel lr t k t k :=
  WalkRel_same lr t t k rfl rfl rfl
    (fun _ n0 h0 => ⟨n0, h0, rfl, rfl, rfl, rfl, rfl, rfl⟩)

theorem WalkRel_bump [Mul F] (lr : F) (t : RegTree F) (k : Int) (pid : Nat) (pn : Node F)
    (hpn : t.nodes[pid]? = some pn) : WalkRel lr t k (t.setNode pid (bump pn)) k := by
  refine WalkRel_same lr t _ k (setNode_length t pid _) rfl rfl ?_
  intro i n0 h0
  rw [get_bump t pid pn hpn]
  by_cases hi : i = pid
  · subst hi
    rw [hpn] at h0; cases h0
    simp only [if_true]
    exact ⟨_, rfl, rfl, rfl, rfl, rfl, rfl, rfl⟩
  · simp only [hi, if_false]
    exact ⟨n0, h0, rfl, rfl, rfl, rfl, rfl, rfl⟩

theorem WalkRel_reset [Mul F] (lr : F) (t : RegTree F) (k : Int) :
    WalkRel lr t k t.resetLeafChildCnt k := by
  refine WalkRel_same lr t _ k (resetLeafChildCnt_length t) rfl rfl ?_
  intro i n0 h0
  rw [resetLeafChildCnt_getElem?, h0]
  exact ⟨_, rfl, rfl, rfl, rfl, rfl, rfl, rfl⟩

theorem WalkRel_trans [Mul F] (lr : F) (t0 t1 t2 : RegTree F) (k0 k1 k2 : Int)
    (h1 : WalkRel lr t0 k0 t1 k1) (h2 : WalkRel lr t1 k1 t2 k2) : WalkRel lr t0 k0 t2 k2 := by
  rcases h1 with ⟨f1, ⟨M1, nd1, hk1, hM1⟩, ⟨L1, hd1, hl1, hp1, hc1, hr1⟩⟩
  rcases h2 with ⟨f2, ⟨M2, nd2, hk2, hM2⟩, ⟨L2, hd2, hl2, hp2, hc2, hr2⟩⟩
  -- the three versions of a slot
  have three : ∀ (x : Nat) (n0 n2 : Node F), t0.nodes[x]? = some n0 → t2.nodes[x]? = some n2 →
      ∃ n1 : Node F, t1.nodes[x]? = some n1 ∧ Node.prunedFrom lr n0 n1 ∧
        Node.prunedFrom lr n1 n2 := by
    intro x n0 n2 h0 hn2
    rcases f1.2.2 x n0 h0 with ⟨n1, hn1, r1⟩
    rcases f2.2.2 x n1 hn1 with ⟨n2', hn2', r2⟩
    rw [hn2] at hn2'; cases hn2'
    exact ⟨n1, hn1, r1, r2⟩
  refine ⟨RegTree.prunedFrom_trans lr _ _ _ f1 f2, ⟨M1 ++ M2, ?_, ?_, ?_⟩,
    ⟨L1 ++ L2, ?_, ?_, ?_, ?_, ?_⟩⟩
  · refine List.Nodup.append nd1 nd2 ?_
    intro x hx1 hx2
    rcases (hM1 x).1 hx1 with ⟨_, n1, _, hn1, _, hl⟩
    rcases (hM2 x).1 hx2 with ⟨n1', _, hn1', _, hi, _⟩
    rw [hn1] at hn1'; cases hn1'
    exact hi hl
  · rw [List.length_append]; push_cast; rw [hk2, hk1]; ring
  · intro x
    rw [List.mem_append]
    constructor
    · rintro (hx | hx)
      · rcases (hM1 x).1 hx with ⟨n0, n1, h0, hn1, hi, hl⟩
        rcases f2.2.2 x n1 hn1 with ⟨n2, hn2, r2⟩
        exact ⟨n0, n2, h0, hn2, hi, Node.prunedFrom_leaf lr n1 n2 r2 hl⟩
      · rcases (hM2 x).1 hx with ⟨n1, n2, hn1, hn2, hi, hl⟩
        rcases prunedFrom_get lr t0 t1 f1 x n1 hn1 with ⟨n0, h0, r1⟩
        refine ⟨n0, n2, h0, hn2, ?_, hl⟩
        rw [← (Node.prunedFrom_internal lr n0 n1 r1 hi).1]; exact hi
    · rintro ⟨n0, n2, h0, hn2, hi, hl⟩
      rcases three x n0 n2 h0 hn2 with ⟨n1, hn1, r1, r2⟩
      by_cases hl1 : n1.cleft = none
      · exact Or.inl ((hM1 x).2 ⟨n0, n1, h0, hn1, hi, hl1⟩)
      · exact Or.inr ((hM2 x).2 ⟨n1, n2, hn1, hn2, hl1, hl⟩)
  · rw [hd2, hd1, List.append_assoc]
  · rw [List.length_append]; push_cast; rw [hl1, hl2]; ring
  · intro x n0 n2 h0 hn2 hne
    rcases three x n0 n2 h0 hn2 with ⟨n1, hn1, r1, r2⟩
    rw [List.mem_append]
    by_cases hp : n1.parent = n0.parent
    · exact Or.inr (hp2 x n1 n2 hn1 hn2 (by rw [hp]; exact hne))
    · exact Or.inl (hp1 x n0 n1 h0 hn1 hp)
  · intro x n0 n2 h0 hn2 hi hl
    rcases three x n0 n2 h0 hn2 with ⟨n1, hn1, r1, r2⟩
    by_cases hl1 : n1.cleft = none
    · rcases hc1 x n0 n1 h0 hn1 hi hl1 with ⟨l, r, e1, e2, m1, m2⟩
      exact ⟨l, r, e1, e2, List.mem_append_left _ m1, List.mem_append_left _ m2⟩
    · rcases hc2 x n1 n2 hn1 hn2 hl1 hl with ⟨l, r, e1, e2, m1, m2⟩
      have hs := Node.prunedFrom_internal lr n0 n1 r1 hl1
      exact ⟨l, r, by rw [← hs.1]; exact e1, by rw [← hs.2]; exact e2,
        List.mem_append_right _ m1, List.mem_append_right _ m2⟩
  · intro x hx
    rcases List.mem_append.1 hx with hx | hx
    · rcases hr1 x hx with ⟨⟨n1, hn1, hp, hl⟩, p, n0p, n1p, h0p, h1p, hch, hi, hlp⟩
      rcases f2.2.2 x n1 hn1 with ⟨n2, hn2, r2⟩
      rcases f2.2.2 p n1p h1p with ⟨n2p, h2p, r2p⟩
      refine ⟨⟨n2, hn2, ?_, Node.prunedFrom_leaf lr n1 n2 r2 hl⟩, p, n0p, n2p, h0p, h2p, hch, hi,
        Node.prunedFrom_leaf lr n1p n2p r2p hlp⟩
      rcases r2.2.2.1 with e | ⟨e, _⟩
      · rw [e]; exact hp
      · exact e
    · rcases hr2 x hx with ⟨hn2, p, n1p, n2p, h1p, h2p, hch, hi, hlp⟩
      rcases prunedFrom_get lr t0 t1 f1 p n1p h1p with ⟨n0p, h0p, r1p⟩
      have hs := Node.prunedFrom_internal lr n0p n1p r1p hi
      refine ⟨hn2, p, n0p, n2p, h0p, h2p, ?_, ?_, hlp⟩
      · rw [← hs.1, ← hs.2]; exact hch
      · rw [← hs.1]; exact hi

theorem WalkRel_collapse [Mul F] (lr : F) (t t2 : RegTree F) (k : Int) (pid : Nat)
    (pn : Node F) (hpn : t.nodes[pid]? = some pn)
    (h : (t.setNode pid (bump pn)).ChangeToLeaf pid (lr * pn.stat.base_weight) = .ok t2) :
    WalkRel lr t k t2 (k + 2) := by
  have hfr : RegTree.prunedFrom lr t t2 := by
    have hb := prunedFrom_bump lr t pid pn hpn
    have hget : (t.setNode pid (bump pn)).nodes[pid]? = some (bump pn) := by
      rw [setNode_getElem?]; simp [lt_of_getElem?_eq_some hpn]
    exact RegTree.prunedFrom_trans _ _ _ _ hb
      (prunedFrom_ChangeToLeaf lr _ t2 pid (bump pn) hget h)
  rcases collapseStep_of_ok hpn h with ⟨cl, cr, nl, nr, cs⟩
  have hicl : pn.cleft ≠ none := by rw [cs.hcl]; simp
  refine ⟨hfr, ⟨[pid], List.nodup_singleton pid, by simp, ?_⟩,
    ⟨[cl, cr], cs.deleted, by simp, ?_, ?_, ?_⟩⟩
  · intro x
    rw [List.mem_singleton]
    constructor
    · intro hx
      subst hx
      exact ⟨pn, _, hpn, cs.get_pid, hicl, rfl⟩
    · rintro ⟨n0, n, h0, hn, hi, hl⟩
      by_contra hne
      rcases cs.cases x n hn with ⟨e, _⟩ | ⟨_, n', hn', hl', _⟩ | ⟨_, _, _, hn'⟩
      · exact hne e
      · rw [h0] at hn'; cases hn'; exact hi hl'
      · rw [h0] at hn'; cases hn'; exact hi hl
  · intro x n0 n h0 hn hne
    rcases cs.cases x n hn with ⟨e, e2⟩ | ⟨hx, _⟩ | ⟨_, _, _, hn'⟩
    · subst e
      rw [hpn] at h0; cases h0
      subst e2
      exact absurd rfl hne
    · simpa using hx
    · rw [h0] at hn'; cases hn'
      exact absurd rfl hne
  · intro x n0 n h0 hn hi hl
    rcases cs.cases x n hn with ⟨e, _⟩ | ⟨_, n', hn', hl', _⟩ | ⟨_, _, _, hn'⟩
    · subst e
      rw [hpn] at h0; cases h0
      exact ⟨cl, cr, cs.hcl, cs.hcr, by simp, by simp⟩
    · rw [h0] at hn'; cases hn'; exact absurd hl' hi
    · rw [h0] at hn'; cases hn'; exact absurd hl hi
  · intro x hx
    have hx2 : x = cl ∨ x = cr := by simpa using hx
    refine ⟨?_, pid, pn, _, hpn, cs.get_pid, ?_, hicl, rfl⟩
    · rcases hx2 with e | e
      · subst e; exact ⟨_, cs.get_cl, rfl, cs.leafl⟩
      · subst e; exact ⟨_, cs.get_cr, rfl, cs.leafr⟩
    · rcases hx2 with e | e
      · subst e; exact Or.inl cs.hcl
      · subst e; exact Or.inr cs.hcr

theorem TryPruneLeaf_walk [Mul F] (param : TrainParam F) (fuel : Nat) (t t2 : RegTree F)
    (nid : Nat) (depth k k2 : Int)
    (h : TryPruneLeaf param fuel t nid depth k = .ok (t2, k2)) :
    WalkRel param.learning_rate t k t2 k2 := by
  induction fuel generalizing t nid depth k with
  | zero => simp [TryPruneLeaf] at h
  | succ f ih =>
    cases hn : t.nodes[nid]? with
    | none => simp [TryPruneLeaf, hn] at h
    | some n =>
      cases hp : n.parent with
      | none =>
        rw [TryPruneLeaf_root param f t nid n depth k hn hp] at h
        simp only [Except.ok.injEq, Prod.mk.injEq] at h
        rcases h with ⟨rfl, rfl⟩
        exact WalkRel_refl _ _ _
      | some pid =>
        cases hpn : t.nodes[pid]? with
        | none => simp [TryPruneLeaf, hn, hp, hpn] at h
        | some pn =>
          by_cases hgate : pn.stat.leaf_child_cnt + 1 ≥ 2 ∧
              param.need_prune pn.stat.loss_chg (depth - 1) = true
          · rw [TryPruneLeaf_collapse param f t nid pid n pn depth k hn hp hpn
              hgate.1 hgate.2] at h
            cases hc : (t.setNode pid (bump pn)).ChangeToLeaf pid
                (param.learning_rate * pn.stat.base_weight) with
            | error e => simp [hc] at h
            | ok t1 =>
              simp only [hc] at h
              exact WalkRel_trans _ _ _ _ _ _ _
                (WalkRel_collapse param.learning_rate t t1 k pid pn hpn hc)
                (ih t1 pid (depth - 1) (k + 2) h)
          · rw [TryPruneLeaf_stay param f t nid pid n pn depth k hn hp hpn hgate] at h
            simp only [Except.ok.injEq, Prod.mk.injEq] at h
            rcases h with ⟨rfl, rfl⟩
            exact WalkRel_bump param.learning_rate t k pid pn hpn

theorem PruneStep_walk [Mul F] (param : TrainParam F) (st st2 : RegTree F × Int) (nid : Nat)
    (h : PruneStep param st nid = .ok st2) :
    WalkRel param.learning_rate st.1 st.2 st2.1 st2.2 := by
  unfold PruneStep at h
  cases hn : st.1.nodes[nid]? with
  | none => simp [hn] at h
  | some n =>
    simp only [hn] at h
    by_cases hl : n.is_leaf = true
    · simp only [hl, if_true] at h
      cases hd : st.1.GetDepth nid with
      | error e => simp [hd] at h
      | ok d =>
        simp only [hd] at h
        exact TryPruneLeaf_walk param _ st.1 st2.1 nid d st.2 st2.2 h
    · simp only [hl] at h
      cases h
      exact WalkRel_refl _ _ _

theorem PruneVisit_walk [Mul F] (param : TrainParam F) (order : List Nat)
    (st st2 : RegTree F × Int) (h : PruneVisit param order st = .ok st2) :
    WalkRel param.learning_rate st.1 st.2 st2.1 st2.2 := by
  induction order generalizing st with
  | nil => simp [PruneVisit] at h; subst h; exact WalkRel_refl _ _ _
  | cons i rest ih =>
    unfold PruneVisit at h
    cases hs : PruneStep param st i with
    | error e => simp [hs] at h
    | ok s1 =>
      simp only [hs] at h
      exact WalkRel_trans _ _ _ _ _ _ _ (PruneStep_walk param st s1 i hs) (ih s1 h)

theorem DoPruneOrder_walk [Mul F] (param : TrainParam F) (order : List Nat)
    (t t2 : RegTree F) (k : Int) (h : DoPruneOrder param order t = .ok (t2, k)) :
    WalkRel param.learning_rate t 0 t2 k :=
  WalkRel_trans _ _ _ _ _ _ _ (WalkRel_reset _ t 0) (PruneVisit_walk param order _ _ h)

theorem PruneFrame_of_walk [Mul F] (lr : F) (t0 t : RegTree F) (k0 k : Int)
    (h : WalkRel lr t0 k0 t k) : PruneFrame lr t0 t := by
  rcases h with ⟨f, _, ⟨L, hd, _, hp, hc, hr⟩⟩
  have rel : ∀ (x : Nat) (n0 n : Node F), t0.nodes[x]? = some n0 → t.nodes[x]? = some n →
      Node.prunedFrom lr n0 n := by
    intro x n0 n h0 hn
    rcases f.2.2 x n0 h0 with ⟨n', hn', r⟩
    rw [hn] at hn'; cases hn'
    exact r
  refine ⟨f.1, f.2.1, ?_, L, hd, ?_, ?_, ?_, ?_⟩
  · intro x n0 h0
    rcases f.2.2 x n0 h0 with ⟨n, hn, r⟩
    exact ⟨n, hn, r.1, r.2.1⟩
  · intro x n0 n h0 hn hx
    have e : n.parent = n0.parent := by
      by_contra hne
      exact hx (hp x n0 n h0 hn hne)
    exact ⟨e, by simp [Node.is_root, e]⟩
  · intro x n0 n h0 hn hkeep
    rcases (rel x n0 n h0 hn).2.2.2 with ⟨e1, e2, e3⟩ | ⟨e1, e2, _, _⟩
    · exact ⟨by simp [Node.is_leaf, e1], e1, e2, e3⟩
    · rcases hkeep with hk | hk
      · simp [Node.is_leaf] at hk
        exact absurd hk e1
      · simp [Node.is_leaf, e2] at hk
  · intro x n0 n h0 hn hi hl
    have hi2 : n0.cleft ≠ none := by
      intro e; simp [Node.is_leaf, e] at hi
    have hl2 : n.cleft = none := by
      simpa [Node.is_leaf] using hl
    rcases (rel x n0 n h0 hn).2.2.2 with ⟨e1, _, _⟩ | ⟨_, e2, e3, e4⟩
    · rw [e1] at hl2; exact absurd hl2 hi2
    · exact ⟨e2, e3, e4, hc x n0 n h0 hn hi2 hl2⟩
  · intro x hx
    rcases (hr x hx).2 with ⟨p, n0p, np, h0p, hnp, hch, hi, hl⟩
    refine ⟨p, n0p, np, h0p, hnp, hch, ?_, ?_⟩
    · cases hcl : n0p.cleft with
      | none => exact absurd hcl hi
      | some c => simp [Node.is_leaf, hcl]
    · simp [Node.is_leaf, hl]

/-- C14 (statistics frame): on any arena, the tree a completed pass of
`DoPrune` returns stands in the relation `PruneFrame` to the input tree, and so
does the tree returned by any call of `TryPruneLeaf` to the tree the call was
given: `loss_chg` and `base_weight` of every slot are unchanged; a slot that is
not among the removed ones keeps its parent link and its root flag; a slot
that is not collapsed keeps its leaf flag, its child links and its leaf value;
a collapsed slot has lost its child links, has the value
`learning_rate * base_weight`, and its two children are among the removed
slots; and only children of collapsed nodes are removed. -/
theorem DoPrune_statistics_frame [Mul F] (param : TrainParam F) (t t2 : RegTree F) (k : Int)
    (h : DoPrune param t = .ok (t2, k)) :
    PruneFrame param.learning_rate t t2 ∧
    ∀ (fuel : Nat) (tree tree2 : RegTree F) (nid : Nat) (depth npruned k2 : Int),
      TryPruneLeaf param fuel tree nid depth npruned = .ok (tree2, k2) →
      PruneFrame param.learning_rate tree tree2 :=
  ⟨PruneFrame_of_walk _ _ _ _ _ (DoPruneOrder_walk param _ t t2 k h),
   fun fuel tree tree2 nid depth npruned k2 hrun =>
    PruneFrame_of_walk _ _ _ _ _ (TryPruneLeaf_walk param fuel tree tree2 nid depth npruned k2 hrun)⟩

/-- Witness of C14: the pass over `chainTree`. -/
theorem DoPrune_statistics_frame_witness :
    DoPrune belowOne chainTree = .ok (chainTreePruned, 4) ∧
    PruneFrame belowOne.learning_rate chainTree chainTreePruned :=
  ⟨by decide, (DoPrune_statistics_frame belowOne chainTree chainTreePruned 4 (by decide)).1⟩

theorem mem_collapsedSlots (t0 t : RegTree F) (x : Nat) :
    x ∈ collapsedSlots t0 t ↔ ∃ (n0 n : Node F),
      t0.nodes[x]? = some n0 ∧ t.nodes[x]? = some n ∧ n0.cleft ≠ none ∧ n.cleft = none := by
  unfold collapsedSlots
  rw [List.mem_filter, List.mem_range]
  constructor
  · rintro ⟨_, hx⟩
    cases h0 : t0.nodes[x]? with
    | none => simp [h0] at hx
    | some n0 =>
      cases hn : t.nodes[x]? with
      | none => simp [h0, hn] at hx
      | some n =>
        simp only [h0, hn, Bool.and_eq_true, Bool.not_eq_true', Node.is_leaf] at hx
        refine ⟨n0, n, rfl, rfl, ?_, ?_⟩
        · intro e; rw [e] at hx; simp at hx
        · simpa using hx.2
  · rintro ⟨n0, n, h0, hn, hi, hl⟩
    refine ⟨lt_of_getElem?_eq_some h0, ?_⟩
    simp only [h0, hn, Bool.and_eq_true, Bool.not_eq_true', Node.is_leaf]
    refine ⟨?_, by simp [hl]⟩
    cases hc : n0.cleft with
    | none => exact absurd hc hi
    | some c => rfl

theorem mem_removedSlots (t0 t : RegTree F) (x : Nat) :
    x ∈ removedSlots t0 t ↔ ∃ (n0 n : Node F) (p : Nat),
      t0.nodes[x]? = some n0 ∧ t.nodes[x]? = some n ∧ n0.parent = some p ∧ n.parent = none := by
  unfold removedSlots
  rw [List.mem_filter, List.mem_range]
  constructor
  · rintro ⟨_, hx⟩
    cases h0 : t0.nodes[x]? with
    | none => simp [h0] at hx
    | some n0 =>
      cases hn : t.nodes[x]? with
      | none => simp [h0, hn] at hx
      | some n =>
        simp only [h0, hn, Bool.and_eq_true, Bool.not_eq_true', Node.is_root] at hx
        cases hp : n0.parent with
        | none => rw [hp] at hx; simp at hx
        | some p => exact ⟨n0, n, p, rfl, rfl, hp, by simpa using hx.2⟩
  · rintro ⟨n0, n, p, h0, hn, hp, hl⟩
    refine ⟨lt_of_getElem?_eq_some h0, ?_⟩
    simp [h0, hn, Node.is_root, hp, hl]

theorem collapsedSlots_nodup (t0 t : RegTree F) : (collapsedSlots t0 t).Nodup :=
  List.Nodup.filter _ (List.nodup_range _)

theorem removedSlots_nodup (t0 t : RegTree F) : (removedSlots t0 t).Nodup :=
  List.Nodup.filter _ (List.nodup_range _)

theorem WalkRel_count [Mul F] (lr : F) (t0 t : RegTree F) (k0 k : Int)
    (h : WalkRel lr t0 k0 t k) :
    k = k0 + 2 * ((collapsedSlots t0 t).length : Int) ∧
    t.deleted_nodes.length = t0.deleted_nodes.length + 2 * (collapsedSlots t0 t).length := by
  rcases h with ⟨_, ⟨M, nd, hk, hM⟩, ⟨L, hd, hl, _⟩⟩
  have hperm : M.Perm (collapsedSlots t0 t) :=
    (List.perm_ext_iff_of_nodup nd (collapsedSlots_nodup t0 t)).2
      (fun x => by rw [hM x, mem_collapsedSlots])
  rw [← hperm.length_eq]
  refine ⟨hk, ?_⟩
  rw [hd, List.length_append]
  omega

/-- C15 (pruned-count accounting): a call of `TryPruneLeaf` that returns, on
any arena, returns `npruned + 2 * c` where `c` is the number of slots that were
internal nodes before the call and are leaves after it; and when `DoPrune` has
completed on a well-formed tree, its count is twice the number of nodes
collapsed in the pass, which is the number of node slots removed by the pass
and the number of entries the pass has appended to `deleted_nodes`. -/
theorem DoPrune_count_accounting [Mul F] (param : TrainParam F) (t t2 : RegTree F) (k : Int)
    (hwf : t.wellFormed = true) (h : DoPrune param t = .ok (t2, k)) :
    k = 2 * ((collapsedSlots t t2).length : Int) ∧
    k = ((removedSlots t t2).length : Int) ∧
    t2.deleted_nodes.length = t.deleted_nodes.length + (removedSlots t t2).length ∧
    ∀ (fuel : Nat) (tree tree2 : RegTree F) (nid : Nat) (depth npruned k2 : Int),
      TryPruneLeaf param fuel tree nid depth npruned = .ok (tree2, k2) →
      k2 = npruned + 2 * ((collapsedSlots tree tree2).length : Int) := by
  have hw := WF_of_wellFormed t hwf
  have hc := WalkRel_count _ _ _ _ _ (DoPruneOrder_walk param _ t t2 k h)
  rcases DoPruneOrder_rel param _ t t2 k hw h with ⟨_, _, ⟨L, hdel, hk, nd, hmem⟩, _⟩
  have hperm : L.Perm (removedSlots t t2) :=
    (List.perm_ext_iff_of_nodup nd (removedSlots_nodup t t2)).2
      (fun x => by rw [hmem x, mem_removedSlots])
  have hk2 : k = ((removedSlots t t2).length : Int) := by
    rw [← hperm.length_eq, hk]; simp
  refine ⟨by simpa using hc.1, hk2, ?_, ?_⟩
  · rw [hdel, List.length_append, hperm.length_eq]
  · intro fuel tree tree2 nid depth npruned k2 hrun
    exact (WalkRel_count _ _ _ _ _
      (TryPruneLeaf_walk param fuel tree tree2 nid depth npruned k2 hrun)).1

/-- Witness of C15: the pass over `chainTree` collapses two nodes and removes
four slots. -/
theorem DoPrune_count_accounting_witness :
    DoPrune belowOne chainTree = .ok (chainTreePruned, 4) ∧
    (4 : Int) = 2 * ((collapsedSlots chainTree chainTreePruned).length : Int) ∧
    (4 : Int) = ((removedSlots chainTree chainTreePruned).length : Int) ∧
    collapsedSlots chainTree chainTreePruned = [0, 1] ∧
    removedSlots chainTree chainTreePruned = [1, 2, 3, 4] :=
  ⟨by decide,
   (DoPrune_count_accounting belowOne chainTree chainTreePruned 4 (by decide) (by decide)).1,
   (DoPrune_count_accounting belowOne chainTree chainTreePruned 4 (by decide) (by decide)).2.1,
   by decide, by decide⟩

/-! ## Termination of the walker -/

/-- Resetting parent links to the sentinel can only shorten a parent chain. -/
theorem GetDepthLoop_truncate (t t2 : RegTree F)
    (hsame : ∀ (i : Nat) (n : Node F), t.nodes[i]? = some n →
      ∃ n2 : Node F, t2.nodes[i]? = some n2 ∧ (n2.parent = n.parent ∨ n2.parent = none))
    (fuel : Nat) (i : Nat) (acc d : Int) (h : t.GetDepthLoop fuel i acc = .ok d) :
    ∃ d2 : Int, t2.GetDepthLoop fuel i acc = .ok d2 ∧ acc ≤ d2 ∧ d2 ≤ d := by
  induction fuel generalizing i acc with
  | zero => simp [RegTree.GetDepthLoop] at h
  | succ f ih =>
    have hb := GetDepthLoop_bounds t (f + 1) i acc d h
    unfold RegTree.GetDepthLoop at h ⊢
    cases hn : t.nodes[i]? with
    | none => simp [hn] at h
    | some n =>
      rcases hsame i n hn with ⟨n2, hn2, hp2⟩
      simp only [hn] at h
      simp only [hn2]
      cases hp : n.parent with
      | none =>
        have e : n2.parent = none := by
          rcases hp2 with e | e
          · rw [e, hp]
          · exact e
        simp only [hp] at h
        simp only [e]
        exact ⟨acc, rfl, le_refl _, hb.1⟩
      | some p =>
        simp only [hp] at h
        rcases hp2 with e | e
        · rw [hp] at e
          simp only [e]
          rcases ih p (acc + 1) h with ⟨d2, h2, l1, l2⟩
          exact ⟨d2, h2, by omega, l2⟩
        · simp only [e]
          have := GetDepthLoop_bounds t f p (acc + 1) d h
          exact ⟨acc, rfl, le_refl _, by omega⟩

theorem prunedFrom_parent [Mul F] (lr : F) (t t2 : RegTree F) (h : RegTree.prunedFrom lr t t2)
    (i : Nat) (n : Node F) (hn : t.nodes[i]? = some n) :
    ∃ n2 : Node F, t2.nodes[i]? = some n2 ∧ (n2.parent = n.parent ∨ n2.parent = none) := by
  rcases h.2.2 i n hn with ⟨n2, hn2, r⟩
  refine ⟨n2, hn2, ?_⟩
  rcases r.2.2.1 with e | ⟨e, _⟩
  · exact Or.inl e
  · exact Or.inr e

theorem ChangeToLeaf_fault (t : RegTree F) (rid : Nat) (v : F) :
    t.ChangeToLeaf rid v ≠ .error .outOfFuel := by
  intro h
  cases hc : t.ChangeToLeaf rid v with
  | ok t2 => rw [hc] at h; cases h
  | error e =>
    rw [hc] at h
    cases h
    unfold RegTree.ChangeToLeaf at hc
    split at hc
    · cases hc
    · split at hc
      · split at hc
        · split at hc
          · simp only at hc
            split at hc <;> cases hc
          · cases hc
        · cases hc
      · cases hc

/-- The walker started at a slot whose parent chain has `dn` links makes at
most `dn` recursive calls and at most `dn` collapses, whatever its depth
argument is. -/
theorem TryPruneLeaf_fuel [Mul F] (param : TrainParam F) (dn : Nat) :
    ∀ (t : RegTree F) (nid f : Nat) (depth k : Int),
      t.GetDepthLoop f nid 0 = .ok (dn : Int) →
      (∀ fuel : Nat, dn < fuel →
        TryPruneLeaf param fuel t nid depth k = TryPruneLeaf param (dn + 1) t nid depth k) ∧
      TryPruneLeaf param (dn + 1) t nid depth k ≠ .error .outOfFuel ∧
      ∀ (t2 : RegTree F) (k2 : Int), TryPruneLeaf param (dn + 1) t nid depth k = .ok (t2, k2) →
        k ≤ k2 ∧ k2 ≤ k + 2 * (dn : Int) := by
  induction dn using Nat.strong_induction_on with
  | _ dn ih =>
    intro t nid f depth k hd
    cases f with
    | zero => simp [RegTree.GetDepthLoop] at hd
    | succ f =>
      unfold RegTree.GetDepthLoop at hd
      cases hn : t.nodes[nid]? with
      | none => simp [hn] at hd
      | some n =>
        simp only [hn] at hd
        cases hp : n.parent with
        | none =>
          refine ⟨?_, ?_, ?_⟩
          · intro fuel hf
            obtain ⟨g, rfl⟩ : ∃ g, fuel = g + 1 := ⟨fuel - 1, by omega⟩
            rw [TryPruneLeaf_root param g t nid n depth k hn hp,
              TryPruneLeaf_root param dn t nid n depth k hn hp]
          · rw [TryPruneLeaf_root param dn t nid n depth k hn hp]; simp
          · intro t2 k2 h2
            rw [TryPruneLeaf_root param dn t nid n depth k hn hp] at h2
            simp only [Except.ok.injEq, Prod.mk.injEq] at h2
            rcases h2 with ⟨_, rfl⟩
            omega
        | some pid =>
          simp only [hp] at hd
          have hb := GetDepthLoop_bounds t f pid (0 + 1) dn hd
          have hd0 : t.GetDepthLoop f pid 0 = .ok ((dn : Int) - 1) := by
            rw [GetDepthLoop_shift] at hd
            cases hq : t.GetDepthLoop f pid 0 with
            | error e => simp [hq, Except.map] at hd
            | ok q =>
              simp only [hq, Except.map, Except.ok.injEq] at hd
              congr 1; omega
          cases hpn : t.nodes[pid]? with
          | none =>
            cases f with
            | zero => simp [RegTree.GetDepthLoop] at hd0
            | succ f => simp [RegTree.GetDepthLoop, hpn] at hd0
          | some pn =>
            by_cases hgate : pn.stat.leaf_child_cnt + 1 ≥ 2 ∧
                param.need_prune pn.stat.loss_chg (depth - 1) = true
            · cases hc : (t.setNode pid (bump pn)).ChangeToLeaf pid
                  (param.learning_rate * pn.stat.base_weight) with
              | error e =>
                have hne : e ≠ .outOfFuel := by
                  intro he
                  rw [he] at hc
                  exact ChangeToLeaf_fault _ _ _ hc
                refine ⟨?_, ?_, ?_⟩
                · intro fuel hf
                  obtain ⟨g, rfl⟩ : ∃ g, fuel = g + 1 := ⟨fuel - 1, by omega⟩
                  rw [TryPruneLeaf_collapse param g t nid pid n pn depth k hn hp hpn
                    hgate.1 hgate.2,
                    TryPruneLeaf_collapse param dn t nid pid n pn depth k hn hp hpn
                    hgate.1 hgate.2]
                  simp only [hc]
                · rw [TryPruneLeaf_collapse param dn t nid pid n pn depth k hn hp hpn
                    hgate.1 hgate.2]
                  simp only [hc]
                  intro h; cases h; exact hne rfl
                · intro t2 k2 h2
                  rw [TryPruneLeaf_collapse param dn t nid pid n pn depth k hn hp hpn
                    hgate.1 hgate.2] at h2
                  simp [hc] at h2
              | ok t1 =>
                have hfr : RegTree.prunedFrom param.learning_rate t t1 := by
                  have hb1 := prunedFrom_bump param.learning_rate t pid pn hpn
                  have hget : (t.setNode pid (bump pn)).nodes[pid]? = some (bump pn) := by
                    rw [setNode_getElem?]; simp [lt_of_getElem?_eq_some hpn]
                  exact RegTree.prunedFrom_trans _ _ _ _ hb1
                    (prunedFrom_ChangeToLeaf param.learning_rate _ t1 pid (bump pn) hget hc)
                rcases GetDepthLoop_truncate t t1 (prunedFrom_parent _ t t1 hfr) f pid 0 _ hd0
                  with ⟨d2, hd2, l1, l2⟩
                obtain ⟨m, rfl⟩ : ∃ m : Nat, d2 = (m : Int) := ⟨d2.toNat, by omega⟩
                have hm : m < dn := by omega
                rcases ih m hm t1 pid f (depth - 1) (k + 2) hd2 with ⟨i1, i2, i3⟩
                refine ⟨?_, ?_, ?_⟩
                · intro fuel hf
                  obtain ⟨g, rfl⟩ : ∃ g, fuel = g + 1 := ⟨fuel - 1, by omega⟩
                  rw [TryPruneLeaf_collapse param g t nid pid n pn depth k hn hp hpn
                    hgate.1 hgate.2,
                    TryPruneLeaf_collapse param dn t nid pid n pn depth k hn hp hpn
                    hgate.1 hgate.2]
                  simp only [hc]
                  rw [i1 g (by omega), i1 dn hm]
                · rw [TryPruneLeaf_collapse param dn t nid pid n pn depth k hn hp hpn
                    hgate.1 hgate.2]
                  simp only [hc]
                  rw [i1 dn hm]
                  exact i2
                · intro t2 k2 h2
                  rw [TryPruneLeaf_collapse param dn t nid pid n pn depth k hn hp hpn
                    hgate.1 hgate.2] at h2
                  simp only [hc] at h2
                  rw [i1 dn hm] at h2
                  have := i3 t2 k2 h2
                  omega
            · refine ⟨?_, ?_, ?_⟩
              · intro fuel hf
                obtain ⟨g, rfl⟩ : ∃ g, fuel = g + 1 := ⟨fuel - 1, by omega⟩
                rw [TryPruneLeaf_stay param g t nid pid n pn depth k hn hp hpn hgate,
                  TryPruneLeaf_stay param dn t nid pid n pn depth k hn hp hpn hgate]
              · rw [TryPruneLeaf_stay param dn t nid pid n pn depth k hn hp hpn hgate]; simp
              · intro t2 k2 h2
                rw [TryPruneLeaf_stay param dn t nid pid n pn depth k hn hp hpn hgate] at h2
                simp only [Except.ok.injEq, Prod.mk.injEq] at h2
                rcases h2 with ⟨_, rfl⟩
                omega

/-- Every allocated slot reaches a root along its parent chain. -/
theorem acyclic_prunedFrom [Mul F] (lr : F) (t t2 : RegTree F)
    (h : RegTree.prunedFrom lr t t2)
    (hacyc : ∀ (i : Nat) (n : Node F), t.nodes[i]? = some n → ∃ d : Int, t.GetDepth i = .ok d) :
    ∀ (i : Nat) (n : Node F), t2.nodes[i]? = some n → ∃ d : Int, t2.GetDepth i = .ok d := by
  intro i n2 hn2
  rcases prunedFrom_get lr t t2 h i n2 hn2 with ⟨n, hn, _⟩
  rcases hacyc i n hn with ⟨d, hd⟩
  unfold RegTree.GetDepth RegTree.num_nodes at hd ⊢
  rw [h.1]
  rcases GetDepthLoop_truncate t t2 (prunedFrom_parent lr t t2 h) _ i 0 d hd with ⟨d2, h2, _⟩
  exact ⟨d2, h2⟩

theorem PruneStep_fuel [Mul F] (param : TrainParam F) (st : RegTree F × Int) (nid : Nat)
    (hacyc : ∀ (i : Nat) (n : Node F), st.1.nodes[i]? = some n →
      ∃ d : Int, st.1.GetDepth i = .ok d) :
    PruneStep param st nid ≠ .error .outOfFuel := by
  unfold PruneStep
  cases hn : st.1.nodes[nid]? with
  | none => simp
  | some n =>
    simp only
    by_cases hl : n.is_leaf = true
    · simp only [hl, if_true]
      rcases hacyc nid n hn with ⟨d, hd⟩
      simp only [hd]
      have hb := GetDepth_bounds st.1 nid d hd
      obtain ⟨m, rfl⟩ : ∃ m : Nat, d = (m : Int) := ⟨d.toNat, by omega⟩
      rcases TryPruneLeaf_fuel param m st.1 nid _ (m : Int) st.2 hd with ⟨i1, i2, _⟩
      rw [i1 (st.1.num_nodes + 1) (by unfold RegTree.num_nodes; omega)]
      exact i2
    · simp [hl]

theorem PruneVisit_fuel [Mul F] (param : TrainParam F) (order : List Nat)
    (st : RegTree F × Int)
    (hacyc : ∀ (i : Nat) (n : Node F), st.1.nodes[i]? = some n →
      ∃ d : Int, st.1.GetDepth i = .ok d) :
    PruneVisit param order st ≠ .error .outOfFuel := by
  induction order generalizing st with
  | nil => simp [PruneVisit]
  | cons i rest ih =>
    unfold PruneVisit
    cases hs : PruneStep param st i with
    | error e =>
      simp only
      intro h
      cases h
      exact PruneStep_fuel param st i hacyc hs
    | ok s1 =>
      simp only
      exact ih s1 (acyclic_prunedFrom _ st.1 s1.1 (PruneStep_frame param st s1 i hs) hacyc)

/-! ## A parent chain that ends is shorter than the arena -/

/-- The depth loop needs no more steps than the depth it returns. -/
theorem GetDepthLoop_any_fuel (t : RegTree F) (f f2 : Nat) (i : Nat) (acc d : Int)
    (h : t.GetDepthLoop f i acc = .ok d) (hf : d - acc < f2) :
    t.GetDepthLoop f2 i acc = .ok d := by
  induction f generalizing f2 i acc with
  | zero => simp [RegTree.GetDepthLoop] at h
  | succ g ih =>
    have hb := GetDepthLoop_bounds t (g + 1) i acc d h
    obtain ⟨g2, rfl⟩ : ∃ g2, f2 = g2 + 1 := ⟨f2 - 1, by omega⟩
    unfold RegTree.GetDepthLoop at h ⊢
    cases hn : t.nodes[i]? with
    | none => simp [hn] at h
    | some n =>
      simp only [hn] at h ⊢
      cases hp : n.parent with
      | none => simp only [hp] at h ⊢; exact h
      | some p =>
        simp only [hp] at h ⊢
        exact ih g2 p (acc + 1) h (by push_cast at hf ⊢; omega)

/-- Below a chain of `d` links there is a slot at every distance up to `d`
from the root. -/
theorem GetDepthLoop_levels (t : RegTree F) (f : Nat) (i : Nat) (d : Nat)
    (h : t.GetDepthLoop f i 0 = .ok (d : Int)) (j : Nat) (hj : j ≤ d) :
    ∃ (x g : Nat), x < t.nodes.length ∧ t.GetDepthLoop g x 0 = .ok (j : Int) := by
  induction f generalizing i d with
  | zero => simp [RegTree.GetDepthLoop] at h
  | succ g ih =>
    by_cases hjd : j = d
    · subst hjd
      refine ⟨i, g + 1, ?_, h⟩
      unfold RegTree.GetDepthLoop at h
      cases hn : t.nodes[i]? with
      | none => simp [hn] at h
      | some n => exact lt_of_getElem?_eq_some hn
    · have hh := h
      unfold RegTree.GetDepthLoop at h
      cases hn : t.nodes[i]? with
      | none => simp [hn] at h
      | some n =>
        simp only [hn] at h
        cases hp : n.parent with
        | none =>
          simp only [hp, Except.ok.injEq] at h
          omega
        | some p =>
          simp only [hp] at h
          rw [GetDepthLoop_shift] at h
          cases hq : t.GetDepthLoop g p 0 with
          | error e => simp [hq, Except.map] at h
          | ok q =>
            simp only [hq, Except.map, Except.ok.injEq] at h
            have hq0 := (GetDepthLoop_bounds t g p 0 q hq).1
            obtain ⟨m, rfl⟩ : ∃ m : Nat, q = (m : Int) := ⟨q.toNat, by omega⟩
            exact ih p m hq (by omega)

/-- A parent chain that reaches a root has fewer links than the arena has
slots, so `GetDepth` returns its length. -/
theorem GetDepth_of_chain (t : RegTree F) (f : Nat) (i : Nat) (d : Int)
    (h : t.GetDepthLoop f i 0 = .ok d) : t.GetDepth i = .ok d := by
  have hb := GetDepthLoop_bounds t f i 0 d h
  obtain ⟨m, rfl⟩ : ∃ m : Nat, d = (m : Int) := ⟨d.toNat, by omega⟩
  have hlev := GetDepthLoop_levels t f i m h
  choose x g hx hg using hlev
  have hinj : ∀ (a b : Nat) (ha : a ≤ m) (hb : b ≤ m), x a ha = x b hb → a = b := by
    intro a b ha hb e
    have h1 := hg a ha
    have h2 := hg b hb
    rw [e] at h1
    have h1b := GetDepthLoop_bounds _ _ _ _ _ h1
    have h2b := GetDepthLoop_bounds _ _ _ _ _ h2
    have h3 := GetDepthLoop_any_fuel t _ (g b hb + g a ha) _ 0 _ h1 (by omega)
    have h4 := GetDepthLoop_any_fuel t _ (g b hb + g a ha) _ 0 _ h2 (by omega)
    rw [h3] at h4
    simp only [Except.ok.injEq, Nat.cast_inj] at h4
    exact h4
  have hcard : m + 1 ≤ t.nodes.length := by
    let φ : Fin (m + 1) → Fin t.nodes.length :=
      fun a => ⟨x a.1 (Nat.lt_succ_iff.1 a.2), hx a.1 (Nat.lt_succ_iff.1 a.2)⟩
    have hφ : Function.Injective φ := by
      intro a b e
      have e2 : x a.1 (Nat.lt_succ_iff.1 a.2) = x b.1 (Nat.lt_succ_iff.1 b.2) :=
        congrArg Fin.val e
      exact Fin.ext (hinj _ _ _ _ e2)
    simpa using Fintype.card_le_of_injective φ hφ
  unfold RegTree.GetDepth RegTree.num_nodes
  exact GetDepthLoop_any_fuel t f _ i 0 _ h (by push_cast; omega)

/-- C11 (termination): on an arena in which every slot reaches a root after
finitely many parent steps, the walker started at any slot `nid`, with any
depth argument and any count, ends within `dn + 1` calls, where `dn` is the
number of parent links from `nid` to its root (the value of `GetDepth`): the
outcome is the same for every bound above `dn` and is not the fault of an
exhausted bound; a call that returns has collapsed at most `dn` nodes; and the
bounds `DoPrune` runs its loops with are never exhausted. -/
theorem TryPruneLeaf_terminates [Mul F] (param : TrainParam F) (t : RegTree F)
    (hacyc : ∀ (i : Nat) (n : Node F), t.nodes[i]? = some n →
      ∃ (f : Nat) (d : Int), t.GetDepthLoop f i 0 = .ok d) :
    (∀ (nid : Nat) (n : Node F), t.nodes[nid]? = some n →
      ∃ dn : Nat, t.GetDepth nid = .ok (dn : Int) ∧
        ∀ depth npruned : Int,
          (∀ fuel : Nat, dn < fuel → TryPruneLeaf param fuel t nid depth npruned =
            TryPruneLeaf param (dn + 1) t nid depth npruned) ∧
          TryPruneLeaf param (dn + 1) t nid depth npruned ≠ .error .outOfFuel ∧
          ∀ (t2 : RegTree F) (k2 : Int),
            TryPruneLeaf param (dn + 1) t nid depth npruned = .ok (t2, k2) →
            npruned ≤ k2 ∧ k2 ≤ npruned + 2 * (dn : Int)) ∧
    DoPrune param t ≠ .error .outOfFuel := by
  have hacyc2 : ∀ (i : Nat) (n : Node F), t.nodes[i]? = some n →
      ∃ d : Int, t.GetDepth i = .ok d := by
    intro i n hn
    rcases hacyc i n hn with ⟨f, d, h⟩
    exact ⟨d, GetDepth_of_chain t f i d h⟩
  constructor
  · intro nid n hn
    rcases hacyc2 nid n hn with ⟨d, hd⟩
    have hb := GetDepth_bounds t nid d hd
    obtain ⟨m, rfl⟩ : ∃ m : Nat, d = (m : Int) := ⟨d.toNat, by omega⟩
    exact ⟨m, hd, fun depth npruned => TryPruneLeaf_fuel param m t nid _ depth npruned hd⟩
  · unfold DoPrune DoPruneOrder
    exact PruneVisit_fuel param _ _
      (acyclic_prunedFrom param.learning_rate t _ (prunedFrom_reset _ t) hacyc2)

/-- Witness of C11: `chainTree`, and the walker started at the leaf 3 with a
depth argument that is not the depth of the leaf. -/
theorem TryPruneLeaf_terminates_witness :
    DoPrune belowOne chainTree ≠ .error .outOfFuel ∧
    TryPruneLeaf belowOne 3 chainTree 3 (-5) 0 = TryPruneLeaf belowOne 6 chainTree 3 (-5) 0 :=
  ⟨(TryPruneLeaf_terminates belowOne chainTree
      (fun i n hn => Exists.elim ((WF_of_wellFormed chainTree (by decide)).depth i n hn)
        (fun d hd => ⟨chainTree.num_nodes + 1, d, hd⟩))).2, by decide⟩

/-! ## The depth argument of the walker -/

theorem TryPruneLeafTrace_none [Mul F] (param : TrainParam F) (fuel : Nat)
    (tree : RegTree F) (nid : Nat) (depth npruned : Int) (hn : tree.nodes[nid]? = none) :
    TryPruneLeafTrace param fuel tree nid depth npruned =
      ([.call tree nid depth],
        TryPruneLeaf param fuel tree nid depth npruned) := by
  cases fuel with
  | zero => simp [TryPruneLeafTrace, TryPruneLeaf]
  | succ f => simp [TryPruneLeafTrace, TryPruneLeaf, hn]

theorem TryPruneLeafTrace_root [Mul F] (param : TrainParam F) (fuel : Nat)
    (tree : RegTree F) (nid : Nat) (n : Node F) (depth npruned : Int)
    (hn : tree.nodes[nid]? = some n) (hp : n.parent = none) :
    TryPruneLeafTrace param (fuel + 1) tree nid depth npruned =
      ([.call tree nid depth], .ok (tree, npruned)) := by
  simp [TryPruneLeafTrace, hn, hp]

theorem TryPruneLeafTrace_orphan [Mul F] (param : TrainParam F) (fuel : Nat)
    (tree : RegTree F) (nid pid : Nat) (n : Node F) (depth npruned : Int)
    (hn : tree.nodes[nid]? = some n) (hp : n.parent = some pid)
    (hpn : tree.nodes[pid]? = none) :
    TryPruneLeafTrace param (fuel + 1) tree nid depth npruned =
      ([.call tree nid depth], .error .badIndex) := by
  simp [TryPruneLeafTrace, hn, hp, hpn]

theorem TryPruneLeafTrace_low [Mul F] (param : TrainParam F) (fuel : Nat)
    (tree : RegTree F) (nid pid : Nat) (n pn : Node F) (depth npruned : Int)
    (hn : tree.nodes[nid]? = some n) (hp : n.parent = some pid)
    (hpn : tree.nodes[pid]? = some pn) (hcnt : ¬ pn.stat.leaf_child_cnt + 1 ≥ 2) :
    TryPruneLeafTrace param (fuel + 1) tree nid depth npruned =
      ([.call tree nid depth], .ok (tree.setNode pid (bump pn), npruned)) := by
  unfold TryPruneLeafTrace
  simp only [hn, hp, hpn]
  rw [if_neg hcnt]
  rfl

theorem TryPruneLeafTrace_keep [Mul F] (param : TrainParam F) (fuel : Nat)
    (tree : RegTree F) (nid pid : Nat) (n pn : Node F) (depth npruned : Int)
    (hn : tree.nodes[nid]? = some n) (hp : n.parent = some pid)
    (hpn : tree.nodes[pid]? = some pn) (hcnt : pn.stat.leaf_child_cnt + 1 ≥ 2)
    (hprune : ¬ param.need_prune pn.stat.loss_chg (depth - 1) = true) :
    TryPruneLeafTrace param (fuel + 1) tree nid depth npruned =
      ([.call tree nid depth, .policy (tree.setNode pid (bump pn)) pid (depth - 1)],
        .ok (tree.setNode pid (bump pn), npruned)) := by
  unfold TryPruneLeafTrace
  simp only [hn, hp, hpn]
  rw [if_pos hcnt, if_neg hprune]
  rfl

theorem TryPruneLeafTrace_collapse [Mul F] (param : TrainParam F) (fuel : Nat)
    (tree : RegTree F) (nid pid : Nat) (n pn : Node F) (depth npruned : Int)
    (hn : tree.nodes[nid]? = some n) (hp : n.parent = some pid)
    (hpn : tree.nodes[pid]? = some pn) (hcnt : pn.stat.leaf_child_cnt + 1 ≥ 2)
    (hprune : param.need_prune pn.stat.loss_chg (depth - 1) = true) :
    TryPruneLeafTrace param (fuel + 1) tree nid depth npruned =
      match (tree.setNode pid (bump pn)).ChangeToLeaf pid
          (param.learning_rate * pn.stat.base_weight) with
      | .error e =>
        ([.call tree nid depth, .policy (tree.setNode pid (bump pn)) pid (depth - 1)],
          .error e)
      | .ok tree2 =>
        (.call tree nid depth :: .policy (tree.setNode pid (bump pn)) pid (depth - 1) ::
          (TryPruneLeafTrace param fuel tree2 pid (depth - 1) (npruned + 2)).1,
         (TryPruneLeafTrace param fuel tree2 pid (depth - 1) (npruned + 2)).2) := by
  conv_lhs => unfold TryPruneLeafTrace
  simp only [hn, hp, hpn]
  rw [if_pos hcnt, if_pos hprune]
  rfl

theorem TryPruneLeafTrace_snd [Mul F] (param : TrainParam F) (fuel : Nat) (t : RegTree F)
    (nid : Nat) (depth k : Int) :
    (TryPruneLeafTrace param fuel t nid depth k).2 = TryPruneLeaf param fuel t nid depth k := by
  induction fuel generalizing t nid depth k with
  | zero => simp [TryPruneLeafTrace, TryPruneLeaf]
  | succ f ih =>
    cases hn : t.nodes[nid]? with
    | none => rw [TryPruneLeafTrace_none param _ t nid depth k hn]
    | some n =>
      cases hp : n.parent with
      | none =>
        rw [TryPruneLeafTrace_root param f t nid n depth k hn hp,
          TryPruneLeaf_root param f t nid n depth k hn hp]
      | some pid =>
        cases hpn : t.nodes[pid]? with
        | none =>
          rw [TryPruneLeafTrace_orphan param f t nid pid n depth k hn hp hpn]
          simp [TryPruneLeaf, hn, hp, hpn]
        | some pn =>
          by_cases h1 : pn.stat.leaf_child_cnt + 1 ≥ 2
          · by_cases h2 : param.need_prune pn.stat.loss_chg (depth - 1) = true
            · rw [TryPruneLeafTrace_collapse param f t nid pid n pn depth k hn hp hpn h1 h2,
                TryPruneLeaf_collapse param f t nid pid n pn depth k hn hp hpn h1 h2]
              cases hc : (t.setNode pid (bump pn)).ChangeToLeaf pid
                  (param.learning_rate * pn.stat.base_weight) with
              | error e => rfl
              | ok t1 => exact ih t1 pid (depth - 1) (k + 2)
            · rw [TryPruneLeafTrace_keep param f t nid pid n pn depth k hn hp hpn h1 h2,
                TryPruneLeaf_stay param f t nid pid n pn depth k hn hp hpn (fun h => h2 h.2)]
          · rw [TryPruneLeafTrace_low param f t nid pid n pn depth k hn hp hpn h1,
              TryPruneLeaf_stay param f t nid pid n pn depth k hn hp hpn (fun h => h1 h.1)]

theorem PruneStepTrace_snd [Mul F] (param : TrainParam F) (st : RegTree F × Int) (nid : Nat) :
    (PruneStepTrace param st nid).2 = PruneStep param st nid := by
  unfold PruneStepTrace PruneStep
  cases hn : st.1.nodes[nid]? with
  | none => rfl
  | some n =>
    simp only
    by_cases hl : n.is_leaf = true
    · simp only [hl, if_true]
      cases hd : st.1.GetDepth nid with
      | error e => rfl
      | ok d => exact TryPruneLeafTrace_snd param _ st.1 nid d st.2
    · simp [hl]

theorem PruneVisitTrace_snd [Mul F] (param : TrainParam F) (order : List Nat)
    (st : RegTree F × Int) :
    (PruneVisitTrace param order st).2 = PruneVisit param order st := by
  induction order generalizing st with
  | nil => simp [PruneVisitTrace, PruneVisit]
  | cons i rest ih =>
    unfold PruneVisitTrace PruneVisit
    rw [← PruneStepTrace_snd]
    rcases hs : PruneStepTrace param st i with ⟨ev, r⟩
    cases r with
    | error e => rfl
    | ok s1 => exact ih s1

/-- The depth convention along one chain of calls: each call is made with the
depth of its node, and the policy is asked at the depth, not negative, of the
node it is asked about. -/
theorem TryPruneLeafTrace_depth [Mul F] (param : TrainParam F) (fuel : Nat) (t : RegTree F)
    (nid : Nat) (depth k : Int) (hw : t.WF) (hd : t.GetDepth nid = .ok depth) :
    (∀ (tree : RegTree F) (x : Nat) (d : Int),
      WalkEvent.call tree x d ∈ (TryPruneLeafTrace param fuel t nid depth k).1 →
      tree.GetDepth x = .ok d) ∧
    (∀ (tree : RegTree F) (x : Nat) (d : Int),
      WalkEvent.policy tree x d ∈ (TryPruneLeafTrace param fuel t nid depth k).1 →
      tree.GetDepth x = .ok d ∧ 0 ≤ d) := by
  induction fuel generalizing t nid depth k with
  | zero =>
    constructor
    · intro tree x d he
      simp only [TryPruneLeafTrace, List.mem_singleton, WalkEvent.call.injEq] at he
      rcases he with ⟨rfl, rfl, rfl⟩
      exact hd
    · intro tree x d he
      simp [TryPruneLeafTrace] at he
  | succ f ih =>
    have hcall : ∀ (tree : RegTree F) (x : Nat) (d : Int),
        WalkEvent.call tree x d = WalkEvent.call t nid depth → tree.GetDepth x = .ok d := by
      intro tree x d he
      simp only [WalkEvent.call.injEq] at he
      rcases he with ⟨rfl, rfl, rfl⟩
      exact hd
    have single : (∀ (tree : RegTree F) (x : Nat) (d : Int),
        WalkEvent.call tree x d ∈ [WalkEvent.call t nid depth] → tree.GetDepth x = .ok d) ∧
        (∀ (tree : RegTree F) (x : Nat) (d : Int),
        WalkEvent.policy tree x d ∈ [WalkEvent.call t nid depth] →
        tree.GetDepth x = .ok d ∧ 0 ≤ d) := by
      constructor
      · intro tree x d he
        exact hcall tree x d (List.mem_singleton.1 he)
      · intro tree x d he
        cases List.mem_singleton.1 he
    cases hn : t.nodes[nid]? with
    | none =>
      rw [TryPruneLeafTrace_none param _ t nid depth k hn]
      exact single
    | some n =>
      cases hp : n.parent with
      | none =>
        rw [TryPruneLeafTrace_root param f t nid n depth k hn hp]
        exact single
      | some pid =>
        cases hpn : t.nodes[pid]? with
        | none =>
          rw [TryPruneLeafTrace_orphan param f t nid pid n depth k hn hp hpn]
          exact single
        | some pn =>
          have hdp : (t.setNode pid (bump pn)).GetDepth pid = .ok (depth - 1) := by
            rw [GetDepth_bump t pid pn hpn]
            exact GetDepth_parent t nid pid n depth hn hp hd
          have hpos : 0 ≤ depth - 1 := (GetDepth_bounds _ _ _ hdp).1
          have hpol : ∀ (tree : RegTree F) (x : Nat) (d : Int),
              WalkEvent.policy tree x d =
                WalkEvent.policy (t.setNode pid (bump pn)) pid (depth - 1) →
              tree.GetDepth x = .ok d ∧ 0 ≤ d := by
            intro tree x d he
            simp only [WalkEvent.policy.injEq] at he
            rcases he with ⟨rfl, rfl, rfl⟩
            exact ⟨hdp, hpos⟩
          have double : (∀ (tree : RegTree F) (x : Nat) (d : Int),
              WalkEvent.call tree x d ∈ [WalkEvent.call t nid depth,
                WalkEvent.policy (t.setNode pid (bump pn)) pid (depth - 1)] →
              tree.GetDepth x = .ok d) ∧
              (∀ (tree : RegTree F) (x : Nat) (d : Int),
              WalkEvent.policy tree x d ∈ [WalkEvent.call t nid depth,
                WalkEvent.policy (t.setNode pid (bump pn)) pid (depth - 1)] →
              tree.GetDepth x = .ok d ∧ 0 ≤ d) := by
            constructor
            · intro tree x d he
              simp only [List.mem_cons, List.mem_singleton, List.not_mem_nil, or_false] at he
              rcases he with he | he
              · exact hcall tree x d he
              · cases he
            · intro tree x d he
              simp only [List.mem_cons, List.mem_singleton, List.not_mem_nil, or_false] at he
              rcases he with he | he
              · cases he
              · exact hpol tree x d he
          by_cases h1 : pn.stat.leaf_child_cnt + 1 ≥ 2
          · by_cases h2 : param.need_prune pn.stat.loss_chg (depth - 1) = true
            · rw [TryPruneLeafTrace_collapse param f t nid pid n pn depth k hn hp hpn h1 h2]
              cases hc : (t.setNode pid (bump pn)).ChangeToLeaf pid
                  (param.learning_rate * pn.stat.base_weight) with
              | error e => exact double
              | ok t1 =>
                simp only [List.mem_cons]
                rcases collapseStep_of_ok hpn hc with ⟨cl, cr, nl, nr, cs⟩
                have hw1 : t1.WF := cs.wf hw
                have hd1 : t1.GetDepth pid = .ok (depth - 1) := by
                  rw [cs.GetDepth_internal hw pid pn cl hpn cs.hcl]
                  exact GetDepth_parent t nid pid n depth hn hp hd
                rcases ih t1 pid (depth - 1) (k + 2) hw1 hd1 with ⟨i1, i2⟩
                constructor
                · intro tree x d he
                  rcases he with he | he | he
                  · exact hcall tree x d he
                  · cases he
                  · exact i1 tree x d he
                · intro tree x d he
                  rcases he with he | he | he
                  · cases he
                  · exact hpol tree x d he
                  · exact i2 tree x d he
            · rw [TryPruneLeafTrace_keep param f t nid pid n pn depth k hn hp hpn h1 h2]
              exact double
          · rw [TryPruneLeafTrace_low param f t nid pid n pn depth k hn hp hpn h1]
            exact single

theorem PruneStepTrace_depth [Mul F] (param : TrainParam F) (st : RegTree F × Int) (nid : Nat)
    (hw : st.1.WF) :
    (∀ (tree : RegTree F) (x : Nat) (d : Int),
      WalkEvent.call tree x d ∈ (PruneStepTrace param st nid).1 → tree.GetDepth x = .ok d) ∧
    (∀ (tree : RegTree F) (x : Nat) (d : Int),
      WalkEvent.policy tree x d ∈ (PruneStepTrace param st nid).1 →
      tree.GetDepth x = .ok d ∧ 0 ≤ d) := by
  unfold PruneStepTrace
  cases hn : st.1.nodes[nid]? with
  | none => simp
  | some n =>
    simp only
    by_cases hl : n.is_leaf = true
    · simp only [hl, if_true]
      cases hd : st.1.GetDepth nid with
      | error e => simp
      | ok d => exact TryPruneLeafTrace_depth param _ st.1 nid d st.2 hw hd
    · simp [hl]

theorem PruneVisitTrace_depth [Mul F] (param : TrainParam F) (order : List Nat)
    (st : RegTree F × Int) (hw : st.1.WF) :
    (∀ (tree : RegTree F) (x : Nat) (d : Int),
      WalkEvent.call tree x d ∈ (PruneVisitTrace param order st).1 → tree.GetDepth x = .ok d) ∧
    (∀ (tree : RegTree F) (x : Nat) (d : Int),
      WalkEvent.policy tree x d ∈ (PruneVisitTrace param order st).1 →
      tree.GetDepth x = .ok d ∧ 0 ≤ d) := by
  induction order generalizing st with
  | nil => simp [PruneVisitTrace]
  | cons i rest ih =>
    unfold PruneVisitTrace
    have hstep := PruneStepTrace_depth param st i hw
    have hsnd := PruneStepTrace_snd param st i
    rcases hs : PruneStepTrace param st i with ⟨ev, r⟩
    rw [hs] at hstep hsnd
    cases r with
    | error e => exact hstep
    | ok s1 =>
      simp only [List.mem_append]
      have hw1 : s1.1.WF := (PruneStep_rel param st s1 i hw hsnd.symm).1
      rcases ih s1 hw1 with ⟨i1, i2⟩
      constructor
      · intro tree x d he
        rcases he with he | he
        · exact hstep.1 tree x d he
        · exact i1 tree x d he
      · intro tree x d he
        rcases he with he | he
        · exact hstep.2 tree x d he
        · exact i2 tree x d he

/-- C12 (depth convention): `DoPruneTrace` is `DoPrune` with a record of the
calls of `TryPruneLeaf` and of the evaluations of `need_prune`. On a
well-formed tree, every call `TryPruneLeaf(tree, nid, depth, _)` of the pass,
initial or recursive, has `depth = GetDepth(nid)` in the tree it is given, and
every evaluation `need_prune(loss_chg[pid], d)` has `d = GetDepth(pid)`, the
depth of the parent itself, which is not negative. This holds for the calls
made before an abort as well. -/
theorem DoPrune_depth_convention [Mul F] (param : TrainParam F) (t : RegTree F)
    (hwf : t.wellFormed = true) :
    (DoPruneTrace param t).2 = DoPrune param t ∧
    (∀ (tree : RegTree F) (nid : Nat) (depth : Int),
      WalkEvent.call tree nid depth ∈ (DoPruneTrace param t).1 →
      tree.GetDepth nid = .ok depth) ∧
    (∀ (tree : RegTree F) (pid : Nat) (d : Int),
      WalkEvent.policy tree pid d ∈ (DoPruneTrace param t).1 →
      tree.GetDepth pid = .ok d ∧ 0 ≤ d) := by
  have hw := WF_reset t (WF_of_wellFormed t hwf)
  exact ⟨PruneVisitTrace_snd param _ _,
    PruneVisitTrace_depth param (List.range t.num_nodes) (t.resetLeafChildCnt, 0) hw⟩

/-- Witness of C12: the pass over `chainTree` makes five calls (the first
component 0) and asks the policy twice (the first component 1), at the depths 1 and 0. -/
theorem DoPrune_depth_convention_witness :
    ((DoPruneTrace belowOne chainTree).1.map fun e =>
      match e with
      | .call _ nid depth => ((0 : Nat), nid, depth)
      | .policy _ pid d => ((1 : Nat), pid, d)) =
      [(0, 2, 1), (0, 3, 2), (0, 4, 2), (1, 1, 1), (0, 1, 1), (1, 0, 0), (0, 0, 0)] ∧
    ∀ (tree : RegTree Int) (pid : Nat) (d : Int),
      WalkEvent.policy tree pid d ∈ (DoPruneTrace belowOne chainTree).1 →
      tree.GetDepth pid = .ok d ∧ 0 ≤ d :=
  ⟨by decide, (DoPrune_depth_convention belowOne chainTree (by decide)).2.2⟩

/-! ## The pass and the recursive bottom-up reference -/

/-- C17 (equivalence with recursive bottom-up pruning), refuted on
`revisitTree` with the policy `belowOne`: the tree is well-formed; the
reference applied at the root 0 keeps the splits at 0 and 1, turns the split
at 6 into a leaf of value `3 * 4`, and so collapses one node (count 2); the
pass of `DoPrune` aborts in `ChangeToLeaf` and produces no tree. The pass that
visits slot 6 before its children completes, and its tree and count are
those of the reference. -/
theorem DoPrune_differs_from_reference :
    revisitTree.wellFormed = true ∧
    revisitTree.toRef (revisitTree.num_nodes + 1) 0 = some
      (.node 0 0 7 (.node 1 1 2 (.leaf 2 1) (.leaf 3 1)) (.node 6 0 4 (.leaf 4 1) (.leaf 5 1))) ∧
    referencePrune belowOne revisitTree 0 = some
      (.node 0 0 7 (.node 1 1 2 (.leaf 2 1) (.leaf 3 1)) (.leaf 6 12), 2) ∧
    DoPrune belowOne revisitTree = .error .nonLeafChild ∧
    DoPruneOrder belowOne [6, 0, 1, 2, 3, 4, 5] revisitTree = .ok (revisitTreePruned, 2) ∧
    revisitTreePruned.toRef (revisitTreePruned.num_nodes + 1) 0 = some
      (.node 0 0 7 (.node 1 1 2 (.leaf 2 1) (.leaf 3 1)) (.leaf 6 12)) := by
  refine ⟨by decide, by decide, by decide, by decide, by decide, by decide⟩

/-! ## Only rejected splits above two leaves are collapsed -/

theorem CollapsedSound_leaves (param : TrainParam F) (t0 t t2 : RegTree F)
    (hs : RegTree.CollapsedSound param t0 t)
    (hleaf : ∀ (j : Nat) (n : Node F), t.nodes[j]? = some n → n.cleft = none →
      ∃ n2 : Node F, t2.nodes[j]? = some n2 ∧ n2.cleft = none)
    (hback : ∀ (j : Nat) (n2 : Node F), t2.nodes[j]? = some n2 → n2.cleft = none →
      ∃ n : Node F, t.nodes[j]? = some n ∧ n.cleft = none) :
    RegTree.CollapsedSound param t0 t2 := by
  intro x n0 n2 h0 h2 hi hl
  rcases hback x n2 h2 hl with ⟨n, hn, hnl⟩
  rcases hs x n0 n h0 hn hi hnl with ⟨hd, hch⟩
  refine ⟨hd, ?_⟩
  intro c hc
  rcases hch c hc with ⟨nc, hnc, hcl⟩
  exact hleaf c nc hnc hcl

theorem CollapsedSound_bump (param : TrainParam F) (t0 t : RegTree F) (pid : Nat)
    (pn : Node F) (hpn : t.nodes[pid]? = some pn) (hs : RegTree.CollapsedSound param t0 t) :
    RegTree.CollapsedSound param t0 (t.setNode pid (bump pn)) := by
  refine CollapsedSound_leaves param t0 t _ hs ?_ ?_
  · intro j n hn hl
    exact (get_bump_leaf t pid pn hpn j).2 ⟨n, hn, hl⟩
  · intro j n2 hn2 hl
    exact (get_bump_leaf t pid pn hpn j).1 ⟨n2, hn2, hl⟩

theorem TryPruneLeaf_sound [Mul F] (param : TrainParam F) (t0 : RegTree F) (fuel : Nat)
    (t t2 : RegTree F) (nid : Nat) (depth k k2 : Int) (hw : t.WF)
    (hf : RegTree.prunedFrom param.learning_rate t0 t)
    (hs : RegTree.CollapsedSound param t0 t) (hd : t.GetDepth nid = .ok depth)
    (hrun : TryPruneLeaf param fuel t nid depth k = .ok (t2, k2)) :
    RegTree.CollapsedSound param t0 t2 := by
  induction fuel generalizing t nid depth k with
  | zero => simp [TryPruneLeaf] at hrun
  | succ f ih =>
    cases hn : t.nodes[nid]? with
    | none => simp [TryPruneLeaf, hn] at hrun
    | some n =>
      cases hp : n.parent with
      | none =>
        rw [TryPruneLeaf_root param f t nid n depth k hn hp] at hrun
        simp only [Except.ok.injEq, Prod.mk.injEq] at hrun
        rcases hrun with ⟨rfl, rfl⟩
        exact hs
      | some pid =>
        cases hpn : t.nodes[pid]? with
        | none => simp [TryPruneLeaf, hn, hp, hpn] at hrun
        | some pn =>
          by_cases hgate : pn.stat.leaf_child_cnt + 1 ≥ 2 ∧
              param.need_prune pn.stat.loss_chg (depth - 1) = true
          · rw [TryPruneLeaf_collapse param f t nid pid n pn depth k hn hp hpn
              hgate.1 hgate.2] at hrun
            cases hc : (t.setNode pid (bump pn)).ChangeToLeaf pid
                (param.learning_rate * pn.stat.base_weight) with
            | error e => simp [hc] at hrun
            | ok t1 =>
              simp only [hc] at hrun
              rcases collapseStep_of_ok hpn hc with ⟨cl, cr, nl, nr, cs⟩
              have hw1 : t1.WF := cs.wf hw
              have hdp : t.GetDepth pid = .ok (depth - 1) :=
                GetDepth_parent t nid pid n depth hn hp hd
              have hd1 : t1.GetDepth pid = .ok (depth - 1) := by
                rw [cs.GetDepth_internal hw pid pn cl hpn cs.hcl]; exact hdp
              have hf1 : RegTree.prunedFrom param.learning_rate t t1 := by
                have hb := prunedFrom_bump param.learning_rate t pid pn hpn
                have hget : (t.setNode pid (bump pn)).nodes[pid]? = some (bump pn) := by
                  rw [setNode_getElem?]; simp [lt_of_getElem?_eq_some hpn]
                exact RegTree.prunedFrom_trans _ _ _ _ hb
                  (prunedFrom_ChangeToLeaf param.learning_rate _ t1 pid (bump pn) hget hc)
              have hleaf : ∀ (j : Nat) (nj : Node F), t.nodes[j]? = some nj → nj.cleft = none →
                  ∃ n2 : Node F, t1.nodes[j]? = some n2 ∧ n2.cleft = none := by
                intro j nj hj hl
                rcases hf1.2.2 j nj hj with ⟨n2, hn2, r⟩
                exact ⟨n2, hn2, Node.prunedFrom_leaf _ nj n2 r hl⟩
              have hs1 : RegTree.CollapsedSound param t0 t1 := by
                intro x n0 n1 h0 h1 hi hl
                rcases cs.cases x n1 h1 with ⟨e, _⟩ | ⟨_, nx, hnx, hlx, _⟩ | ⟨_, _, _, hnx⟩
                · subst e
                  rcases hf.2.2 x n0 h0 with ⟨pn', hpn', r⟩
                  rw [hpn] at hpn'; cases hpn'
                  have hipn : pn.cleft ≠ none := by rw [cs.hcl]; simp
                  have hch := Node.prunedFrom_internal _ n0 pn r hipn
                  refine ⟨⟨depth - 1, ?_, ?_⟩, ?_⟩
                  · rw [GetDepth_kept param.learning_rate t0 t hw hf x pn cl hpn cs.hcl]
                    exact hdp
                  · rw [← r.1]; exact hgate.2
                  · intro c hc0
                    rw [← hch.1, ← hch.2, cs.hcl, cs.hcr] at hc0
                    rcases hc0 with e | e
                    · cases e; exact ⟨_, cs.get_cl, cs.leafl⟩
                    · cases e; exact ⟨_, cs.get_cr, cs.leafr⟩
                · rcases hs x n0 nx h0 hnx hi hlx with ⟨hdx, hch⟩
                  refine ⟨hdx, fun c hc0 => ?_⟩
                  rcases hch c hc0 with ⟨nc, hnc, hcl⟩
                  exact hleaf c nc hnc hcl
                · rcases hs x n0 n1 h0 hnx hi hl with ⟨hdx, hch⟩
                  refine ⟨hdx, fun c hc0 => ?_⟩
                  rcases hch c hc0 with ⟨nc, hnc, hcl⟩
                  exact hleaf c nc hnc hcl
              exact ih t1 pid (depth - 1) (k + 2) hw1
                (RegTree.prunedFrom_trans _ _ _ _ hf hf1) hs1 hd1 hrun
          · rw [TryPruneLeaf_stay param f t nid pid n pn depth k hn hp hpn hgate] at hrun
            simp only [Except.ok.injEq, Prod.mk.injEq] at hrun
            rcases hrun with ⟨rfl, rfl⟩
            exact CollapsedSound_bump param t0 t pid pn hpn hs

theorem PruneStep_sound [Mul F] (param : TrainParam F) (t0 : RegTree F)
    (st st2 : RegTree F × Int) (i : Nat) (hw : st.1.WF)
    (hf : RegTree.prunedFrom param.learning_rate t0 st.1)
    (hs : RegTree.CollapsedSound param t0 st.1) (hrun : PruneStep param st i = .ok st2) :
    RegTree.CollapsedSound param t0 st2.1 := by
  unfold PruneStep at hrun
  cases hn : st.1.nodes[i]? with
  | none => simp [hn] at hrun
  | some n =>
    simp only [hn] at hrun
    by_cases hl : n.is_leaf = true
    · simp only [hl, if_true] at hrun
      cases hd : st.1.GetDepth i with
      | error e => simp [hd] at hrun
      | ok d =>
        simp only [hd] at hrun
        exact TryPruneLeaf_sound param t0 _ st.1 st2.1 i d st.2 st2.2 hw hf hs hd hrun
    · simp only [hl] at hrun
      cases hrun
      exact hs

theorem PruneVisit_sound [Mul F] (param : TrainParam F) (t0 : RegTree F) (order : List Nat)
    (st st2 : RegTree F × Int) (hw : st.1.WF)
    (hf : RegTree.prunedFrom param.learning_rate t0 st.1)
    (hs : RegTree.CollapsedSound param t0 st.1) (hrun : PruneVisit param order st = .ok st2) :
    RegTree.CollapsedSound param t0 st2.1 := by
  induction order generalizing st with
  | nil => simp [PruneVisit] at hrun; subst hrun; exact hs
  | cons i rest ih =>
    unfold PruneVisit at hrun
    cases hstep : PruneStep param st i with
    | error e => simp [hstep] at hrun
    | ok s1 =>
      simp only [hstep] at hrun
      exact ih s1 (PruneStep_rel param st s1 i hw hstep).1
        (RegTree.prunedFrom_trans _ _ _ _ hf (PruneStep_frame param st s1 i hstep))
        (PruneStep_sound param t0 st s1 i hw hf hs hstep) hrun

theorem DoPruneOrder_sound [Mul F] (param : TrainParam F) (order : List Nat)
    (t t2 : RegTree F) (k : Int) (hw : t.WF)
    (hrun : DoPruneOrder param order t = .ok (t2, k)) :
    RegTree.CollapsedSound param t t2 := by
  unfold DoPruneOrder at hrun
  refine PruneVisit_sound param t order (t.resetLeafChildCnt, 0) (t2, k) (WF_reset t hw)
    (prunedFrom_reset _ t) ?_ hrun
  intro x n0 n h0 hn hi hl
  rw [resetLeafChildCnt_getElem?, h0] at hn
  simp only [Option.map_some', Option.some.injEq] at hn
  subst hn
  exact absurd hl hi

/-! ## A completed pass computes the recursive bottom-up reference -/

theorem toRef_leaf (t : RegTree F) (fuel x : Nat) (n : Node F)
    (hn : t.nodes[x]? = some n) (hl : n.cleft = none) :
    t.toRef (fuel + 1) x = some (.leaf x n.leaf_value) := by
  simp [RegTree.toRef, hn, hl]

theorem toRef_node (t : RegTree F) (fuel x l r : Nat) (n : Node F)
    (hn : t.nodes[x]? = some n) (hl : n.cleft = some l) (hr : n.cright = some r) :
    t.toRef (fuel + 1) x =
      match t.toRef fuel l, t.toRef fuel r with
      | some tl, some tr => some (.node x n.stat.loss_chg n.stat.base_weight tl tr)
      | _, _ => none := by
  conv_lhs => unfold RegTree.toRef
  simp only [hn, hl, hr]

theorem toRef_isLeaf (t : RegTree F) (fuel x : Nat) (s : RefTree F) (n : Node F)
    (hs : t.toRef fuel x = some s) (hn : t.nodes[x]? = some n) :
    s.isLeaf = true ↔ n.cleft = none := by
  cases fuel with
  | zero => simp [RegTree.toRef] at hs
  | succ f =>
    cases hl : n.cleft with
    | none =>
      rw [toRef_leaf t f x n hn hl] at hs
      cases hs
      simp [RefTree.isLeaf]
    | some l =>
      cases hr : n.cright with
      | none => simp [RegTree.toRef, hn, hl, hr] at hs
      | some r =>
        rw [toRef_node t f x l r n hn hl hr] at hs
        cases h1 : t.toRef f l with
        | none => simp [h1] at hs
        | some tl =>
          cases h2 : t.toRef f r with
          | none => simp [h1, h2] at hs
          | some tr =>
            simp only [h1, h2, Option.some.injEq] at hs
            subst hs
            simp [RefTree.isLeaf]

theorem GetDepth_slot (t : RegTree F) (x : Nat) (d : Int) (h : t.GetDepth x = .ok d) :
    ∃ n : Node F, t.nodes[x]? = some n := by
  unfold RegTree.GetDepth RegTree.GetDepthLoop at h
  cases hn : t.nodes[x]? with
  | none => simp [hn] at h
  | some n => exact ⟨n, rfl⟩

/-- The depth of a child is one more than the depth of its parent. -/
theorem RegTree.WF.child_depth {t : RegTree F} (hw : t.WF) (x c : Nat) (n nc : Node F) (d : Int)
    (_hn : t.nodes[x]? = some n) (hnc : t.nodes[c]? = some nc) (hp : nc.parent = some x)
    (hd : t.GetDepth x = .ok d) : t.GetDepth c = .ok (d + 1) := by
  rcases hw.depth c nc hnc with ⟨dc, hdc⟩
  have := GetDepth_parent t c x nc dc hnc hp hdc
  rw [hd] at this
  simp only [Except.ok.injEq] at this
  rw [hdc]
  congr 1
  omega

/-- On a well-formed arena every subtree is read within `num_nodes + 1`
steps. -/
theorem toRef_exists (t : RegTree F) (hw : t.WF) (fuel x : Nat) (d : Int)
    (hd : t.GetDepth x = .ok d) (hfuel : (t.nodes.length : Int) + 1 ≤ d + fuel) :
    ∃ s : RefTree F, t.toRef fuel x = some s := by
  induction fuel generalizing x d with
  | zero =>
    have := GetDepth_bounds t x d hd
    omega
  | succ f ih =>
    rcases GetDepth_slot t x d hd with ⟨n, hn⟩
    cases hl : n.cleft with
    | none => exact ⟨_, toRef_leaf t f x n hn hl⟩
    | some l =>
      rcases hw.children x n l hn hl with ⟨r, nl, nr, hr, _, hnl, hpl, hnr, hpr⟩
      rcases ih l (d + 1) (hw.child_depth x l n nl d hn hnl hpl hd) (by push_cast at hfuel ⊢; omega)
        with ⟨sl, hsl⟩
      rcases ih r (d + 1) (hw.child_depth x r n nr d hn hnr hpr hd) (by push_cast at hfuel ⊢; omega)
        with ⟨sr, hsr⟩
      refine ⟨.node x n.stat.loss_chg n.stat.base_weight sl sr, ?_⟩
      rw [toRef_node t f x l r n hn hl hr, hsl, hsr]

/-- The tree of a completed pass, read below any slot, is the reference
pruning of the input tree read below that slot. -/
theorem toRef_prune [Mul F] (param : TrainParam F) (t t2 : RegTree F) (hw : t.WF)
    (hw2 : t2.WF) (hf : RegTree.prunedFrom param.learning_rate t t2)
    (hc : t2.Complete param) (hs : RegTree.CollapsedSound param t t2)
    (fuel x : Nat) (s : RefTree F) (d : Int)
    (hx : t.toRef fuel x = some s) (hd : t.GetDepth x = .ok d) :
    t2.toRef fuel x = some (s.prune param.need_prune param.learning_rate d) := by
  induction fuel generalizing x s d with
  | zero => simp [RegTree.toRef] at hx
  | succ f ih =>
    rcases GetDepth_slot t x d hd with ⟨n, hn⟩
    rcases hf.2.2 x n hn with ⟨n2, hn2, rel⟩
    cases hl : n.cleft with
    | none =>
      rw [toRef_leaf t f x n hn hl] at hx
      cases hx
      have hl2 : n2.cleft = none := Node.prunedFrom_leaf _ n n2 rel hl
      have hv : n2.leaf_value = n.leaf_value := by
        rcases rel.2.2.2 with ⟨_, _, e⟩ | ⟨e, _⟩
        · exact e
        · exact absurd hl e
      rw [toRef_leaf t2 f x n2 hn2 hl2, hv]
      simp [RefTree.prune]
    | some l =>
      rcases hw.children x n l hn hl with ⟨r, nl, nr, hr, _, hnl, hpl, hnr, hpr⟩
      rw [toRef_node t f x l r n hn hl hr] at hx
      cases h1 : t.toRef f l with
      | none => simp [h1] at hx
      | some sl =>
        cases h2 : t.toRef f r with
        | none => simp [h1, h2] at hx
        | some sr =>
          simp only [h1, h2, Option.some.injEq] at hx
          subst hx
          have i1 := ih l sl (d + 1) h1 (hw.child_depth x l n nl d hn hnl hpl hd)
          have i2 := ih r sr (d + 1) h2 (hw.child_depth x r n nr d hn hnr hpr hd)
          rcases hf.2.2 l nl hnl with ⟨nl2, hnl2, _⟩
          rcases hf.2.2 r nr hnr with ⟨nr2, hnr2, _⟩
          have hleafl := toRef_isLeaf t2 f l _ nl2 i1 hnl2
          have hleafr := toRef_isLeaf t2 f r _ nr2 i2 hnr2
          have hi : n.cleft ≠ none := by rw [hl]; simp
          cases hl2 : n2.cleft with
          | none =>
            -- the node was collapsed
            rcases hs x n n2 hn hn2 hi hl2 with ⟨⟨d', hd', hprune⟩, hch⟩
            rw [hd] at hd'
            simp only [Except.ok.injEq] at hd'
            subst hd'
            rcases hch l (Or.inl hl) with ⟨nl2', hnl2', hll⟩
            rw [hnl2] at hnl2'; cases hnl2'
            rcases hch r (Or.inr hr) with ⟨nr2', hnr2', hlr⟩
            rw [hnr2] at hnr2'; cases hnr2'
            have hv : n2.leaf_value = param.learning_rate * n.stat.base_weight := by
              rcases rel.2.2.2 with ⟨e, _, _⟩ | ⟨_, _, _, e⟩
              · rw [hl2, hl] at e; cases e
              · exact e
            rw [toRef_leaf t2 f x n2 hn2 hl2, hv]
            simp only [RefTree.prune, hleafl.2 hll, hleafr.2 hlr, hprune, Bool.and_self, if_true]
          | some l2 =>
            have hi2 : n2.cleft ≠ none := by rw [hl2]; simp
            have hch := Node.prunedFrom_internal _ n n2 rel hi2
            have hl2' : n2.cleft = some l := by rw [hch.1]; exact hl
            have hr2' : n2.cright = some r := by rw [hch.2]; exact hr
            rw [toRef_node t2 f x l r n2 hn2 hl2' hr2', i1, i2]
            simp only [rel.1, rel.2.1]
            have hkeep : ¬ (((sl.prune param.need_prune param.learning_rate (d + 1)).isLeaf &&
                (sr.prune param.need_prune param.learning_rate (d + 1)).isLeaf &&
                param.need_prune n.stat.loss_chg d) = true) := by
              intro hall
              simp only [Bool.and_eq_true] at hall
              have hd2 : t2.GetDepth x = .ok d := by
                rw [← GetDepth_kept param.learning_rate t t2 hw2 hf x n2 l hn2 hl2']; exact hd
              have := hc x n2 l r nl2 nr2 d hn2 hl2' hr2' hnl2 (hleafl.1 hall.1.1) hnr2
                (hleafr.1 hall.1.2) hd2
              rw [rel.1, hall.2] at this
              cases this
            simp [RefTree.prune, hkeep]

/-! ## The count of a completed pass and the collapses of the reference -/

theorem toRef_mono (t : RegTree F) (fuel x : Nat) (s : RefTree F)
    (h : t.toRef fuel x = some s) : t.toRef (fuel + 1) x = some s := by
  induction fuel generalizing x s with
  | zero => simp [RegTree.toRef] at h
  | succ f ih =>
    cases hn : t.nodes[x]? with
    | none => simp [RegTree.toRef, hn] at h
    | some n =>
      cases hl : n.cleft with
      | none =>
        rw [toRef_leaf t f x n hn hl] at h
        rw [toRef_leaf t (f + 1) x n hn hl]
        exact h
      | some l =>
        cases hr : n.cright with
        | none => simp [RegTree.toRef, hn, hl, hr] at h
        | some r =>
          rw [toRef_node t f x l r n hn hl hr] at h
          rw [toRef_node t (f + 1) x l r n hn hl hr]
          cases h1 : t.toRef f l with
          | none => simp [h1] at h
          | some tl =>
            cases h2 : t.toRef f r with
            | none => simp [h1, h2] at h
            | some tr =>
              rw [ih l tl h1, ih r tr h2]
              simpa [h1, h2] using h

theorem sum_map_range (f : Nat → Nat) (n : Nat) :
    ((List.range n).map f).sum = ∑ x ∈ Finset.range n, f x := by
  induction n with
  | zero => simp
  | succ m ih =>
    rw [List.range_succ, List.map_append, List.sum_append, ih, Finset.sum_range_succ]
    simp

theorem length_filter_range (p : Nat → Bool) (n : Nat) :
    ((List.range n).filter p).length = ∑ x ∈ Finset.range n, if p x = true then 1 else 0 := by
  induction n with
  | zero => simp
  | succ m ih =>
    rw [List.range_succ, List.filter_append, List.length_append, ih, Finset.sum_range_succ]
    by_cases h : p m = true <;> simp [h]

theorem parent_eq_iff (t : RegTree F) (y x : Nat) :
    (t.nodes[y]?).bind Node.parent = some x ↔
      ∃ ny : Node F, t.nodes[y]? = some ny ∧ ny.parent = some x := by
  cases hy : t.nodes[y]? with
  | none => simp
  | some ny => simp

theorem RefTree.isLeaf_ite (c : Bool) (a b : RefTree F) (ha : a.isLeaf = true)
    (hb : b.isLeaf = false) : (if c = true then a else b).isLeaf = c := by
  cases c
  · simpa using hb
  · simpa using ha

theorem RefTree.prune_node [Mul F] (P : F → Int → Bool) (r : F) (id : Nat) (lc bw : F)
    (l rt : RefTree F) (d : Int) :
    RefTree.prune P r (.node id lc bw l rt) d =
      if ((RefTree.prune P r l (d + 1)).isLeaf && (RefTree.prune P r rt (d + 1)).isLeaf &&
        P lc d) = true
      then .leaf id (r * bw)
      else .node id lc bw (RefTree.prune P r l (d + 1)) (RefTree.prune P r rt (d + 1)) := rfl

theorem RefTree.prune_node_isLeaf [Mul F] (P : F → Int → Bool) (r : F) (id : Nat) (lc bw : F)
    (l rt : RefTree F) (d : Int) :
    (RefTree.prune P r (.node id lc bw l rt) d).isLeaf =
      ((RefTree.prune P r l (d + 1)).isLeaf && (RefTree.prune P r rt (d + 1)).isLeaf &&
        P lc d) := by
  rw [RefTree.prune_node]
  exact RefTree.isLeaf_ite _ _ _ rfl rfl

theorem RefTree.collapses_node [Mul F] (P : F → Int → Bool) (r : F) (id : Nat) (lc bw : F)
    (l rt : RefTree F) (d : Int) :
    RefTree.collapses P r (.node id lc bw l rt) d =
      RefTree.collapses P r l (d + 1) + RefTree.collapses P r rt (d + 1) +
      (if ((RefTree.prune P r l (d + 1)).isLeaf && (RefTree.prune P r rt (d + 1)).isLeaf &&
        P lc d) = true then 1 else 0) := rfl

/-- The collapses of the reference below a slot: one for the slot itself when
the pass has collapsed it, plus the collapses below its children. -/
theorem subtreeCollapses_step [Mul F] (param : TrainParam F) (t t2 : RegTree F) (hw : t.WF)
    (hw2 : t2.WF) (hf : RegTree.prunedFrom param.learning_rate t t2)
    (hc : t2.Complete param) (hs : RegTree.CollapsedSound param t t2)
    (x : Nat) (hx : x < t.nodes.length) :
    subtreeCollapses param t x =
      (if x ∈ collapsedSlots t t2 then 1 else 0) +
      ∑ y ∈ Finset.range t.nodes.length,
        if (t.nodes[y]?).bind Node.parent = some x then subtreeCollapses param t y else 0 := by
  have hn : t.nodes[x]? = some t.nodes[x] := List.getElem?_eq_getElem hx
  generalize t.nodes[x] = nx at hn
  rcases hw.depth x nx hn with ⟨d, hd⟩
  have hb := GetDepth_bounds t x d hd
  rcases toRef_exists t hw (t.num_nodes + 1) x d hd
    (by unfold RegTree.num_nodes; push_cast; omega) with ⟨s, hsx⟩
  have hSx : subtreeCollapses param t x =
      s.collapses param.need_prune param.learning_rate d := by
    unfold subtreeCollapses
    rw [hd, hsx]
  have heq := toRef_prune param t t2 hw hw2 hf hc hs (t.num_nodes + 1) x s d hsx hd
  rcases hf.2.2 x nx hn with ⟨n2, hn2, rel⟩
  have hleaf2 := toRef_isLeaf t2 (t.num_nodes + 1) x _ n2 heq hn2
  have hmem : x ∈ collapsedSlots t t2 ↔ nx.cleft ≠ none ∧ n2.cleft = none := by
    rw [mem_collapsedSlots]
    constructor
    · rintro ⟨a, b, ha, hb, h1, h2⟩
      rw [hn] at ha; cases ha
      rw [hn2] at hb; cases hb
      exact ⟨h1, h2⟩
    · rintro ⟨h1, h2⟩
      exact ⟨nx, n2, hn, hn2, h1, h2⟩
  rw [hSx]
  cases hl : nx.cleft with
  | none =>
    rw [toRef_leaf t _ x nx hn hl] at hsx
    cases hsx
    have h0 : ¬ x ∈ collapsedSlots t t2 := by
      rw [hmem]; rintro ⟨h1, _⟩; exact h1 hl
    rw [if_neg h0, Finset.sum_eq_zero]
    · simp [RefTree.collapses]
    · intro y _
      rw [if_neg]
      intro hpar
      rcases (parent_eq_iff t y x).1 hpar with ⟨ny, hny, hp⟩
      rcases hw.parent y ny x hny hp with ⟨np, hnp, hch⟩
      rw [hn] at hnp; cases hnp
      have := hw.leaf x nx hn hl
      rcases hch with e | e
      · rw [hl] at e; cases e
      · rw [this] at e; cases e
  | some l =>
    rcases hw.children x nx l hn hl with ⟨r, nl, nr, hr, hne, hnl, hpl, hnr, hpr⟩
    rw [toRef_node t _ x l r nx hn hl hr] at hsx
    cases h1 : t.toRef t.num_nodes l with
    | none => simp [h1] at hsx
    | some sl =>
      cases h2 : t.toRef t.num_nodes r with
      | none => simp [h1, h2] at hsx
      | some sr =>
        simp only [h1, h2, Option.some.injEq] at hsx
        subst hsx
        have hdl := hw.child_depth x l nx nl d hn hnl hpl hd
        have hdr := hw.child_depth x r nx nr d hn hnr hpr hd
        have hSl : subtreeCollapses param t l =
            sl.collapses param.need_prune param.learning_rate (d + 1) := by
          unfold subtreeCollapses
          rw [hdl, toRef_mono t _ l sl h1]
        have hSr : subtreeCollapses param t r =
            sr.collapses param.need_prune param.learning_rate (d + 1) := by
          unfold subtreeCollapses
          rw [hdr, toRef_mono t _ r sr h2]
        have hpar : ∀ y : Nat, ((t.nodes[y]?).bind Node.parent = some x) ↔ (l = y ∨ r = y) := by
          intro y
          rw [parent_eq_iff]
          constructor
          · rintro ⟨ny, hny, hp⟩
            rcases hw.parent y ny x hny hp with ⟨np, hnp, hch⟩
            rw [hn] at hnp; cases hnp
            rcases hch with e | e
            · rw [hl] at e; cases e; exact Or.inl rfl
            · rw [hr] at e; cases e; exact Or.inr rfl
          · rintro (e | e)
            · subst e; exact ⟨nl, hnl, hpl⟩
            · subst e; exact ⟨nr, hnr, hpr⟩
        have hsum : (∑ y ∈ Finset.range t.nodes.length,
            if (t.nodes[y]?).bind Node.parent = some x then subtreeCollapses param t y else 0) =
            subtreeCollapses param t l + subtreeCollapses param t r := by
          have hpt : ∀ y ∈ Finset.range t.nodes.length,
              (if (t.nodes[y]?).bind Node.parent = some x then subtreeCollapses param t y
                else 0) =
              (if l = y then subtreeCollapses param t y else 0) +
              (if r = y then subtreeCollapses param t y else 0) := by
            intro y _
            by_cases e1 : l = y
            · have e2 : ¬ r = y := fun e => hne (e1.trans e.symm)
              rw [if_pos ((hpar y).2 (Or.inl e1)), if_pos e1, if_neg e2]; simp
            · by_cases e2 : r = y
              · rw [if_pos ((hpar y).2 (Or.inr e2)), if_neg e1, if_pos e2]; simp
              · rw [if_neg, if_neg e1, if_neg e2]
                intro h
                rcases (hpar y).1 h with e | e
                · exact e1 e
                · exact e2 e
          rw [Finset.sum_congr rfl hpt, Finset.sum_add_distrib, Finset.sum_ite_eq,
            Finset.sum_ite_eq]
          simp [lt_of_getElem?_eq_some hnl, lt_of_getElem?_eq_some hnr]
        rw [hsum, hSl, hSr]
        have hcond : x ∈ collapsedSlots t t2 ↔
            ((sl.prune param.need_prune param.learning_rate (d + 1)).isLeaf &&
              (sr.prune param.need_prune param.learning_rate (d + 1)).isLeaf &&
              param.need_prune nx.stat.loss_chg d) = true := by
          rw [hmem, ← hleaf2, RefTree.prune_node_isLeaf]
          have hi : nx.cleft ≠ none := by rw [hl]; simp
          exact ⟨fun h => h.2, fun h => ⟨hi, h⟩⟩
        rw [RefTree.collapses_node]
        by_cases hall : ((sl.prune param.need_prune param.learning_rate (d + 1)).isLeaf &&
            (sr.prune param.need_prune param.learning_rate (d + 1)).isLeaf &&
            param.need_prune nx.stat.loss_chg d) = true
        · rw [if_pos (hcond.2 hall), if_pos hall]
          omega
        · rw [if_neg (fun h => hall (hcond.1 h)), if_neg hall]
          omega

/-- On a completed pass the reference collapses as many nodes as the pass. -/
theorem referenceCollapses_eq [Mul F] (param : TrainParam F) (t t2 : RegTree F) (hw : t.WF)
    (hw2 : t2.WF) (hf : RegTree.prunedFrom param.learning_rate t t2)
    (hc : t2.Complete param) (hs : RegTree.CollapsedSound param t t2) :
    referenceCollapses param t = (collapsedSlots t t2).length := by
  have hA : ∀ x ∈ Finset.range t.nodes.length, subtreeCollapses param t x =
      (if x ∈ collapsedSlots t t2 then 1 else 0) +
      ∑ y ∈ Finset.range t.nodes.length,
        if (t.nodes[y]?).bind Node.parent = some x then subtreeCollapses param t y else 0 :=
    fun x hx => subtreeCollapses_step param t t2 hw hw2 hf hc hs x (Finset.mem_range.1 hx)
  have sumA := Finset.sum_congr rfl hA
  rw [Finset.sum_add_distrib, Finset.sum_comm] at sumA
  have hB : ∀ y ∈ Finset.range t.nodes.length,
      (∑ x ∈ Finset.range t.nodes.length,
        if (t.nodes[y]?).bind Node.parent = some x then subtreeCollapses param t y else 0) =
      if ((t.nodes[y]?).bind Node.parent).isSome then subtreeCollapses param t y else 0 := by
    intro y _
    cases hp : (t.nodes[y]?).bind Node.parent with
    | none => simp
    | some p =>
      rcases (parent_eq_iff t y p).1 hp with ⟨ny, hny, hpp⟩
      rcases hw.parent y ny p hny hpp with ⟨np, hnp, _⟩
      have hlt : p < t.nodes.length := lt_of_getElem?_eq_some hnp
      simp only [Option.some.injEq, Option.isSome_some, if_true]
      rw [Finset.sum_ite_eq]
      simp [hlt]
  rw [Finset.sum_congr rfl hB] at sumA
  have split : (∑ x ∈ Finset.range t.nodes.length, subtreeCollapses param t x) =
      (∑ x ∈ Finset.range t.nodes.length,
        if ((t.nodes[x]?).bind Node.parent).isSome then subtreeCollapses param t x else 0) +
      ∑ x ∈ Finset.range t.nodes.length,
        if ((t.nodes[x]?).bind Node.parent).isSome then 0 else subtreeCollapses param t x := by
    rw [← Finset.sum_add_distrib]
    refine Finset.sum_congr rfl (fun x _ => ?_)
    by_cases h : ((t.nodes[x]?).bind Node.parent).isSome = true <;> simp [h]
  have hroots : referenceCollapses param t =
      ∑ x ∈ Finset.range t.nodes.length,
        if ((t.nodes[x]?).bind Node.parent).isSome then 0 else subtreeCollapses param t x := by
    unfold referenceCollapses RegTree.num_nodes
    rw [sum_map_range]
    refine Finset.sum_congr rfl (fun x hx => ?_)
    obtain ⟨nx, hn⟩ : ∃ nx : Node F, t.nodes[x]? = some nx :=
      ⟨_, List.getElem?_eq_getElem (Finset.mem_range.1 hx)⟩
    simp only [hn, Option.some_bind]
    cases hp : nx.parent with
    | none =>
      simp only [Node.is_root, hp, Option.isNone_none, if_true, Option.isSome_none]
      unfold subtreeCollapses RegTree.num_nodes
      rw [GetDepth_root t x nx hn hp]
      cases t.toRef (t.nodes.length + 1) x <;> rfl
    | some p => simp [Node.is_root, hp]
  have hcol : ((collapsedSlots t t2).length) =
      ∑ x ∈ Finset.range t.nodes.length, if x ∈ collapsedSlots t t2 then 1 else 0 := by
    unfold collapsedSlots
    rw [length_filter_range]
    refine Finset.sum_congr rfl (fun x hx => ?_)
    simp only [List.mem_filter, List.mem_range, Finset.mem_range.1 hx, true_and]
  rw [hroots, hcol]
  rw [split] at sumA
  exact Nat.add_left_cancel (sumA.trans (Nat.add_comm _ _))

/-- The extent to which `DoPrune` agrees with the recursive bottom-up
reference: whenever the pass completes on a well-formed tree, the
tree it returns, read below any root, is the tree the reference returns for
that root, and its count is twice the number of nodes the reference collapses
over all roots. -/
theorem DoPrune_reference_of_completed [Mul F] (param : TrainParam F) (t t2 : RegTree F)
    (k : Int) (hwf : t.wellFormed = true) (h : DoPrune param t = .ok (t2, k)) :
    (∀ (root : Nat) (n : Node F), t.nodes[root]? = some n → n.is_root = true →
      ∃ r : RefTree F × Int, referencePrune param t root = some r ∧
        t2.toRef (t2.num_nodes + 1) root = some r.1) ∧
    k = 2 * (referenceCollapses param t : Int) := by
  have hw := WF_of_wellFormed t hwf
  rcases DoPruneOrder_complete param (List.range t.num_nodes) t t2 k hw
    (fun i hi => List.mem_range.2 hi) h with ⟨hw2, hc⟩
  have hf := DoPruneOrder_frame param _ t t2 k h
  have hs := DoPruneOrder_sound param _ t t2 k hw h
  constructor
  · intro root n hn hroot
    have hp : n.parent = none := by
      cases hpar : n.parent with
      | none => rfl
      | some p => simp [Node.is_root, hpar] at hroot
    have hd := GetDepth_root t root n hn hp
    rcases toRef_exists t hw (t.num_nodes + 1) root 0 hd
      (by unfold RegTree.num_nodes; push_cast; omega) with ⟨s, hsx⟩
    have heq := toRef_prune param t t2 hw hw2 hf hc hs (t.num_nodes + 1) root s 0 hsx hd
    refine ⟨(s.prune param.need_prune param.learning_rate 0,
      2 * (s.collapses param.need_prune param.learning_rate 0 : Int)), ?_, ?_⟩
    · unfold referencePrune
      rw [hsx]
      rfl
    · have hlen : t2.num_nodes = t.num_nodes := hf.1
      rw [hlen]
      exact heq
  · rw [referenceCollapses_eq param t t2 hw hw2 hf hc hs]
    exact (WalkRel_count _ _ _ _ _ (DoPruneOrder_walk param _ t t2 k h)).1.trans (by simp)

/-- The pass over `chainTree` completes, and agrees with the reference. -/
theorem DoPrune_reference_of_completed_witness :
    DoPrune belowOne chainTree = .ok (chainTreePruned, 4) ∧
    referencePrune belowOne chainTree 0 = some (.leaf 0 21, 4) ∧
    chainTreePruned.toRef (chainTreePruned.num_nodes + 1) 0 = some (.leaf 0 21) ∧
    (4 : Int) = 2 * (referenceCollapses belowOne chainTree : Int) :=
  ⟨by decide, by decide, by decide,
   (DoPrune_reference_of_completed belowOne chainTree chainTreePruned 4 (by decide)
    (by decide)).2⟩

end tree
end xgboost
